import Mathlib

/-!
# Backup rotation of the raft data folder (`consensus/raft/data_helper.go`)

A shallow embedding of `dataBackupHelper` and of the parts of Go's
`path/filepath` and `os` packages it calls, followed by theorems about
`makeName`, `listBackups` and `makeBackup`.

Go strings are modelled as lists of characters.  The only character the path
functions inspect is the separator `/`, so nothing depends on the encoding.
-/

set_option autoImplicit false

namespace Raft

/-! ## Strings and `path/filepath` (Unix) -/

/-- Go `string`, as the list of its characters. -/
abbrev Str := List Char

/-- The path separator `filepath.Separator`. -/
def Separator : Char := '/'

/-- The path elements of a string: the maximal runs between separators.
The result is never empty; a string without separator is its own single element. -/
def splitElems : Str → List Str
  | [] => [[]]
  | c :: cs =>
    if c = Separator then [] :: splitElems cs
    else
      match splitElems cs with
      | [] => [[c]]
      | e :: es => (c :: e) :: es

/-- The write buffer of `filepath.Clean`, kept as the list of elements written so
far (the most recent first) together with `dotdot`, the number of leading
elements that a later `..` may not remove (they are themselves `..`). -/
structure lazybuf where
  out : List Str
  dotdot : Nat
deriving DecidableEq, Repr

/-- One iteration of the main loop of `filepath.Clean`, on one path element:
an empty element and `.` are skipped; `..` removes the last element when it
can backtrack, is appended when the path is not rooted, and is dropped at the
root; any other element is appended. -/
def cleanStep (rooted : Bool) (b : lazybuf) (e : Str) : lazybuf :=
  if e = [] then b
  else if e = ['.'] then b
  else if e = ['.', '.'] then
    if b.dotdot < b.out.length then { b with out := b.out.tail }
    else if !rooted then { out := e :: b.out, dotdot := b.out.length + 1 }
    else b
  else { b with out := e :: b.out }

/-- The elements joined by single separators. -/
def joinElems : List Str → Str
  | [] => []
  | [e] => e
  | e :: es => e ++ Separator :: joinElems es

/-- The string held by the buffer when `filepath.Clean` returns: the leading
separator of a rooted path, the elements, and `.` for an empty result. -/
def lazybuf.string (rooted : Bool) (b : lazybuf) : Str :=
  if rooted then Separator :: joinElems b.out.reverse
  else if b.out = [] then ['.']
  else joinElems b.out.reverse

/-- Whether the path starts with a separator. -/
def isRooted (path : Str) : Bool :=
  match path with
  | [] => false
  | c :: _ => c = Separator

/-- Go `filepath.Clean`: the shortest path name equivalent to `path` by purely
lexical processing.  Runs of separators count as one, `.` elements are dropped,
an inner `..` removes the element before it, a `..` at the root is dropped, and
an empty result is `.`. -/
def Clean (path : Str) : Str :=
  if path = [] then ['.']
  else
    ((splitElems path).foldl (cleanStep (isRooted path)) ⟨[], 0⟩).string (isRooted path)

/-- Go `filepath.Join` of two elements: empty elements are ignored and the result
is cleaned; the result is empty only when both elements are. -/
def Join (a b : Str) : Str :=
  if a ≠ [] then Clean (a ++ Separator :: b)
  else if b ≠ [] then Clean b
  else []

/-- The part of `path` up to and including its last separator (`path[:i+1]` in
`filepath.Dir`), empty when there is no separator. -/
def dirPart (path : Str) : Str :=
  (path.reverse.dropWhile (fun c => c != Separator)).reverse

/-- Go `filepath.Dir`: all but the last element of `path`, cleaned. -/
def Dir (path : Str) : Str := Clean (dirPart path)

/-- Go `filepath.Base`: the last element of `path`, after removing trailing
separators; `.` for the empty path and the separator for a path of separators. -/
def Base (path : Str) : Str :=
  if path = [] then ['.']
  else
    let stripped := (path.reverse.dropWhile (fun c => c == Separator)).reverse
    let last := (stripped.reverse.takeWhile (fun c => c != Separator)).reverse
    if last = [] then [Separator] else last

/-- The decimal digits of `i`, as `fmt.Sprintf("%d", i)` prints a non-negative `int`. -/
def decimal (i : Nat) : Str := Nat.toDigits 10 i

/-! ## The helper -/

/-- The struct `dataBackupHelper`. -/
structure dataBackupHelper where
  baseDir : Str
  folderName : Str
deriving DecidableEq, Repr

/-- The constructor `newDataBackupHelper(dataFolder)`. -/
def newDataBackupHelper (dataFolder : Str) : dataBackupHelper :=
  { baseDir := Dir dataFolder, folderName := Base dataFolder }

/-- The method `makeName(i)`:
`filepath.Join(baseDir, fmt.Sprintf("%s.old.%d", folderName, i))`. -/
def dataBackupHelper.makeName (dbh : dataBackupHelper) (i : Nat) : Str :=
  Join dbh.baseDir (dbh.folderName ++ ".old.".toList ++ decimal i)

/-- The directory `makeBackup` rotates: `filepath.Join(baseDir, folderName)`. -/
def dataBackupHelper.folder (dbh : dataBackupHelper) : Str :=
  Join dbh.baseDir dbh.folderName

/-! ## The filesystem and the `os` primitives

The filesystem is a map from path names to the content stored under them.  Path
names are keys: the nesting of directories is not modelled, except that
`MkdirAll` makes the parents of a path.  Each primitive call is recorded in a
trace together with its error, and a fault schedule says which calls fail for a
reason of the environment (permissions, I/O): the call made when the trace has
length `n` fails with code `c` when `faults n = some c`, and then changes
nothing. -/

/-- What a directory holds, as an opaque marker; `emptyDir` marks a new directory. -/
abbrev Content := Nat

/-- The content of a directory just created. -/
def emptyDir : Content := 0

/-- Go `error` values of the `os` primitives: the one `os.IsNotExist` recognises,
and any other, with its code. -/
inductive OsError where
  | notExist
  | other (code : Nat)
deriving DecidableEq, Repr

/-- Go `os.IsNotExist(err)`, on a possibly nil error. -/
def IsNotExist : Option OsError → Bool
  | some .notExist => true
  | _ => false

/-- A call of a filesystem primitive. -/
inductive Call where
  | Stat (name : Str)
  | MkdirAll (path : Str)
  | RemoveAll (path : Str)
  | Rename (oldpath newpath : Str)
deriving DecidableEq, Repr

/-- A recorded call with the error it returned (`none` for nil). -/
structure Event where
  call : Call
  err : Option OsError
deriving DecidableEq, Repr

/-- The state of the world: the files, the fault schedule and the calls made so far. -/
structure FS where
  files : Str → Option Content
  faults : Nat → Option Nat
  trace : List Event

/-- The fault scheduled for the next call. -/
def FS.fault (fs : FS) : Option Nat := fs.faults fs.trace.length

/-- The state after a call that returned `err` and left the files as `files`. -/
def FS.record (fs : FS) (call : Call) (err : Option OsError)
    (files : Str → Option Content) : FS :=
  { fs with files := files, trace := fs.trace ++ [⟨call, err⟩] }

/-- Go `os.Stat(name)`, reduced to its error: nil when the path exists,
the not-exist error when it does not, another error on a fault. -/
def Stat (name : Str) (fs : FS) : Option OsError × FS :=
  match fs.fault with
  | some c => (some (.other c), fs.record (.Stat name) (some (.other c)) fs.files)
  | none =>
    if (fs.files name).isSome then (none, fs.record (.Stat name) none fs.files)
    else (some .notExist, fs.record (.Stat name) (some .notExist) fs.files)

/-- Whether `q` is `path` or a parent directory of it: a non-empty `q` followed
by a separator starts `path`, or `q` is the root of a rooted `path`. -/
def isSelfOrParent (q path : Str) : Bool :=
  q == path || (!q.isEmpty && (q ++ [Separator]).isPrefixOf path) ||
    (q == [Separator] && isRooted path)

/-- Go `os.MkdirAll(path, perm)`: creates the directory `path` and any missing
parent, and does nothing to what exists already. -/
def MkdirAll (path : Str) (fs : FS) : Option OsError × FS :=
  match fs.fault with
  | some c => (some (.other c), fs.record (.MkdirAll path) (some (.other c)) fs.files)
  | none =>
    (none, fs.record (.MkdirAll path) none (fun q =>
      if isSelfOrParent q path && (fs.files q).isNone then some emptyDir else fs.files q))

/-- Go `os.RemoveAll(path)`: removes `path` and what it contains; nil when the
path does not exist.  A call that fails is taken to leave the path in place. -/
def RemoveAll (path : Str) (fs : FS) : Option OsError × FS :=
  match fs.fault with
  | some c => (some (.other c), fs.record (.RemoveAll path) (some (.other c)) fs.files)
  | none => (none, fs.record (.RemoveAll path) none (Function.update fs.files path none))

/-- Go `os.Rename(oldpath, newpath)`: moves what is at `oldpath` to `newpath`,
replacing what was there; the not-exist error when `oldpath` does not exist.
A rename the system refuses (a non-empty destination, another device) is a fault. -/
def Rename (oldpath newpath : Str) (fs : FS) : Option OsError × FS :=
  match fs.fault with
  | some c =>
    (some (.other c), fs.record (.Rename oldpath newpath) (some (.other c)) fs.files)
  | none =>
    match fs.files oldpath with
    | none =>
      (some .notExist, fs.record (.Rename oldpath newpath) (some .notExist) fs.files)
    | some c =>
      (none, fs.record (.Rename oldpath newpath) none
        (Function.update (Function.update fs.files oldpath none) newpath (some c)))

/-! ## `listBackups` and `makeBackup` -/

/-- The default of the package variable `RaftDataBackupKeep`.  The variable can
be reassigned at any time, so the functions below take its current value as
the argument `keep`. -/
def RaftDataBackupKeep : Int := 5

/-- How a call of `makeBackup` ends: it returns nil, returns an error, or
panics on an index out of range. -/
inductive Outcome where
  | nil
  | err (e : OsError)
  | panic
deriving DecidableEq, Repr

/-- The loop of `listBackups`, entered at index `i` with the list `backups`:
`for ; i < RaftDataBackupKeep; i++`.  `fuel` bounds the number of iterations. -/
def listBackupsLoop (dbh : dataBackupHelper) (keep : Int) :
    Nat → Nat → List Str → FS → List Str × FS
  | 0, _, backups, fs => (backups, fs)
  | fuel + 1, i, backups, fs =>
    if (i : Int) < keep then
      let name := dbh.makeName i
      let r := Stat name fs
      if IsNotExist r.1 then (backups, r.2)
      else listBackupsLoop dbh keep fuel (i + 1) (backups ++ [name]) r.2
    else (backups, fs)

/-- The method `listBackups()`.  The loop makes at most `keep` iterations, so this
fuel never runs out (`listBackupsLoop_spec`). -/
def dataBackupHelper.listBackups (dbh : dataBackupHelper) (keep : Int) (fs : FS) :
    List Str × FS :=
  listBackupsLoop dbh keep keep.toNat 0 [] fs

/-- Go indexing `xs[i]` with an `int` index: `none` is the out-of-range panic. -/
def index (xs : List Str) (i : Int) : Option Str :=
  if 0 ≤ i then xs[i.toNat]? else none

/-- The shift loop of `makeBackup`, entered with loop variable `i`:
`for ; i > 0; i-- { err := os.Rename(backups[i-1], backups[i]); ... }`.
The outcome `nil` means the loop ran to its end. -/
def shiftLoop (backups : List Str) : Nat → FS → Outcome × FS
  | 0, fs => (.nil, fs)
  | i + 1, fs =>
    match index backups i, index backups (i + 1 : Nat) with
    | some o, some n =>
      let r := Rename o n fs
      match r.1 with
      | some e => (.err e, r.2)
      | none => shiftLoop backups i r.2
    | _, _ => (.panic, fs)

/-- The end of `makeBackup`, from the shift loop on: the loop over `backups`,
then `return os.Rename(filepath.Join(baseDir, folderName), makeName(0))`. -/
def shiftAndSave (dbh : dataBackupHelper) (backups : List Str) (fs : FS) : Outcome × FS :=
  let s := shiftLoop backups (backups.length - 1) fs
  match s.1 with
  | .nil =>
    let r := Rename (Join dbh.baseDir dbh.folderName) (dbh.makeName 0) s.2
    match r.1 with
    | some e => (.err e, r.2)
    | none => (.nil, r.2)
  | o => (o, s.2)

/-- The method `makeBackup()`. -/
def dataBackupHelper.makeBackup (dbh : dataBackupHelper) (keep : Int) (fs : FS) :
    Outcome × FS :=
  let folder := Join dbh.baseDir dbh.folderName
  let st := Stat folder fs
  if IsNotExist st.1 then (.nil, st.2)
  else
    let mk := MkdirAll dbh.baseDir st.2
    match mk.1 with
    | some e => (.err e, mk.2)
    | none =>
      let l := dbh.listBackups keep mk.2
      if keep ≤ (l.1.length : Int) then
        match index l.1 ((l.1.length : Int) - 1) with
        | none => (.panic, l.2)
        | some last => shiftAndSave dbh l.1 (RemoveAll last l.2).2
      else shiftAndSave dbh (l.1 ++ [dbh.makeName l.1.length]) l.2

/-! ## Auxiliary definitions of the proofs -/

/-- The value of a string of decimal digits. -/
def digitsValue (ds : Str) (acc : Nat) : Nat :=
  ds.foldl (fun a c => 10 * a + (c.toNat - 48)) acc

/-- The suffix `.old.<i>` that `makeName` appends to the folder name. -/
def oldSuffix (i : Nat) : Str := ".old.".toList ++ decimal i

/-- The last path element of a string. -/
def lastElem (s : Str) : Option Str := (splitElems s).getLast?

/-- The names a helper uses are kept apart: distinct indices give distinct
generation names, no generation name is the rotated folder, and none is the
parent directory or one of its parents. -/
structure Separate (dbh : dataBackupHelper) : Prop where
  inj : Function.Injective dbh.makeName
  folder : ∀ i, dbh.makeName i ≠ dbh.folder
  parent : ∀ i, isSelfOrParent (dbh.makeName i) dbh.baseDir = false

/-- An element that `filepath.Clean` copies to its buffer as it is. -/
def plainElem (e : Str) : Prop := e ≠ [] ∧ e ≠ ['.'] ∧ e ≠ ['.', '.']

/-- No element held by the buffer is empty. -/
def lazybuf.noEmpty (b : lazybuf) : Prop := ∀ x ∈ b.out, x ≠ []

/-- The buffers `filepath.Clean` can reach on a path with rootedness `r`: the
elements are plain and free of separators, but for `dotdot` leading `..`
elements, which occur only when the path is not rooted. -/
structure lazybuf.reach (r : Bool) (b : lazybuf) : Prop where
  norm : ∃ ns : List Str, b.out = ns ++ List.replicate b.dotdot ['.', '.'] ∧
    ∀ x ∈ ns, plainElem x ∧ Separator ∉ x
  rooted : r = true → b.dotdot = 0

/-- The string `Join` cleans for the folder of a helper: the base directory
and the folder name with a separator between them, or the folder name alone
when the base directory is empty. -/
def dataBackupHelper.joined (dbh : dataBackupHelper) : Str :=
  if dbh.baseDir ≠ [] then dbh.baseDir ++ Separator :: dbh.folderName else dbh.folderName

/-! ## Scenarios -/

/-- The state whose files are those listed, with the faults listed by call
number and an empty trace. -/
def FS.ofList (entries : List (Str × Content)) (faults : List (Nat × Nat)) : FS :=
  { files := fun p => entries.lookup p, faults := fun n => faults.lookup n, trace := [] }

/-- The caller recreates the rotated folder with content `c`. -/
def recreate (dbh : dataBackupHelper) (c : Content) (fs : FS) : FS :=
  { fs with files := Function.update fs.files dbh.folder (some c) }

/-- The state after `m` rounds, round `j` recreating the folder with content `c j`
and then calling `makeBackup`. -/
def rotate (dbh : dataBackupHelper) (keep : Int) (c : Nat → Content) : Nat → FS → FS
  | 0, fs => fs
  | m + 1, fs => (dbh.makeBackup keep (recreate dbh (c (m + 1)) (rotate dbh keep c m fs))).2

/-- Whether each of the `m` calls of `makeBackup` in `rotate` returned nil. -/
def rotateOk (dbh : dataBackupHelper) (keep : Int) (c : Nat → Content) : Nat → FS → Bool
  | 0, _ => true
  | m + 1, fs =>
    rotateOk dbh keep c m fs &&
      decide ((dbh.makeBackup keep (recreate dbh (c (m + 1)) (rotate dbh keep c m fs))).1 = .nil)

/-- A failed call whose error `makeBackup` returns: a failed `MkdirAll` or `Rename`. -/
def Event.fatal (ev : Event) : Bool :=
  match ev.call, ev.err with
  | .MkdirAll _, some _ => true
  | .Rename _ _, some _ => true
  | _, _ => false

/-- No call of the list is a failed `MkdirAll` or `Rename`. -/
def quiet (evs : List Event) : Prop := ∀ ev ∈ evs, ev.fatal = false

/-- The files after a successful `MkdirAll path`: `path` and its missing parents
are new empty directories. -/
def mkdirAllFiles (path : Str) (files : Str → Option Content) : Str → Option Content :=
  fun q => if isSelfOrParent q path && (files q).isNone then some emptyDir else files q

/-- The list `listBackups` returns to `makeBackup`, which calls it after the
existence test of the folder and the creation of the parent directory. -/
def dataBackupHelper.enumerated (dbh : dataBackupHelper) (keep : Int) (fs : FS) : List Str :=
  (dbh.listBackups keep (MkdirAll dbh.baseDir (Stat dbh.folder fs).2).2).1

/-- A call that failed for a reason of the environment: its error is not nil and
not the not-exist error. -/
def Event.faulted (ev : Event) : Bool :=
  match ev.err with
  | some (.other _) => true
  | _ => false

/-- The files after a recorded call: a call that returned an error changed
nothing, and so did an existence test. -/
def Event.apply (ev : Event) (files : Str → Option Content) : Str → Option Content :=
  match ev.call, ev.err with
  | .MkdirAll path, none => mkdirAllFiles path files
  | .RemoveAll path, none => Function.update files path none
  | .Rename o n, none => Function.update (Function.update files o none) n (files o)
  | _, _ => files

/-- The files after a list of recorded calls, made in order. -/
def replay (files : Str → Option Content) (evs : List Event) : Str → Option Content :=
  evs.foldl (fun f ev => ev.apply f) files

/-- The renames among the calls, in order, as pairs of old and new path. -/
def renames (evs : List Event) : List (Str × Str) :=
  evs.filterMap (fun ev =>
    match ev.call with
    | .Rename o n => some (o, n)
    | _ => none)

/-- The renames of a complete rotation over the names of the indices below `L`:
generation `L-2` to `L-1`, down to generation 0 to 1, then the folder to
generation 0. -/
def shiftPlan (dbh : dataBackupHelper) (L : Nat) : List (Str × Str) :=
  (List.range (L - 1)).reverse.map (fun j => (dbh.makeName j, dbh.makeName (j + 1))) ++
    [(dbh.folder, dbh.makeName 0)]

/-- Every rename among the calls finds, in the files as the calls before it left
them, its old path existing and its new path not existing. -/
def safeRenames (files : Str → Option Content) (evs : List Event) : Prop :=
  ∀ pre o n err post, evs = pre ++ (⟨.Rename o n, err⟩ : Event) :: post →
    replay files pre o ≠ none ∧ replay files pre n = none

/-- Whether the call is an existence test. -/
def Event.isStat (ev : Event) : Bool :=
  match ev.call with
  | .Stat _ => true
  | _ => false

/-- Whether the call is a recursive remove. -/
def Event.isRemoveAll (ev : Event) : Bool :=
  match ev.call with
  | .RemoveAll _ => true
  | _ => false

/-- Whether the call is a rename. -/
def Event.isRename (ev : Event) : Bool :=
  match ev.call with
  | .Rename _ _ => true
  | _ => false

/-- The list `backups` of `makeBackup` when its shift loop starts: the enumerated
list when its length has reached the limit, and else the enumerated list with
the name of the next index appended. -/
def dataBackupHelper.shifted (dbh : dataBackupHelper) (keep : Int) (fs : FS) : List Str :=
  let l := dbh.enumerated keep fs
  if keep ≤ (l.length : Int) then l else l ++ [dbh.makeName l.length]

/-- A call that did not fail: it returned nil, or it is an existence test that
answered not-exist. -/
def Event.ok (ev : Event) : Bool :=
  match ev.call, ev.err with
  | _, none => true
  | .Stat _, some .notExist => true
  | _, _ => false

/-! ## The primitives: files, faults and trace after a call -/

@[simp] theorem Stat_files (name : Str) (fs : FS) : (Stat name fs).2.files = fs.files := by
  unfold Stat
  split
  · rfl
  · split <;> rfl

@[simp] theorem Stat_faults (name : Str) (fs : FS) : (Stat name fs).2.faults = fs.faults := by
  unfold Stat
  split
  · rfl
  · split <;> rfl

theorem Stat_trace (name : Str) (fs : FS) :
    (Stat name fs).2.trace = fs.trace ++ [⟨.Stat name, (Stat name fs).1⟩] := by
  unfold Stat
  split
  · rfl
  · split <;> rfl

theorem Stat_notExist {name : Str} {fs : FS} (h : IsNotExist (Stat name fs).1 = true) :
    fs.files name = none ∧ fs.fault = none := by
  unfold Stat at h
  split at h
  · simp [IsNotExist] at h
  · rename_i hf
    split at h
    · simp [IsNotExist] at h
    · rename_i hx
      refine ⟨?_, hf⟩
      cases hv : fs.files name with
      | none => rfl
      | some c => simp [hv] at hx

theorem Stat_exists {name : Str} {fs : FS} (h : fs.files name ≠ none) :
    IsNotExist (Stat name fs).1 = false := by
  cases hb : IsNotExist (Stat name fs).1 with
  | false => rfl
  | true => exact absurd (Stat_notExist hb).1 h

@[simp] theorem MkdirAll_faults (path : Str) (fs : FS) :
    (MkdirAll path fs).2.faults = fs.faults := by
  unfold MkdirAll
  split <;> rfl

theorem MkdirAll_trace (path : Str) (fs : FS) :
    (MkdirAll path fs).2.trace = fs.trace ++ [⟨.MkdirAll path, (MkdirAll path fs).1⟩] := by
  unfold MkdirAll
  split <;> rfl

theorem MkdirAll_files_of_exists (path : Str) (fs : FS) (q : Str) (h : fs.files q ≠ none) :
    (MkdirAll path fs).2.files q = fs.files q := by
  unfold MkdirAll
  split
  · rfl
  · cases hv : fs.files q with
    | none => exact absurd hv h
    | some c => simp [FS.record, hv]

theorem MkdirAll_files_of_not_parent (path : Str) (fs : FS) (q : Str)
    (h : isSelfOrParent q path = false) : (MkdirAll path fs).2.files q = fs.files q := by
  unfold MkdirAll
  split
  · rfl
  · simp [FS.record, h]

theorem MkdirAll_files_cases (path : Str) (fs : FS) (q : Str) :
    (MkdirAll path fs).2.files q = fs.files q ∨
    (fs.files q = none ∧ (MkdirAll path fs).2.files q = some emptyDir) := by
  unfold MkdirAll
  split
  · exact Or.inl rfl
  · cases hv : fs.files q with
    | none =>
      by_cases hp : isSelfOrParent q path = true
      · right; simp [FS.record, hv, hp]
      · left; simp [FS.record, hv, hp]
    | some c => left; simp [FS.record, hv]

theorem MkdirAll_files_of_err (path : Str) (fs : FS) (e : OsError)
    (h : (MkdirAll path fs).1 = some e) : (MkdirAll path fs).2.files = fs.files := by
  unfold MkdirAll at h ⊢
  split
  · rfl
  · rename_i hf
    simp [hf] at h

@[simp] theorem RemoveAll_faults (path : Str) (fs : FS) :
    (RemoveAll path fs).2.faults = fs.faults := by
  unfold RemoveAll
  split <;> rfl

theorem RemoveAll_trace (path : Str) (fs : FS) :
    (RemoveAll path fs).2.trace = fs.trace ++ [⟨.RemoveAll path, (RemoveAll path fs).1⟩] := by
  unfold RemoveAll
  split <;> rfl

theorem RemoveAll_files_of_ne (path : Str) (fs : FS) (q : Str) (h : q ≠ path) :
    (RemoveAll path fs).2.files q = fs.files q := by
  unfold RemoveAll
  split
  · rfl
  · simp [FS.record, Function.update_noteq h]

theorem RemoveAll_files_self (path : Str) (fs : FS) :
    (RemoveAll path fs).2.files path = fs.files path ∨ (RemoveAll path fs).2.files path = none := by
  unfold RemoveAll
  split
  · exact Or.inl rfl
  · exact Or.inr (by simp [FS.record])

theorem RemoveAll_files_of_nil (path : Str) (fs : FS) (h : (RemoveAll path fs).1 = none) :
    (RemoveAll path fs).2.files path = none := by
  unfold RemoveAll at h ⊢
  split
  · rename_i c hf
    simp [hf] at h
  · simp [FS.record]

@[simp] theorem Rename_faults (o n : Str) (fs : FS) : (Rename o n fs).2.faults = fs.faults := by
  unfold Rename
  split
  · rfl
  · split <;> rfl

theorem Rename_trace (o n : Str) (fs : FS) :
    (Rename o n fs).2.trace = fs.trace ++ [⟨.Rename o n, (Rename o n fs).1⟩] := by
  unfold Rename
  split
  · rfl
  · split <;> rfl

theorem Rename_files_of_err (o n : Str) (fs : FS) (e : OsError)
    (h : (Rename o n fs).1 = some e) : (Rename o n fs).2.files = fs.files := by
  unfold Rename at h ⊢
  cases hf : fs.fault <;> cases hc : fs.files o <;> simp_all [FS.record]

theorem Rename_nil {o n : Str} {fs : FS} (h : (Rename o n fs).1 = none) :
    fs.files o ≠ none ∧
    (Rename o n fs).2.files =
      Function.update (Function.update fs.files o none) n (fs.files o) := by
  unfold Rename at h ⊢
  cases hf : fs.fault <;> cases hc : fs.files o <;> simp_all [FS.record]

/-! ## The enumeration -/

@[simp] theorem index_natCast (xs : List Str) (j : Nat) : index xs (j : Int) = xs[j]? := by
  simp [index]

/-- The enumeration loop reads only: it returns the names of the indices
`i, i+1, ..` up to the first one reported missing or up to the limit. -/
theorem listBackupsLoop_spec (dbh : dataBackupHelper) (keep : Int) :
    ∀ (fuel i : Nat) (backups : List Str) (fs : FS), (keep - i).toNat ≤ fuel →
      (listBackupsLoop dbh keep fuel i backups fs).2.files = fs.files ∧
      (listBackupsLoop dbh keep fuel i backups fs).2.faults = fs.faults ∧
      ∃ m : Nat,
        (listBackupsLoop dbh keep fuel i backups fs).1 =
          backups ++ (List.range' i m).map dbh.makeName ∧
        m ≤ (keep - i).toNat ∧
        (((i + m : Nat) : Int) < keep → fs.files (dbh.makeName (i + m)) = none) := by
  intro fuel
  induction fuel with
  | zero =>
    intro i backups fs hfuel
    refine ⟨rfl, rfl, 0, by simp [listBackupsLoop], Nat.zero_le _, ?_⟩
    intro h
    simp at h
    omega
  | succ fuel ih =>
    intro i backups fs hfuel
    unfold listBackupsLoop
    by_cases hlt : (i : Int) < keep
    · rw [if_pos hlt]
      by_cases hne : IsNotExist (Stat (dbh.makeName i) fs).1 = true
      · rw [if_pos hne]
        refine ⟨Stat_files _ _, Stat_faults _ _, 0, by simp, Nat.zero_le _, ?_⟩
        intro _
        exact (Stat_notExist hne).1
      · rw [if_neg hne]
        have hfuel2 : (keep - ((i + 1 : Nat) : Int)).toNat ≤ fuel := by
          push_cast
          omega
        obtain ⟨h1, h2, m, h3, h4, h5⟩ :=
          ih (i + 1) (backups ++ [dbh.makeName i]) (Stat (dbh.makeName i) fs).2 hfuel2
        refine ⟨by simpa using h1, by simpa using h2, m + 1, ?_, ?_, ?_⟩
        · simpa [List.range'_succ] using h3
        · push_cast at h4 ⊢
          omega
        · intro h
          have h6 := h5 (by push_cast at h ⊢; omega)
          rw [Stat_files] at h6
          have e : i + 1 + m = i + (m + 1) := by omega
          rw [← e]
          exact h6
    · rw [if_neg hlt]
      refine ⟨rfl, rfl, 0, by simp, Nat.zero_le _, ?_⟩
      intro h
      simp at h
      omega

/-- The names `listBackups` returns: those of the indices `0..m-1`, with `m` at
most the limit, and index `m` missing when `m` is below the limit. -/
theorem listBackups_spec (dbh : dataBackupHelper) (keep : Int) (fs : FS) :
    (dbh.listBackups keep fs).2.files = fs.files ∧
    (dbh.listBackups keep fs).2.faults = fs.faults ∧
    ∃ m : Nat,
      (dbh.listBackups keep fs).1 = (List.range m).map dbh.makeName ∧
      m ≤ keep.toNat ∧
      ((m : Int) < keep → fs.files (dbh.makeName m) = none) := by
  obtain ⟨h1, h2, m, h3, h4, h5⟩ :=
    listBackupsLoop_spec dbh keep keep.toNat 0 [] fs (by simp)
  refine ⟨h1, h2, m, ?_, by simpa using h4, ?_⟩
  · rw [List.range_eq_range']
    simpa using h3
  · intro h
    simpa using h5 (by simpa using h)

theorem index_range_map (g : Nat → Str) (m j : Nat) (h : j < m) :
    index ((List.range m).map g) (j : Int) = some (g j) := by
  simp [h]

/-! ## The shift loop -/

/-- When the shift loop entered at `i` runs to its end over the names `g 0 .. g i`:
every source existed, each name `g (j+1)` now holds what `g j` held, `g 0` is
free, and nothing else changed. -/
theorem shiftLoop_nil (g : Nat → Str) (hg : Function.Injective g) (bs : List Str) :
    ∀ (i : Nat) (fs : FS), (∀ j, j ≤ i → index bs (j : Int) = some (g j)) →
      (shiftLoop bs i fs).1 = .nil →
      (∀ j, j < i → fs.files (g j) ≠ none) ∧
      (∀ j, j < i → (shiftLoop bs i fs).2.files (g (j + 1)) = fs.files (g j)) ∧
      (0 < i → (shiftLoop bs i fs).2.files (g 0) = none) ∧
      (∀ p, (∀ j, j ≤ i → p ≠ g j) → (shiftLoop bs i fs).2.files p = fs.files p) ∧
      (i = 0 → (shiftLoop bs i fs).2 = fs) := by
  intro i
  induction i with
  | zero =>
    intro fs _ _
    refine ⟨?_, ?_, ?_, ?_, ?_⟩
    · intro j hj; omega
    · intro j hj; omega
    · intro h; omega
    · intro p _; rfl
    · intro _; rfl
  | succ i ih =>
    intro fs hb hnil
    have hbi := hb i (Nat.le_succ i)
    have hbi1 := hb (i + 1) (Nat.le_refl _)
    unfold shiftLoop at hnil ⊢
    simp only [hbi, hbi1] at hnil ⊢
    cases hr : (Rename (g i) (g (i + 1)) fs).1 with
    | some e => simp [hr] at hnil
    | none =>
      simp only [hr] at hnil ⊢
      obtain ⟨hsrc, hfiles⟩ := Rename_nil hr
      obtain ⟨a1, a2, a3, a4, a5⟩ :=
        ih (Rename (g i) (g (i + 1)) fs).2 (fun j hj => hb j (Nat.le_succ_of_le hj)) hnil
      have hfrm : ∀ p, p ≠ g i → p ≠ g (i + 1) →
          (Rename (g i) (g (i + 1)) fs).2.files p = fs.files p := by
        intro p h1 h2
        rw [hfiles, Function.update_noteq h2, Function.update_noteq h1]
      have hne : ∀ a b : Nat, a ≠ b → g a ≠ g b := fun a b hab h => hab (hg h)
      refine ⟨?_, ?_, ?_, ?_, ?_⟩
      · intro j hj
        rcases Nat.lt_succ_iff_lt_or_eq.mp hj with hlt | heq
        · have := a1 j hlt
          rwa [hfrm _ (hne _ _ (by omega)) (hne _ _ (by omega))] at this
        · rw [heq]; exact hsrc
      · intro j hj
        rcases Nat.lt_succ_iff_lt_or_eq.mp hj with hlt | heq
        · rw [a2 j hlt, hfrm _ (hne _ _ (by omega)) (hne _ _ (by omega))]
        · subst heq
          rw [a4 (g (j + 1)) (fun j' hj' => hne _ _ (by omega)), hfiles]
          simp
      · intro _
        rcases Nat.eq_zero_or_pos i with h0 | hpos
        · subst h0
          rw [a5 rfl, hfiles, Function.update_noteq (hne _ _ (by omega))]
          simp
        · exact a3 hpos
      · intro p hp
        rw [a4 p (fun j hj => hp j (Nat.le_succ_of_le hj)),
          hfrm p (hp i (Nat.le_succ i)) (hp (i + 1) (Nat.le_refl _))]
      · intro h; omega

/-! ## A successful rotation -/

/-- The shift and the final rename, when they succeed over the names of the
indices below `L`. -/
theorem shiftAndSave_nil (dbh : dataBackupHelper) (sep : Separate dbh) (bs : List Str)
    (L : Nat) (hL : 1 ≤ L) (hlen : bs.length = L)
    (hbs : ∀ j, j < L → index bs (j : Int) = some (dbh.makeName j)) (fs : FS)
    (hnil : (shiftAndSave dbh bs fs).1 = .nil) :
    (∀ j, j + 1 < L → fs.files (dbh.makeName j) ≠ none) ∧
    fs.files dbh.folder ≠ none ∧
    (shiftAndSave dbh bs fs).2.files dbh.folder = none ∧
    (shiftAndSave dbh bs fs).2.files (dbh.makeName 0) = fs.files dbh.folder ∧
    (∀ j, j + 1 < L →
      (shiftAndSave dbh bs fs).2.files (dbh.makeName (j + 1)) = fs.files (dbh.makeName j)) ∧
    (∀ p, p ≠ dbh.folder → (∀ j, j < L → p ≠ dbh.makeName j) →
      (shiftAndSave dbh bs fs).2.files p = fs.files p) := by
  have hfold : Join dbh.baseDir dbh.folderName = dbh.folder := rfl
  unfold shiftAndSave at hnil ⊢
  rw [hlen, hfold] at hnil ⊢
  cases hs : (shiftLoop bs (L - 1) fs).1 with
  | err e => simp [hs] at hnil
  | panic => simp [hs] at hnil
  | nil =>
    simp only [hs] at hnil ⊢
    obtain ⟨a1, a2, a3, a4, a5⟩ :=
      shiftLoop_nil dbh.makeName sep.inj bs (L - 1) fs (fun j hj => hbs j (by omega)) hs
    cases hr : (Rename dbh.folder (dbh.makeName 0) (shiftLoop bs (L - 1) fs).2).1 with
    | some e => simp [hr] at hnil
    | none =>
      simp only [hr]
      obtain ⟨hsrc, hfiles⟩ := Rename_nil hr
      have hfld : (shiftLoop bs (L - 1) fs).2.files dbh.folder = fs.files dbh.folder :=
        a4 _ (fun j _ => (sep.folder j).symm)
      rw [hfld] at hsrc hfiles
      refine ⟨fun j hj => a1 j (by omega), hsrc, ?_, ?_, ?_, ?_⟩
      · rw [hfiles, Function.update_noteq (sep.folder 0).symm]
        simp
      · rw [hfiles]
        simp
      · intro j hj
        have hne : dbh.makeName (j + 1) ≠ dbh.makeName 0 := fun h => by
          have := sep.inj h
          omega
        rw [hfiles, Function.update_noteq hne, Function.update_noteq (sep.folder _)]
        exact a2 j (by omega)
      · intro p hp hpj
        rw [hfiles, Function.update_noteq (hpj 0 (by omega)), Function.update_noteq hp]
        exact a4 p (fun j hj => hpj j (by omega))

/-- What a successful `makeBackup` of an existing folder has done, with `L` the
number of names it shifted over: every generation below `L - 1` existed and
moved up by one, the folder became generation 0, and either index `L - 1` was
free or `L` is the limit.  Other paths are as before (the parent directory and
its parents may have been created if missing). -/
theorem makeBackup_nil (dbh : dataBackupHelper) (sep : Separate dbh) (keep : Int) (fs : FS)
    (ht : fs.files dbh.folder ≠ none) (hnil : (dbh.makeBackup keep fs).1 = .nil) :
    ∃ L : Nat, 1 ≤ L ∧ (L : Int) ≤ keep ∧
      (fs.files (dbh.makeName (L - 1)) = none ∨ (L : Int) = keep) ∧
      (∀ j, j + 1 < L → fs.files (dbh.makeName j) ≠ none) ∧
      (dbh.makeBackup keep fs).2.files dbh.folder = none ∧
      (dbh.makeBackup keep fs).2.files (dbh.makeName 0) = fs.files dbh.folder ∧
      (∀ j, j + 1 < L →
        (dbh.makeBackup keep fs).2.files (dbh.makeName (j + 1)) = fs.files (dbh.makeName j)) ∧
      (∀ p, p ≠ dbh.folder → (∀ j, j < L → p ≠ dbh.makeName j) →
        (fs.files p ≠ none ∨ isSelfOrParent p dbh.baseDir = false) →
        (dbh.makeBackup keep fs).2.files p = fs.files p) ∧
      (∀ p, p ≠ dbh.folder → (∀ j, j < L → p ≠ dbh.makeName j) →
        (dbh.makeBackup keep fs).2.files p = fs.files p ∨
        (fs.files p = none ∧ (dbh.makeBackup keep fs).2.files p = some emptyDir)) := by
  have hfold : Join dbh.baseDir dbh.folderName = dbh.folder := rfl
  unfold dataBackupHelper.makeBackup at hnil ⊢
  rw [hfold] at hnil ⊢
  have hst : IsNotExist (Stat dbh.folder fs).1 = false := Stat_exists ht
  simp only [hst, Bool.false_eq_true, if_false] at hnil ⊢
  cases hmk : (MkdirAll dbh.baseDir (Stat dbh.folder fs).2).1 with
  | some e => simp [hmk] at hnil
  | none =>
    simp only [hmk] at hnil ⊢
    -- the files after the stat and the creation of the parent
    have hcases : ∀ p, (MkdirAll dbh.baseDir (Stat dbh.folder fs).2).2.files p = fs.files p ∨
        (fs.files p = none ∧
          (MkdirAll dbh.baseDir (Stat dbh.folder fs).2).2.files p = some emptyDir) := by
      intro p
      simpa using MkdirAll_files_cases dbh.baseDir (Stat dbh.folder fs).2 p
    have hpre : ∀ p, (fs.files p ≠ none ∨ isSelfOrParent p dbh.baseDir = false) →
        (MkdirAll dbh.baseDir (Stat dbh.folder fs).2).2.files p = fs.files p := by
      intro p hp
      rcases hp with hp | hp
      · rw [MkdirAll_files_of_exists _ _ _ (by simpa using hp)]
        simp
      · rw [MkdirAll_files_of_not_parent _ _ _ hp]
        simp
    obtain ⟨l1, _, m, l3, l4, l5⟩ :=
      listBackups_spec dbh keep (MkdirAll dbh.baseDir (Stat dbh.folder fs).2).2
    have hgen : ∀ j, (dbh.listBackups keep (MkdirAll dbh.baseDir (Stat dbh.folder fs).2).2).2.files
        (dbh.makeName j) = fs.files (dbh.makeName j) := by
      intro j
      rw [l1, hpre _ (Or.inr (sep.parent j))]
    have hfld : (dbh.listBackups keep (MkdirAll dbh.baseDir (Stat dbh.folder fs).2).2).2.files
        dbh.folder = fs.files dbh.folder := by
      rw [l1, hpre _ (Or.inl ht)]
    have hlen : (dbh.listBackups keep (MkdirAll dbh.baseDir (Stat dbh.folder fs).2).2).1.length
        = m := by
      rw [l3]
      simp
    rw [hlen] at hnil ⊢
    by_cases hk : keep ≤ (m : Int)
    · -- the limit is reached: the last name is removed
      rw [if_pos hk] at hnil ⊢
      have hm : 1 ≤ m := by
        rcases Nat.eq_zero_or_pos m with h0 | hpos
        · subst h0
          simp [index] at hnil
        · exact hpos
      have hidx : index (dbh.listBackups keep (MkdirAll dbh.baseDir (Stat dbh.folder fs).2).2).1
          ((m : Int) - 1) = some (dbh.makeName (m - 1)) := by
        have e : ((m : Int) - 1) = ((m - 1 : Nat) : Int) := by omega
        rw [e, l3]
        exact index_range_map _ _ _ (by omega)
      simp only [hidx] at hnil ⊢
      obtain ⟨b1, b2, b3, b4, b5, b6⟩ := shiftAndSave_nil dbh sep _ m hm hlen
        (fun j hj => by rw [l3]; exact index_range_map _ _ _ hj) _ hnil
      have hrm : ∀ p, p ≠ dbh.makeName (m - 1) →
          (RemoveAll (dbh.makeName (m - 1))
            (dbh.listBackups keep (MkdirAll dbh.baseDir (Stat dbh.folder fs).2).2).2).2.files p
          = (dbh.listBackups keep (MkdirAll dbh.baseDir (Stat dbh.folder fs).2).2).2.files p :=
        fun p hp => RemoveAll_files_of_ne _ _ _ hp
      have hnej : ∀ j, j + 1 < m → dbh.makeName j ≠ dbh.makeName (m - 1) := fun j hj h => by
        have := sep.inj h
        omega
      refine ⟨m, hm, by omega, Or.inr (by omega), ?_, b3, ?_, ?_, ?_, ?_⟩
      · intro j hj
        have := b1 j hj
        rwa [hrm _ (hnej j hj), hgen] at this
      · rw [b4, hrm _ (sep.folder _).symm, hfld]
      · intro j hj
        rw [b5 j hj, hrm _ (hnej j hj), hgen]
      · intro p hp hpj hpe
        rw [b6 p hp hpj, hrm _ (hpj _ (by omega)), l1, hpre p hpe]
      · intro p hp hpj
        rw [b6 p hp hpj, hrm _ (hpj _ (by omega)), l1]
        exact hcases p
    · -- the limit is not reached: a new name is appended
      rw [if_neg hk] at hnil ⊢
      have hidx : ∀ j, j < m + 1 →
          index ((dbh.listBackups keep (MkdirAll dbh.baseDir (Stat dbh.folder fs).2).2).1 ++
            [dbh.makeName m]) (j : Int) = some (dbh.makeName j) := by
        intro j hj
        rw [l3, index_natCast]
        rcases Nat.lt_succ_iff_lt_or_eq.mp hj with hlt | heq
        · rw [List.getElem?_append_left (by simpa using hlt)]
          simp [hlt]
        · subst heq
          rw [List.getElem?_append_right (by simp)]
          simp
      obtain ⟨b1, b2, b3, b4, b5, b6⟩ := shiftAndSave_nil dbh sep _ (m + 1) (by omega)
        (by simp [hlen]) hidx _ hnil
      have hfree : fs.files (dbh.makeName m) = none := by
        have := l5 (by omega)
        rwa [hpre _ (Or.inr (sep.parent m))] at this
      refine ⟨m + 1, by omega, by omega, Or.inl (by simpa using hfree), ?_, b3, ?_, ?_, ?_, ?_⟩
      · intro j hj
        have := b1 j hj
        rwa [hgen] at this
      · rw [b4, hfld]
      · intro j hj
        rw [b5 j hj, hgen]
      · intro p hp hpj hpe
        rw [b6 p hp hpj, l1, hpre p hpe]
      · intro p hp hpj
        rw [b6 p hp hpj, l1]
        exact hcases p

theorem ofList_files_none (entries : List (Str × Content)) (faults : List (Nat × Nat))
    (q : Str) (h : ∀ e ∈ entries, q ≠ e.1) : (FS.ofList entries faults).files q = none := by
  induction entries with
  | nil => rfl
  | cons e es ih =>
    have h1 : q ≠ e.1 := h e (List.mem_cons_self _ _)
    have h2 := ih (fun x hx => h x (List.mem_cons_of_mem _ hx))
    obtain ⟨a, b⟩ := e
    simp only [FS.ofList] at h2 ⊢
    rw [List.lookup_cons, show (q == a) = false from by simpa using h1]
    exact h2

/-! ## The calls made by a rotation -/

theorem quiet_nil : quiet [] := fun _ h => by simp at h

theorem quiet_append {a b : List Event} (ha : quiet a) (hb : quiet b) : quiet (a ++ b) := by
  intro ev h
  rcases List.mem_append.mp h with h | h
  · exact ha ev h
  · exact hb ev h

theorem quiet_stat (name : Str) (err : Option OsError) : quiet [⟨.Stat name, err⟩] := by
  intro ev h
  rw [List.mem_singleton.mp h]
  rfl

theorem quiet_removeAll (path : Str) (err : Option OsError) : quiet [⟨.RemoveAll path, err⟩] := by
  intro ev h
  rw [List.mem_singleton.mp h]
  rfl

theorem quiet_ok (call : Call) : quiet [⟨call, none⟩] := by
  intro ev h
  rw [List.mem_singleton.mp h]
  cases call <;> rfl

/-- A failed `MkdirAll` or `Rename` that stands in a list whose calls before the
last are quiet is the last call of the list. -/
theorem fatal_is_last {pre post evs : List Event} {ev l : Event}
    (h : pre ++ ev :: post = evs ++ [l]) (hq : quiet evs) (hf : ev.fatal = true) :
    post = [] ∧ ev = l ∧ pre = evs := by
  rcases List.eq_nil_or_concat post with hp | ⟨post', x, hp⟩
  · subst hp
    have h1 : pre ++ [ev] = evs ++ [l] := h
    have h2 := List.append_inj' h1 rfl
    exact ⟨rfl, by simpa using h2.2, h2.1⟩
  · subst hp
    have h1 : (pre ++ ev :: post') ++ [x] = evs ++ [l] := by
      rw [← h]; simp
    have h2 := (List.append_inj' h1 rfl).1
    have : ev ∈ evs := by rw [← h2]; simp
    rw [hq ev this] at hf
    cases hf

theorem not_quiet_of_fatal {pre post : List Event} {ev : Event}
    (hq : quiet (pre ++ ev :: post)) (hf : ev.fatal = true) : False := by
  have := hq ev (by simp)
  rw [this] at hf
  cases hf

theorem listBackupsLoop_trace (dbh : dataBackupHelper) (keep : Int) :
    ∀ (fuel i : Nat) (backups : List Str) (fs : FS),
      ∃ evs, (listBackupsLoop dbh keep fuel i backups fs).2.trace = fs.trace ++ evs ∧
        quiet evs := by
  intro fuel
  induction fuel with
  | zero => intro i backups fs; exact ⟨[], by simp [listBackupsLoop], quiet_nil⟩
  | succ fuel ih =>
    intro i backups fs
    unfold listBackupsLoop
    by_cases hlt : (i : Int) < keep
    · rw [if_pos hlt]
      by_cases hne : IsNotExist (Stat (dbh.makeName i) fs).1 = true
      · rw [if_pos hne]
        exact ⟨_, Stat_trace _ _, quiet_stat _ _⟩
      · rw [if_neg hne]
        obtain ⟨evs, h1, h2⟩ :=
          ih (i + 1) (backups ++ [dbh.makeName i]) (Stat (dbh.makeName i) fs).2
        refine ⟨⟨.Stat (dbh.makeName i), (Stat (dbh.makeName i) fs).1⟩ :: evs, ?_,
          quiet_append (quiet_stat _ _) h2⟩
        rw [h1, Stat_trace]
        simp
    · rw [if_neg hlt]
      exact ⟨[], by simp, quiet_nil⟩

theorem listBackups_trace (dbh : dataBackupHelper) (keep : Int) (fs : FS) :
    ∃ evs, (dbh.listBackups keep fs).2.trace = fs.trace ++ evs ∧ quiet evs :=
  listBackupsLoop_trace dbh keep keep.toNat 0 [] fs

/-- The shift loop entered at `i` over the names `g 0 .. g i`: it runs to its end
with quiet calls, or it stops at the first rename that fails, of `g j` for some
`j < i`, returns its error, and has changed no path but `g (j+1) .. g i`. -/
theorem shiftLoop_run (g : Nat → Str) (bs : List Str) :
    ∀ (i : Nat) (fs : FS), (∀ j, j ≤ i → index bs (j : Int) = some (g j)) →
      ∃ evs, (shiftLoop bs i fs).2.trace = fs.trace ++ evs ∧
        (((shiftLoop bs i fs).1 = .nil ∧ quiet evs) ∨
          ∃ e pre j, j < i ∧ (shiftLoop bs i fs).1 = .err e ∧
            evs = pre ++ [⟨.Rename (g j) (g (j + 1)), some e⟩] ∧ quiet pre ∧
            ∀ p, (∀ j', j < j' → j' ≤ i → p ≠ g j') →
              (shiftLoop bs i fs).2.files p = fs.files p) := by
  intro i
  induction i with
  | zero =>
    intro fs _
    exact ⟨[], by simp [shiftLoop], Or.inl ⟨rfl, quiet_nil⟩⟩
  | succ i ih =>
    intro fs hb
    have hbi := hb i (Nat.le_succ i)
    have hbi1 := hb (i + 1) (Nat.le_refl _)
    unfold shiftLoop
    simp only [hbi, hbi1]
    have htr := Rename_trace (g i) (g (i + 1)) fs
    cases hr : (Rename (g i) (g (i + 1)) fs).1 with
    | some e =>
      simp only []
      rw [hr] at htr
      refine ⟨_, htr, Or.inr ⟨e, [], i, Nat.lt_succ_self i, rfl, rfl, quiet_nil, ?_⟩⟩
      intro p _
      rw [Rename_files_of_err _ _ _ e hr]
    | none =>
      simp only []
      rw [hr] at htr
      obtain ⟨hsrc, hfiles⟩ := Rename_nil hr
      obtain ⟨evs, h1, h2⟩ :=
        ih (Rename (g i) (g (i + 1)) fs).2 (fun j hj => hb j (Nat.le_succ_of_le hj))
      refine ⟨⟨.Rename (g i) (g (i + 1)), none⟩ :: evs, ?_, ?_⟩
      · rw [h1, htr]
        simp
      · rcases h2 with ⟨h3, h4⟩ | ⟨e, pre, j, hj, h3, h4, h5, h6⟩
        · exact Or.inl ⟨h3, quiet_append (quiet_ok _) h4⟩
        · refine Or.inr ⟨e, ⟨.Rename (g i) (g (i + 1)), none⟩ :: pre, j, by omega, h3,
            by rw [h4]; rfl, quiet_append (quiet_ok _) h5, ?_⟩
          intro p hp
          rw [h6 p (fun j' h7 h8 => hp j' h7 (by omega)), hfiles,
            Function.update_noteq (hp (i + 1) (by omega) (Nat.le_refl _)),
            Function.update_noteq (hp i hj (Nat.le_succ i))]

/-- The shift loop changes no path but the names it ranges over. -/
theorem shiftLoop_frame (g : Nat → Str) (bs : List Str) :
    ∀ (i : Nat) (fs : FS), (∀ j, j ≤ i → index bs (j : Int) = some (g j)) →
      ∀ p, (∀ j, j ≤ i → p ≠ g j) → (shiftLoop bs i fs).2.files p = fs.files p := by
  intro i
  induction i with
  | zero => intro fs _ p _; rfl
  | succ i ih =>
    intro fs hb p hp
    have hbi := hb i (Nat.le_succ i)
    have hbi1 := hb (i + 1) (Nat.le_refl _)
    unfold shiftLoop
    simp only [hbi, hbi1]
    cases hr : (Rename (g i) (g (i + 1)) fs).1 with
    | some e =>
      simp only []
      rw [Rename_files_of_err _ _ _ e hr]
    | none =>
      simp only []
      obtain ⟨_, hfiles⟩ := Rename_nil hr
      rw [ih (Rename (g i) (g (i + 1)) fs).2 (fun j hj => hb j (Nat.le_succ_of_le hj)) p
        (fun j hj => hp j (Nat.le_succ_of_le hj)), hfiles,
        Function.update_noteq (hp (i + 1) (Nat.le_refl _)),
        Function.update_noteq (hp i (Nat.le_succ i))]

/-! ### The branches of `shiftAndSave` and `makeBackup` -/

theorem shiftAndSave_of_err (dbh : dataBackupHelper) (bs : List Str) (fs : FS) (e : OsError)
    (h : (shiftLoop bs (bs.length - 1) fs).1 = .err e) :
    shiftAndSave dbh bs fs = (.err e, (shiftLoop bs (bs.length - 1) fs).2) := by
  unfold shiftAndSave
  simp only [h]

theorem shiftAndSave_of_nil_err (dbh : dataBackupHelper) (bs : List Str) (fs : FS) (e : OsError)
    (h : (shiftLoop bs (bs.length - 1) fs).1 = .nil)
    (hr : (Rename dbh.folder (dbh.makeName 0) (shiftLoop bs (bs.length - 1) fs).2).1 = some e) :
    shiftAndSave dbh bs fs =
      (.err e, (Rename dbh.folder (dbh.makeName 0) (shiftLoop bs (bs.length - 1) fs).2).2) := by
  have hfold : Join dbh.baseDir dbh.folderName = dbh.folder := rfl
  unfold shiftAndSave
  rw [hfold]
  simp only [h, hr]

theorem shiftAndSave_of_nil_nil (dbh : dataBackupHelper) (bs : List Str) (fs : FS)
    (h : (shiftLoop bs (bs.length - 1) fs).1 = .nil)
    (hr : (Rename dbh.folder (dbh.makeName 0) (shiftLoop bs (bs.length - 1) fs).2).1 = none) :
    shiftAndSave dbh bs fs =
      (.nil, (Rename dbh.folder (dbh.makeName 0) (shiftLoop bs (bs.length - 1) fs).2).2) := by
  have hfold : Join dbh.baseDir dbh.folderName = dbh.folder := rfl
  unfold shiftAndSave
  rw [hfold]
  simp only [h, hr]

theorem makeBackup_of_mkdir_err (dbh : dataBackupHelper) (keep : Int) (fs : FS) (e : OsError)
    (hst : IsNotExist (Stat dbh.folder fs).1 = false)
    (hmk : (MkdirAll dbh.baseDir (Stat dbh.folder fs).2).1 = some e) :
    dbh.makeBackup keep fs = (.err e, (MkdirAll dbh.baseDir (Stat dbh.folder fs).2).2) := by
  have hfold : Join dbh.baseDir dbh.folderName = dbh.folder := rfl
  unfold dataBackupHelper.makeBackup
  rw [hfold]
  simp only [hst, Bool.false_eq_true, if_false, hmk]

theorem makeBackup_of_panic (dbh : dataBackupHelper) (keep : Int) (fs : FS)
    (hst : IsNotExist (Stat dbh.folder fs).1 = false)
    (hmk : (MkdirAll dbh.baseDir (Stat dbh.folder fs).2).1 = none)
    (hk : keep ≤ ((dbh.listBackups keep
      (MkdirAll dbh.baseDir (Stat dbh.folder fs).2).2).1.length : Int))
    (hidx : index (dbh.listBackups keep (MkdirAll dbh.baseDir (Stat dbh.folder fs).2).2).1
      (((dbh.listBackups keep (MkdirAll dbh.baseDir (Stat dbh.folder fs).2).2).1.length : Int) - 1)
      = none) :
    dbh.makeBackup keep fs =
      (.panic, (dbh.listBackups keep (MkdirAll dbh.baseDir (Stat dbh.folder fs).2).2).2) := by
  have hfold : Join dbh.baseDir dbh.folderName = dbh.folder := rfl
  unfold dataBackupHelper.makeBackup
  rw [hfold]
  simp only [hst, Bool.false_eq_true, if_false, hmk, hk, if_true, hidx]

theorem makeBackup_of_remove (dbh : dataBackupHelper) (keep : Int) (fs : FS) (last : Str)
    (hst : IsNotExist (Stat dbh.folder fs).1 = false)
    (hmk : (MkdirAll dbh.baseDir (Stat dbh.folder fs).2).1 = none)
    (hk : keep ≤ ((dbh.listBackups keep
      (MkdirAll dbh.baseDir (Stat dbh.folder fs).2).2).1.length : Int))
    (hidx : index (dbh.listBackups keep (MkdirAll dbh.baseDir (Stat dbh.folder fs).2).2).1
      (((dbh.listBackups keep (MkdirAll dbh.baseDir (Stat dbh.folder fs).2).2).1.length : Int) - 1)
      = some last) :
    dbh.makeBackup keep fs =
      shiftAndSave dbh (dbh.listBackups keep (MkdirAll dbh.baseDir (Stat dbh.folder fs).2).2).1
        (RemoveAll last
          (dbh.listBackups keep (MkdirAll dbh.baseDir (Stat dbh.folder fs).2).2).2).2 := by
  have hfold : Join dbh.baseDir dbh.folderName = dbh.folder := rfl
  unfold dataBackupHelper.makeBackup
  rw [hfold]
  simp only [hst, Bool.false_eq_true, if_false, hmk, hk, if_true, hidx]

theorem makeBackup_of_append (dbh : dataBackupHelper) (keep : Int) (fs : FS)
    (hst : IsNotExist (Stat dbh.folder fs).1 = false)
    (hmk : (MkdirAll dbh.baseDir (Stat dbh.folder fs).2).1 = none)
    (hk : ¬ keep ≤ ((dbh.listBackups keep
      (MkdirAll dbh.baseDir (Stat dbh.folder fs).2).2).1.length : Int)) :
    dbh.makeBackup keep fs =
      shiftAndSave dbh
        ((dbh.listBackups keep (MkdirAll dbh.baseDir (Stat dbh.folder fs).2).2).1 ++
          [dbh.makeName
            (dbh.listBackups keep (MkdirAll dbh.baseDir (Stat dbh.folder fs).2).2).1.length])
        (dbh.listBackups keep (MkdirAll dbh.baseDir (Stat dbh.folder fs).2).2).2 := by
  have hfold : Join dbh.baseDir dbh.folderName = dbh.folder := rfl
  unfold dataBackupHelper.makeBackup
  rw [hfold]
  simp only [hst, Bool.false_eq_true, if_false, hmk, hk]

/-- The shift and the final rename over the names of the indices below `L`: all
calls succeed, or a shift rename fails, or the final rename fails; a failed
rename is the last call and its error is returned. -/
theorem shiftAndSave_run (dbh : dataBackupHelper) (bs : List Str)
    (L : Nat) (hL : 1 ≤ L) (hlen : bs.length = L)
    (hbs : ∀ j, j < L → index bs (j : Int) = some (dbh.makeName j)) (fs : FS) :
    ∃ evs, (shiftAndSave dbh bs fs).2.trace = fs.trace ++ evs ∧
      (((shiftAndSave dbh bs fs).1 = .nil ∧ quiet evs) ∨
        (∃ e pre j, j + 1 < L ∧ (shiftAndSave dbh bs fs).1 = .err e ∧
          evs = pre ++ [⟨.Rename (dbh.makeName j) (dbh.makeName (j + 1)), some e⟩] ∧ quiet pre ∧
          ∀ p, (∀ j', j < j' → j' < L → p ≠ dbh.makeName j') →
            (shiftAndSave dbh bs fs).2.files p = fs.files p) ∨
        (∃ e pre, (shiftAndSave dbh bs fs).1 = .err e ∧
          evs = pre ++ [⟨.Rename dbh.folder (dbh.makeName 0), some e⟩] ∧ quiet pre ∧
          ∀ p, (∀ j', j' < L → p ≠ dbh.makeName j') →
            (shiftAndSave dbh bs fs).2.files p = fs.files p)) := by
  have hb : ∀ j, j ≤ bs.length - 1 → index bs (j : Int) = some (dbh.makeName j) :=
    fun j hj => hbs j (by omega)
  obtain ⟨evs, h1, h2⟩ := shiftLoop_run dbh.makeName bs (bs.length - 1) fs hb
  have hfr := shiftLoop_frame dbh.makeName bs (bs.length - 1) fs hb
  rcases h2 with ⟨h3, h4⟩ | ⟨e, pre, j, hj, h3, h4, h5, h6⟩
  · have htr := Rename_trace dbh.folder (dbh.makeName 0) (shiftLoop bs (bs.length - 1) fs).2
    cases hr : (Rename dbh.folder (dbh.makeName 0) (shiftLoop bs (bs.length - 1) fs).2).1 with
    | some e =>
      rw [shiftAndSave_of_nil_err dbh bs fs e h3 hr]
      rw [hr, h1, List.append_assoc] at htr
      refine ⟨_, htr, Or.inr (Or.inr ⟨e, evs, rfl, rfl, h4, ?_⟩)⟩
      intro p hp
      show (Rename dbh.folder (dbh.makeName 0) (shiftLoop bs (bs.length - 1) fs).2).2.files p = _
      rw [Rename_files_of_err _ _ _ e hr]
      exact hfr p (fun j hj => hp j (by omega))
    | none =>
      rw [shiftAndSave_of_nil_nil dbh bs fs h3 hr]
      rw [hr, h1, List.append_assoc] at htr
      exact ⟨_, htr, Or.inl ⟨rfl, quiet_append h4 (quiet_ok _)⟩⟩
  · rw [shiftAndSave_of_err dbh bs fs e h3]
    refine ⟨evs, h1, Or.inr (Or.inl ⟨e, pre, j, by omega, rfl, h4, h5, ?_⟩)⟩
    intro p hp
    exact h6 p (fun j' h7 h8 => hp j' h7 (by omega))

/-- The run of `makeBackup` on an existing folder.  It ends in one of five ways:
it returns nil after quiet calls; it panics after quiet calls; `MkdirAll` fails
as the last call, its error is returned and no file has changed; a shift rename
of generation `j` fails as the last call, its error is returned and nothing
has changed but generations above `j` (and a missing parent directory made);
or the final rename fails as the last call, its error is returned and nothing
has changed but generations. -/
theorem makeBackup_run (dbh : dataBackupHelper) (keep : Int) (fs : FS)
    (ht : fs.files dbh.folder ≠ none) :
    ∃ evs, (dbh.makeBackup keep fs).2.trace = fs.trace ++ evs ∧
      (((dbh.makeBackup keep fs).1 = .nil ∧ quiet evs) ∨
        ((dbh.makeBackup keep fs).1 = .panic ∧ quiet evs) ∨
        (∃ e pre, (dbh.makeBackup keep fs).1 = .err e ∧
          evs = pre ++ [⟨.MkdirAll dbh.baseDir, some e⟩] ∧ quiet pre ∧
          (dbh.makeBackup keep fs).2.files = fs.files) ∨
        (∃ e pre j, (dbh.makeBackup keep fs).1 = .err e ∧
          evs = pre ++ [⟨.Rename (dbh.makeName j) (dbh.makeName (j + 1)), some e⟩] ∧ quiet pre ∧
          ∀ p, (fs.files p ≠ none ∨ isSelfOrParent p dbh.baseDir = false) →
            (∀ j', j < j' → p ≠ dbh.makeName j') →
            (dbh.makeBackup keep fs).2.files p = fs.files p) ∨
        (∃ e pre, (dbh.makeBackup keep fs).1 = .err e ∧
          evs = pre ++ [⟨.Rename dbh.folder (dbh.makeName 0), some e⟩] ∧ quiet pre ∧
          ∀ p, (fs.files p ≠ none ∨ isSelfOrParent p dbh.baseDir = false) →
            (∀ j', p ≠ dbh.makeName j') →
            (dbh.makeBackup keep fs).2.files p = fs.files p)) := by
  have hst : IsNotExist (Stat dbh.folder fs).1 = false := Stat_exists ht
  have htr1 := Stat_trace dbh.folder fs
  have htr2 := MkdirAll_trace dbh.baseDir (Stat dbh.folder fs).2
  rw [htr1, List.append_assoc] at htr2
  cases hmk : (MkdirAll dbh.baseDir (Stat dbh.folder fs).2).1 with
  | some e =>
    rw [makeBackup_of_mkdir_err dbh keep fs e hst hmk]
    rw [hmk] at htr2
    refine ⟨_, htr2, Or.inr (Or.inr (Or.inl ⟨e, [⟨.Stat dbh.folder, (Stat dbh.folder fs).1⟩],
      rfl, rfl, quiet_stat _ _, ?_⟩))⟩
    show (MkdirAll dbh.baseDir (Stat dbh.folder fs).2).2.files = _
    rw [MkdirAll_files_of_err _ _ _ hmk, Stat_files]
  | none =>
    rw [hmk] at htr2
    have hq2 : quiet ([⟨.Stat dbh.folder, (Stat dbh.folder fs).1⟩] ++
        [⟨.MkdirAll dbh.baseDir, none⟩]) := quiet_append (quiet_stat _ _) (quiet_ok _)
    have hpre : ∀ p, (fs.files p ≠ none ∨ isSelfOrParent p dbh.baseDir = false) →
        (MkdirAll dbh.baseDir (Stat dbh.folder fs).2).2.files p = fs.files p := by
      intro p hp
      rcases hp with hp | hp
      · rw [MkdirAll_files_of_exists _ _ _ (by simpa using hp)]
        simp
      · rw [MkdirAll_files_of_not_parent _ _ _ hp]
        simp
    obtain ⟨l1, _, m, l3, l4, l5⟩ :=
      listBackups_spec dbh keep (MkdirAll dbh.baseDir (Stat dbh.folder fs).2).2
    obtain ⟨evl, htr3, hq3⟩ :=
      listBackups_trace dbh keep (MkdirAll dbh.baseDir (Stat dbh.folder fs).2).2
    rw [htr2, List.append_assoc] at htr3
    have hq3' : quiet ([⟨.Stat dbh.folder, (Stat dbh.folder fs).1⟩] ++
        [⟨.MkdirAll dbh.baseDir, none⟩] ++ evl) := quiet_append hq2 hq3
    have hlen : (dbh.listBackups keep (MkdirAll dbh.baseDir (Stat dbh.folder fs).2).2).1.length
        = m := by
      rw [l3]
      simp
    by_cases hk : keep ≤ (m : Int)
    · rcases Nat.eq_zero_or_pos m with h0 | hm
      · subst h0
        rw [makeBackup_of_panic dbh keep fs hst hmk (by rw [hlen]; exact hk)
          (by rw [hlen]; simp [index])]
        exact ⟨_, htr3, Or.inr (Or.inl ⟨rfl, hq3'⟩)⟩
      · have hidx : index (dbh.listBackups keep
            (MkdirAll dbh.baseDir (Stat dbh.folder fs).2).2).1
            ((m : Int) - 1) = some (dbh.makeName (m - 1)) := by
          have e : ((m : Int) - 1) = ((m - 1 : Nat) : Int) := by omega
          rw [e, l3]
          exact index_range_map _ _ _ (by omega)
        rw [makeBackup_of_remove dbh keep fs _ hst hmk (by rw [hlen]; exact hk)
          (by rw [hlen]; exact hidx)]
        have htr4 := RemoveAll_trace (dbh.makeName (m - 1))
          (dbh.listBackups keep (MkdirAll dbh.baseDir (Stat dbh.folder fs).2).2).2
        rw [htr3, List.append_assoc] at htr4
        have hq4 := quiet_append hq3' (quiet_removeAll (dbh.makeName (m - 1))
          (RemoveAll (dbh.makeName (m - 1))
            (dbh.listBackups keep (MkdirAll dbh.baseDir (Stat dbh.folder fs).2).2).2).1)
        have hrm : ∀ p, p ≠ dbh.makeName (m - 1) →
            (RemoveAll (dbh.makeName (m - 1))
              (dbh.listBackups keep (MkdirAll dbh.baseDir (Stat dbh.folder fs).2).2).2).2.files p
            = (dbh.listBackups keep (MkdirAll dbh.baseDir (Stat dbh.folder fs).2).2).2.files p :=
          fun p hp => RemoveAll_files_of_ne _ _ _ hp
        obtain ⟨evs, s1, s2⟩ := shiftAndSave_run dbh _ m hm hlen
          (fun j hj => by rw [l3]; exact index_range_map _ _ _ hj)
          (RemoveAll (dbh.makeName (m - 1))
            (dbh.listBackups keep (MkdirAll dbh.baseDir (Stat dbh.folder fs).2).2).2).2
        rw [htr4, List.append_assoc] at s1
        refine ⟨_, s1, ?_⟩
        rcases s2 with ⟨s3, s4⟩ | ⟨e, pre, j, hj, s3, s4, s5, s6⟩ | ⟨e, pre, s3, s4, s5, s6⟩
        · exact Or.inl ⟨s3, quiet_append hq4 s4⟩
        · refine Or.inr (Or.inr (Or.inr (Or.inl ⟨e, _, j, s3,
            by rw [s4, ← List.append_assoc], quiet_append hq4 s5, ?_⟩)))
          intro p hp hpj
          rw [s6 p (fun j' h7 _ => hpj j' h7), hrm p (hpj (m - 1) (by omega)), l1, hpre p hp]
        · refine Or.inr (Or.inr (Or.inr (Or.inr ⟨e, _, s3,
            by rw [s4, ← List.append_assoc], quiet_append hq4 s5, ?_⟩)))
          intro p hp hpj
          rw [s6 p (fun j' _ => hpj j'), hrm p (hpj (m - 1)), l1, hpre p hp]
    · rw [makeBackup_of_append dbh keep fs hst hmk (by rw [hlen]; exact hk)]
      have hidx : ∀ j, j < m + 1 →
          index ((dbh.listBackups keep (MkdirAll dbh.baseDir (Stat dbh.folder fs).2).2).1 ++
            [dbh.makeName (dbh.listBackups keep
              (MkdirAll dbh.baseDir (Stat dbh.folder fs).2).2).1.length]) (j : Int)
            = some (dbh.makeName j) := by
        intro j hj
        rw [hlen, l3, index_natCast]
        rcases Nat.lt_succ_iff_lt_or_eq.mp hj with hlt | heq
        · rw [List.getElem?_append_left (by simpa using hlt)]
          simp [hlt]
        · subst heq
          rw [List.getElem?_append_right (by simp)]
          simp
      obtain ⟨evs, s1, s2⟩ := shiftAndSave_run dbh _ (m + 1) (by omega) (by simp [hlen]) hidx
        (dbh.listBackups keep (MkdirAll dbh.baseDir (Stat dbh.folder fs).2).2).2
      rw [htr3, List.append_assoc] at s1
      refine ⟨_, s1, ?_⟩
      rcases s2 with ⟨s3, s4⟩ | ⟨e, pre, j, hj, s3, s4, s5, s6⟩ | ⟨e, pre, s3, s4, s5, s6⟩
      · exact Or.inl ⟨s3, quiet_append hq3' s4⟩
      · refine Or.inr (Or.inr (Or.inr (Or.inl ⟨e, _, j, s3,
          by rw [s4, ← List.append_assoc], quiet_append hq3' s5, ?_⟩)))
        intro p hp hpj
        rw [s6 p (fun j' h7 _ => hpj j' h7), l1, hpre p hp]
      · refine Or.inr (Or.inr (Or.inr (Or.inr ⟨e, _, s3,
          by rw [s4, ← List.append_assoc], quiet_append hq3' s5, ?_⟩)))
        intro p hp hpj
        rw [s6 p (fun j' _ => hpj j'), l1, hpre p hp]

/-! ## Decimal numerals -/

theorem digitChar_value (d : Nat) (h : d < 10) : (Nat.digitChar d).toNat - 48 = d := by
  interval_cases d <;> rfl

theorem digitChar_ne_sep (d : Nat) (h : d < 10) : Nat.digitChar d ≠ Separator := by
  interval_cases d <;> decide

theorem toDigitsCore_value : ∀ (fuel n : Nat) (ds : Str), n < fuel →
    digitsValue (Nat.toDigitsCore 10 fuel n ds) 0 = digitsValue ds n := by
  intro fuel
  induction fuel with
  | zero => intro n ds h; omega
  | succ fuel ih =>
    intro n ds h
    unfold Nat.toDigitsCore
    by_cases h0 : n / 10 = 0
    · simp only [h0, if_true]
      have hv := digitChar_value n (by omega)
      have hn : n % 10 = n := Nat.mod_eq_of_lt (by omega)
      simp [digitsValue, hv, hn]
    · simp only [h0, if_false]
      rw [ih (n / 10) _ (by omega)]
      simp only [digitsValue, List.foldl_cons, digitChar_value _ (Nat.mod_lt n (by decide))]
      congr 1
      omega

theorem decimal_value (n : Nat) : digitsValue (decimal n) 0 = n := by
  unfold decimal Nat.toDigits
  rw [toDigitsCore_value _ _ _ (Nat.lt_succ_self n)]
  rfl

theorem decimal_injective : Function.Injective decimal := by
  intro a b h
  have := congrArg (fun s => digitsValue s 0) h
  simpa [decimal_value] using this

theorem toDigitsCore_no_sep : ∀ (fuel n : Nat) (ds : Str), Separator ∉ ds →
    Separator ∉ Nat.toDigitsCore 10 fuel n ds := by
  intro fuel
  induction fuel with
  | zero => intro n ds h; simpa [Nat.toDigitsCore] using h
  | succ fuel ih =>
    intro n ds h
    unfold Nat.toDigitsCore
    have hd : Separator ∉ Nat.digitChar (n % 10) :: ds := by
      intro hm
      rcases List.mem_cons.mp hm with h1 | h1
      · exact digitChar_ne_sep _ (Nat.mod_lt n (by decide)) h1.symm
      · exact h h1
    by_cases h0 : n / 10 = 0
    · simpa only [h0, if_true] using hd
    · simp only [h0, if_false]
      exact ih _ _ hd

theorem decimal_no_sep (n : Nat) : Separator ∉ decimal n :=
  toDigitsCore_no_sep _ _ _ (by simp)

theorem oldSuffix_no_sep (i : Nat) : Separator ∉ oldSuffix i := by
  unfold oldSuffix
  intro h
  rcases List.mem_append.mp h with h1 | h1
  · revert h1; decide
  · exact decimal_no_sep i h1

theorem oldSuffix_injective : Function.Injective oldSuffix := by
  intro a b h
  exact decimal_injective (List.append_cancel_left h)

theorem oldSuffix_length (i : Nat) : 5 ≤ (oldSuffix i).length := by
  simp [oldSuffix]

/-! ## Path elements -/

theorem splitElems_ne_nil (s : Str) : splitElems s ≠ [] := by
  cases s with
  | nil => simp [splitElems]
  | cons c cs =>
    unfold splitElems
    split
    · simp
    · split <;> simp

theorem splitElems_of_no_sep (x : Str) (h : Separator ∉ x) : splitElems x = [x] := by
  induction x with
  | nil => rfl
  | cons c cs ih =>
    have hc : c ≠ Separator := fun e => h (by simp [e])
    have hcs : Separator ∉ cs := fun e => h (List.mem_cons_of_mem _ e)
    unfold splitElems
    rw [if_neg hc, ih hcs]

theorem splitElems_append_sep (a b : Str) :
    splitElems (a ++ Separator :: b) = splitElems a ++ splitElems b := by
  induction a with
  | nil => simp [splitElems]
  | cons c cs ih =>
    by_cases hc : c = Separator
    · simp [splitElems, hc, ih]
    · have h1 : splitElems (c :: cs ++ Separator :: b) =
          (match splitElems (cs ++ Separator :: b) with
            | [] => [[c]]
            | e :: es => (c :: e) :: es) := by
        simp [splitElems, hc]
      have h2 : splitElems (c :: cs) =
          (match splitElems cs with
            | [] => [[c]]
            | e :: es => (c :: e) :: es) := by
        simp [splitElems, hc]
      rw [h1, h2, ih]
      cases hs : splitElems cs with
      | nil => exact absurd hs (splitElems_ne_nil cs)
      | cons e es => rfl

/-- Appending a string without separator extends the last element. -/
theorem splitElems_append_suffix (a x : Str) (hx : Separator ∉ x) :
    ∃ init l, splitElems a = init ++ [l] ∧ splitElems (a ++ x) = init ++ [l ++ x] := by
  induction a with
  | nil => exact ⟨[], [], rfl, by simpa using splitElems_of_no_sep x hx⟩
  | cons c cs ih =>
    obtain ⟨init, l, h1, h2⟩ := ih
    by_cases hc : c = Separator
    · exact ⟨[] :: init, l, by simp [splitElems, hc, h1], by simp [splitElems, hc, h2]⟩
    · cases init with
      | nil =>
        refine ⟨[], c :: l, ?_, ?_⟩
        · simp only [splitElems, if_neg hc, h1]; rfl
        · have : splitElems (c :: cs ++ x) =
              (match splitElems (cs ++ x) with
                | [] => [[c]]
                | e :: es => (c :: e) :: es) := by
            simp [splitElems, hc]
          rw [this, h2]; rfl
      | cons i0 is =>
        refine ⟨(c :: i0) :: is, l, ?_, ?_⟩
        · simp only [splitElems, if_neg hc, h1]; rfl
        · have : splitElems (c :: cs ++ x) =
              (match splitElems (cs ++ x) with
                | [] => [[c]]
                | e :: es => (c :: e) :: es) := by
            simp [splitElems, hc]
          rw [this, h2]; rfl

theorem lastElem_of_no_sep (e : Str) (h : Separator ∉ e) : lastElem e = some e := by
  simp [lastElem, splitElems_of_no_sep e h]

theorem lastElem_append_sep (a e : Str) (h : Separator ∉ e) :
    lastElem (a ++ Separator :: e) = some e := by
  simp [lastElem, splitElems_append_sep, splitElems_of_no_sep e h]

/-! ## `filepath.Clean` on a path that ends in a plain element -/

theorem splitElems_no_sep (s : Str) : ∀ e ∈ splitElems s, Separator ∉ e := by
  induction s with
  | nil => intro e he; simp [splitElems] at he; simp [he]
  | cons c cs ih =>
    intro e he
    by_cases hc : c = Separator
    · simp only [splitElems, if_pos hc, List.mem_cons] at he
      rcases he with he | he
      · simp [he]
      · exact ih e he
    · simp only [splitElems, if_neg hc] at he
      cases hs : splitElems cs with
      | nil => exact absurd hs (splitElems_ne_nil cs)
      | cons e0 es =>
        rw [hs] at he ih
        rcases List.mem_cons.mp he with he | he
        · subst he
          intro hm
          rcases List.mem_cons.mp hm with h1 | h1
          · exact hc h1.symm
          · exact ih e0 (List.mem_cons_self _ _) h1
        · exact ih e (List.mem_cons_of_mem _ he)

theorem joinElems_concat (xs : List Str) (e : Str) (h : xs ≠ []) :
    joinElems (xs ++ [e]) = joinElems xs ++ Separator :: e := by
  induction xs with
  | nil => exact absurd rfl h
  | cons x rest ih =>
    cases rest with
    | nil => simp [joinElems]
    | cons y ys =>
      have := ih (by simp)
      simp only [List.cons_append] at this ⊢
      simp only [joinElems, this, List.append_assoc, List.cons_append]

/-- The string of a buffer whose last written element is `e`: it is `e`, or it
ends in a separator followed by `e`. -/
theorem string_push (r : Bool) (e : Str) (out : List Str) (d : Nat) :
    lazybuf.string r ⟨e :: out, d⟩ = e ∨
    ∃ pre, lazybuf.string r ⟨e :: out, d⟩ = pre ++ Separator :: e := by
  cases r with
  | true =>
    right
    cases out with
    | nil => exact ⟨[], by simp [lazybuf.string, joinElems]⟩
    | cons x rest =>
      refine ⟨Separator :: joinElems (x :: rest).reverse, ?_⟩
      simp only [lazybuf.string, if_true, List.reverse_cons (a := e)]
      rw [joinElems_concat _ _ (by simp)]
      rfl
  | false =>
    cases out with
    | nil => left; simp [lazybuf.string, joinElems]
    | cons x rest =>
      right
      refine ⟨joinElems (x :: rest).reverse, ?_⟩
      simp only [lazybuf.string, List.reverse_cons (a := e)]
      rw [joinElems_concat _ _ (by simp)]
      simp

theorem lastElem_string_push (r : Bool) (e : Str) (out : List Str) (d : Nat)
    (he : Separator ∉ e) : lastElem (lazybuf.string r ⟨e :: out, d⟩) = some e := by
  rcases string_push r e out d with h | ⟨pre, h⟩
  · rw [h]; exact lastElem_of_no_sep e he
  · rw [h]; exact lastElem_append_sep pre e he

/-- Writing one more element makes the string longer by at least the length of
the element, but for the `.` that stands for an empty relative path. -/
theorem string_push_length (r : Bool) (e : Str) (out : List Str) (d d1 : Nat) :
    (lazybuf.string r ⟨out, d⟩).length + e.length ≤
      (lazybuf.string r ⟨e :: out, d1⟩).length + 1 := by
  cases out with
  | nil => cases r <;> simp [lazybuf.string, joinElems] <;> omega
  | cons x rest =>
    cases r with
    | true =>
      simp only [lazybuf.string, if_true, List.reverse_cons (a := e)]
      rw [joinElems_concat _ _ (by simp)]
      simp
      omega
    | false =>
      simp only [lazybuf.string, List.reverse_cons (a := e)]
      rw [joinElems_concat _ _ (by simp)]
      simp
      omega

theorem cleanStep_plain (r : Bool) (b : lazybuf) (e : Str) (h : plainElem e) :
    cleanStep r b e = ⟨e :: b.out, b.dotdot⟩ := by
  unfold cleanStep
  rw [if_neg h.1, if_neg h.2.1, if_neg h.2.2]

theorem plainElem_append_oldSuffix (l : Str) (i : Nat) : plainElem (l ++ oldSuffix i) := by
  have h : 5 ≤ (l ++ oldSuffix i).length := by
    have := oldSuffix_length i
    rw [List.length_append]
    omega
  refine ⟨?_, ?_, ?_⟩ <;> intro e <;> rw [e] at h <;> simp at h

theorem cleanStep_noEmpty (r : Bool) (b : lazybuf) (e : Str) (h : b.noEmpty) :
    (cleanStep r b e).noEmpty := by
  unfold cleanStep
  split
  · exact h
  · split
    · exact h
    · rename_i h1 h2
      split
      · rename_i h3
        split
        · intro x hx
          exact h x (List.mem_of_mem_tail hx)
        · split
          · intro x hx
            rcases List.mem_cons.mp hx with hx | hx
            · rw [hx, h3]; simp
            · exact h x hx
          · exact h
      · intro x hx
        rcases List.mem_cons.mp hx with hx | hx
        · rw [hx]; exact h1
        · exact h x hx

theorem foldl_cleanStep_noEmpty (r : Bool) (es : List Str) :
    ∀ b : lazybuf, b.noEmpty → (es.foldl (cleanStep r) b).noEmpty := by
  induction es with
  | nil => intro b h; exact h
  | cons e es ih => intro b h; exact ih _ (cleanStep_noEmpty r b e h)

theorem string_tail_length (r : Bool) (out : List Str) (d d1 : Nat)
    (h : ∀ x ∈ out, x ≠ []) :
    (lazybuf.string r ⟨out.tail, d⟩).length ≤ (lazybuf.string r ⟨out, d1⟩).length := by
  cases out with
  | nil => cases r <;> simp [lazybuf.string]
  | cons x rest =>
    have h1 := string_push_length r x rest d d1
    have h2 : 1 ≤ x.length := List.length_pos.mpr (h x (List.mem_cons_self _ _))
    simp only [List.tail_cons]
    omega

theorem isRooted_append (a b : Str) (h : a ≠ []) : isRooted (a ++ b) = isRooted a := by
  cases a with
  | nil => exact absurd rfl h
  | cons c cs => rfl

/-- How `Clean` treats a path `q` and the paths `q ++ x` for the suffixes `x`
of `makeName`: with `l` the last element of `q` and `b` the buffer before it,
`Clean q` is the buffer after the step for `l`, and `Clean (q ++ x)` is the
buffer with the element `l ++ x` written. -/
theorem Clean_with_suffix (q : Str) :
    ∃ (b : lazybuf) (l : Str), b.noEmpty ∧ Separator ∉ l ∧
      (q ≠ [] → Clean q = (cleanStep (isRooted q) b l).string (isRooted q)) ∧
      (q = [] → b = ⟨[], 0⟩ ∧ l = []) ∧
      ∀ i, Clean (q ++ oldSuffix i) =
        lazybuf.string (isRooted q) ⟨(l ++ oldSuffix i) :: b.out, b.dotdot⟩ := by
  obtain ⟨init, l, h1, _⟩ := splitElems_append_suffix q [] (by simp)
  refine ⟨init.foldl (cleanStep (isRooted q)) ⟨[], 0⟩, l, ?_, ?_, ?_, ?_, ?_⟩
  · exact foldl_cleanStep_noEmpty _ _ _ (by intro x hx; simp at hx)
  · exact splitElems_no_sep q l (by rw [h1]; simp)
  · intro hq
    unfold Clean
    rw [if_neg hq, h1, List.foldl_append]
    rfl
  · intro hq
    subst hq
    have : init = [] ∧ l = [] := by
      cases init with
      | nil => simpa [splitElems] using h1
      | cons a as =>
        have := congrArg List.length h1
        simp [splitElems] at this
    rw [this.1, this.2]
    exact ⟨rfl, rfl⟩
  · intro i
    obtain ⟨init2, l2, g1, g2⟩ := splitElems_append_suffix q (oldSuffix i) (oldSuffix_no_sep i)
    have e := g1.symm.trans h1
    have e1 : init2 = init := List.append_inj_left' e rfl
    have e2 : l2 = l := by
      have := List.append_inj_right' e rfl
      simpa using this
    subst e1 e2
    have hne : q ++ oldSuffix i ≠ [] := by
      intro h
      have h5 : 5 ≤ (q ++ oldSuffix i).length := by
        have := oldSuffix_length i
        rw [List.length_append]
        omega
      rw [h] at h5
      simp at h5
    have hr : isRooted (q ++ oldSuffix i) = isRooted q := by
      cases q with
      | nil => simp [oldSuffix, isRooted]; decide
      | cons c cs => rfl
    unfold Clean
    rw [if_neg hne, g2, hr, List.foldl_append]
    simp only [List.foldl_cons, List.foldl_nil]
    rw [cleanStep_plain _ _ _ (plainElem_append_oldSuffix _ i)]

/-! ## The names of a helper are distinct -/

theorem makeName_eq (dbh : dataBackupHelper) (i : Nat) :
    dbh.makeName i = Clean (dbh.joined ++ oldSuffix i) := by
  have hx : dbh.folderName ++ ".old.".toList ++ decimal i = dbh.folderName ++ oldSuffix i := by
    simp [oldSuffix]
  have hne : dbh.folderName ++ oldSuffix i ≠ [] := by
    intro h
    have h5 : 5 ≤ (dbh.folderName ++ oldSuffix i).length := by
      have := oldSuffix_length i
      rw [List.length_append]
      omega
    rw [h] at h5
    simp at h5
  unfold dataBackupHelper.makeName Join dataBackupHelper.joined
  rw [hx]
  by_cases hb : dbh.baseDir ≠ []
  · rw [if_pos hb, if_pos hb]
    simp
  · rw [if_neg hb, if_neg hb, if_pos hne]

theorem folder_eq (dbh : dataBackupHelper) :
    dbh.folder = if dbh.joined = [] then [] else Clean dbh.joined := by
  unfold dataBackupHelper.folder Join dataBackupHelper.joined
  by_cases hb : dbh.baseDir ≠ []
  · rw [if_pos hb, if_pos hb, if_neg (by simp)]
  · rw [if_neg hb, if_neg hb]
    by_cases hf : dbh.folderName ≠ []
    · rw [if_pos hf, if_neg hf]
    · rw [if_neg hf, if_pos (by simpa using hf)]

/-- Distinct indices give distinct generation names, for every helper. -/
theorem makeName_injective (dbh : dataBackupHelper) : Function.Injective dbh.makeName := by
  intro i j h
  obtain ⟨b, l, _, hl, _, _, hc⟩ := Clean_with_suffix dbh.joined
  rw [makeName_eq, makeName_eq, hc i, hc j] at h
  have hi : Separator ∉ l ++ oldSuffix i := by
    intro hm
    rcases List.mem_append.mp hm with h1 | h1
    · exact hl h1
    · exact oldSuffix_no_sep i h1
  have hj : Separator ∉ l ++ oldSuffix j := by
    intro hm
    rcases List.mem_append.mp hm with h1 | h1
    · exact hl h1
    · exact oldSuffix_no_sep j h1
  have h2 := congrArg lastElem h
  rw [lastElem_string_push _ _ _ _ hi, lastElem_string_push _ _ _ _ hj] at h2
  exact oldSuffix_injective (List.append_cancel_left (Option.some.inj h2))

theorem append_oldSuffix_length (l : Str) (i : Nat) :
    l.length + 5 ≤ (l ++ oldSuffix i).length := by
  have := oldSuffix_length i
  rw [List.length_append]
  omega

/-- No generation name is the name of the rotated folder, for every helper. -/
theorem makeName_ne_folder (dbh : dataBackupHelper) (i : Nat) : dbh.makeName i ≠ dbh.folder := by
  obtain ⟨⟨out, dd⟩, l, hb, hl, hq, hq0, hc0⟩ := Clean_with_suffix dbh.joined
  have hc : ∀ i, Clean (dbh.joined ++ oldSuffix i) =
      lazybuf.string (isRooted dbh.joined) ⟨(l ++ oldSuffix i) :: out, dd⟩ := hc0
  have hi : Separator ∉ l ++ oldSuffix i := by
    intro hm
    rcases List.mem_append.mp hm with h1 | h1
    · exact hl h1
    · exact oldSuffix_no_sep i h1
  have hlast := lastElem_string_push (isRooted dbh.joined) (l ++ oldSuffix i) out dd hi
  have hlen := string_push_length (isRooted dbh.joined) (l ++ oldSuffix i) out dd dd
  have h5 := append_oldSuffix_length l i
  rw [makeName_eq, folder_eq, hc i]
  by_cases hj : dbh.joined = []
  · rw [if_pos hj]
    intro h
    rw [h] at hlast
    have : l ++ oldSuffix i = [] := by
      simpa [lastElem, splitElems] using hlast.symm
    rw [this] at h5
    simp at h5
  · rw [if_neg hj, hq hj]
    intro h
    have hlen2 := congrArg List.length h
    rw [h] at hlast
    -- the step taken by `Clean` for the last element of the joined string
    unfold cleanStep at hlast hlen2
    by_cases h1 : l = []
    · rw [if_pos h1] at hlen2
      omega
    · rw [if_neg h1] at hlast hlen2
      by_cases h2 : l = ['.']
      · rw [if_pos h2] at hlen2
        omega
      · rw [if_neg h2] at hlast hlen2
        by_cases h3 : l = ['.', '.']
        · rw [if_pos h3] at hlast hlen2
          by_cases h4 : dd < out.length
          · rw [if_pos h4] at hlen2
            have := string_tail_length (isRooted dbh.joined) out dd dd hb
            simp only at hlen2 this
            omega
          · rw [if_neg h4] at hlast hlen2
            by_cases h6 : (!isRooted dbh.joined) = true
            · rw [if_pos h6] at hlast
              rw [lastElem_string_push _ _ _ _ (by rw [h3]; decide)] at hlast
              have := congrArg List.length (Option.some.inj hlast)
              rw [h3] at this h5
              simp only [List.length_cons, List.length_nil] at this h5
              omega
            · rw [if_neg h6] at hlen2
              omega
        · rw [if_neg h3] at hlast
          rw [lastElem_string_push _ _ _ _ hl] at hlast
          have := congrArg List.length (Option.some.inj hlast)
          omega

/-! ## `filepath.Clean` on a clean path, and the names of a constructed helper -/

theorem reach_init (r : Bool) : lazybuf.reach r ⟨[], 0⟩ :=
  ⟨⟨[], by simp, by simp⟩, fun _ => rfl⟩

theorem cleanStep_reach (r : Bool) (b : lazybuf) (e : Str) (he : Separator ∉ e)
    (h : b.reach r) : (cleanStep r b e).reach r := by
  obtain ⟨out, dd⟩ := b
  obtain ⟨⟨ns, h1, h2⟩, h3⟩ := h
  simp only at h1 h3
  unfold cleanStep
  by_cases e1 : e = []
  · rw [if_pos e1]; exact ⟨⟨ns, h1, h2⟩, h3⟩
  rw [if_neg e1]
  by_cases e2 : e = ['.']
  · rw [if_pos e2]; exact ⟨⟨ns, h1, h2⟩, h3⟩
  rw [if_neg e2]
  by_cases e3 : e = ['.', '.']
  · rw [if_pos e3]
    simp only
    by_cases e4 : dd < out.length
    · rw [if_pos e4]
      cases ns with
      | nil =>
        rw [h1] at e4
        simp at e4
      | cons n ns =>
        refine ⟨⟨ns, ?_, fun x hx => h2 x (List.mem_cons_of_mem _ hx)⟩, h3⟩
        simp [h1]
    · rw [if_neg e4]
      have hns : ns = [] := by
        cases ns with
        | nil => rfl
        | cons n ns =>
          rw [h1] at e4
          simp at e4
          omega
      subst hns
      simp only [List.nil_append] at h1
      by_cases e5 : (!r) = true
      · rw [if_pos e5]
        refine ⟨⟨[], ?_, by simp⟩, ?_⟩
        · simp only [List.nil_append]
          rw [h1, List.length_replicate, List.replicate_succ, e3]
        · intro hr
          rw [hr] at e5
          simp at e5
      · rw [if_neg e5]
        exact ⟨⟨[], by simpa using h1, by simp⟩, h3⟩
  · rw [if_neg e3]
    refine ⟨⟨e :: ns, by simp [h1], ?_⟩, h3⟩
    intro x hx
    rcases List.mem_cons.mp hx with hx | hx
    · rw [hx]; exact ⟨⟨e1, e2, e3⟩, he⟩
    · exact h2 x hx

theorem foldl_cleanStep_reach (r : Bool) (es : List Str) (hes : ∀ e ∈ es, Separator ∉ e) :
    ∀ b : lazybuf, b.reach r → (es.foldl (cleanStep r) b).reach r := by
  induction es with
  | nil => intro b h; exact h
  | cons e es ih =>
    intro b h
    exact ih (fun x hx => hes x (List.mem_cons_of_mem _ hx)) _
      (cleanStep_reach r b e (hes e (List.mem_cons_self _ _)) h)

/-- Every result of `Clean` is the string of a reachable buffer. -/
theorem Clean_reach (s : Str) : ∃ (r : Bool) (b : lazybuf), b.reach r ∧ Clean s = b.string r := by
  by_cases hs : s = []
  · exact ⟨false, ⟨[], 0⟩, reach_init false, by simp [Clean, hs, lazybuf.string]⟩
  · refine ⟨isRooted s, _, foldl_cleanStep_reach _ _ (splitElems_no_sep s) _ (reach_init _), ?_⟩
    unfold Clean
    rw [if_neg hs]

theorem splitElems_joinElems (es : List Str) (hne : es ≠ [])
    (hes : ∀ e ∈ es, Separator ∉ e) : splitElems (joinElems es) = es := by
  induction es with
  | nil => exact absurd rfl hne
  | cons e rest ih =>
    cases rest with
    | nil => exact splitElems_of_no_sep e (hes e (List.mem_cons_self _ _))
    | cons e2 rest =>
      have h1 : joinElems (e :: e2 :: rest) = e ++ Separator :: joinElems (e2 :: rest) := rfl
      rw [h1, splitElems_append_sep, splitElems_of_no_sep e (hes e (List.mem_cons_self _ _)),
        ih (by simp) (fun x hx => hes x (List.mem_cons_of_mem _ hx))]
      rfl

theorem foldl_cleanStep_dotdots (k : Nat) :
    ∀ j : Nat, (List.replicate k ['.', '.']).foldl (cleanStep false)
        ⟨List.replicate j ['.', '.'], j⟩ = ⟨List.replicate (j + k) ['.', '.'], j + k⟩ := by
  induction k with
  | zero => intro j; rfl
  | succ k ih =>
    intro j
    rw [List.replicate_succ, List.foldl_cons]
    have : cleanStep false ⟨List.replicate j ['.', '.'], j⟩ ['.', '.'] =
        ⟨List.replicate (j + 1) ['.', '.'], j + 1⟩ := by
      unfold cleanStep
      rw [if_neg (by simp), if_neg (by simp), if_pos rfl]
      simp [List.replicate_succ]
    rw [this, ih (j + 1)]
    have e : j + 1 + k = j + (k + 1) := by omega
    rw [e]

theorem foldl_cleanStep_plain (r : Bool) (es : List Str) (hes : ∀ e ∈ es, plainElem e) :
    ∀ b : lazybuf, es.foldl (cleanStep r) b = ⟨es.reverse ++ b.out, b.dotdot⟩ := by
  induction es with
  | nil => intro b; rfl
  | cons e es ih =>
    intro b
    rw [List.foldl_cons, cleanStep_plain r b e (hes e (List.mem_cons_self _ _)),
      ih (fun x hx => hes x (List.mem_cons_of_mem _ hx))]
    simp

theorem joinElems_head_ne_sep (es : List Str) (e : Str) (he : e ≠ []) (hs : Separator ∉ e) :
    isRooted (joinElems (e :: es)) = false := by
  cases e with
  | nil => exact absurd rfl he
  | cons c cs =>
    have hc : c ≠ Separator := fun h => hs (by simp [h])
    cases es with
    | nil => simp [joinElems, isRooted, hc]
    | cons e2 rest => simp [joinElems, isRooted, hc]

/-- Splitting the string of a reachable buffer and running the loop of `Clean`
over the elements gives the buffer back. -/
theorem reach_resplit (r : Bool) (b : lazybuf) (h : b.reach r) :
    b.string r ≠ [] ∧ isRooted (b.string r) = r ∧
    (splitElems (b.string r)).foldl (cleanStep r) ⟨[], 0⟩ = b := by
  obtain ⟨out, dd⟩ := b
  obtain ⟨⟨ns, h1, h2⟩, h3⟩ := h
  simp only at h1 h3
  have hrev : out.reverse = List.replicate dd ['.', '.'] ++ ns.reverse := by
    rw [h1]; simp
  have hsep : ∀ e ∈ out.reverse, Separator ∉ e := by
    intro e he
    rw [hrev] at he
    rcases List.mem_append.mp he with he | he
    · rw [List.eq_of_mem_replicate he]; decide
    · exact (h2 e (List.mem_reverse.mp he)).2
  have hplain : ∀ e ∈ ns.reverse, plainElem e := fun e he => (h2 e (List.mem_reverse.mp he)).1
  cases r with
  | true =>
    have hdd : dd = 0 := h3 rfl
    subst hdd
    simp only [List.replicate_zero, List.append_nil, List.nil_append] at h1 hrev
    refine ⟨by simp [lazybuf.string], by simp [lazybuf.string, isRooted], ?_⟩
    simp only [lazybuf.string, if_true]
    have hsp : splitElems (Separator :: joinElems out.reverse) =
        [] :: splitElems (joinElems out.reverse) := by
      simp [splitElems]
    rw [hsp, List.foldl_cons]
    have hskip : cleanStep true ⟨[], 0⟩ [] = ⟨[], 0⟩ := by simp [cleanStep]
    rw [hskip]
    by_cases ho : out = []
    · subst ho
      simp [joinElems, splitElems, cleanStep]
    · rw [splitElems_joinElems _ (by simpa using ho) hsep, hrev,
        foldl_cleanStep_plain _ _ hplain]
      simp [h1]
  | false =>
    by_cases ho : out = []
    · subst ho
      have hdd : dd = 0 := by
        cases dd with
        | zero => rfl
        | succ k =>
          have := congrArg List.length h1
          simp at this
          omega
      subst hdd
      simp [lazybuf.string, isRooted, splitElems, cleanStep, Separator]
    · have hstr : lazybuf.string false ⟨out, dd⟩ = joinElems out.reverse := by
        simp [lazybuf.string, ho]
      have hne : out.reverse ≠ [] := by simpa using ho
      rw [hstr]
      refine ⟨?_, ?_, ?_⟩
      · intro hj
        have := splitElems_joinElems _ hne hsep
        rw [hj] at this
        have hm : ([] : Str) ∈ out.reverse := by rw [← this]; simp [splitElems]
        rw [hrev] at hm
        rcases List.mem_append.mp hm with hm | hm
        · have := List.eq_of_mem_replicate hm
          simp at this
        · exact (hplain _ hm).1 rfl
      · cases hr : out.reverse with
        | nil => exact absurd hr hne
        | cons e es =>
          have hmem : e ∈ out.reverse := by rw [hr]; simp
          have hne1 : e ≠ [] := by
            rw [hrev] at hmem
            rcases List.mem_append.mp hmem with hm | hm
            · rw [List.eq_of_mem_replicate hm]; simp
            · exact (hplain _ hm).1
          exact joinElems_head_ne_sep es e hne1 (hsep e hmem)
      · rw [splitElems_joinElems _ hne hsep, hrev, List.foldl_append]
        have := foldl_cleanStep_dotdots dd 0
        simp only [List.replicate_zero, Nat.zero_add] at this
        rw [this, foldl_cleanStep_plain _ _ hplain]
        simp [h1]

/-- `Clean` is idempotent. -/
theorem Clean_idem (s : Str) : Clean (Clean s) = Clean s := by
  obtain ⟨r, b, hb, hs⟩ := Clean_reach s
  obtain ⟨h1, h2, h3⟩ := reach_resplit r b hb
  rw [hs]
  unfold Clean
  rw [if_neg h1, h2, h3]

/-! ## The names of a helper made by `newDataBackupHelper` -/

theorem Base_shape (p : Str) : Base p = [Separator] ∨ Separator ∉ Base p := by
  unfold Base
  by_cases hp : p = []
  · rw [if_pos hp]
    right
    decide
  · rw [if_neg hp]
    simp only
    split
    · left; rfl
    · right
      intro hm
      have hm2 := List.mem_reverse.mp hm
      have := List.mem_takeWhile_imp hm2
      simp at this

theorem isSelfOrParent_length (q path : Str) (h : isSelfOrParent q path = true) :
    q.length ≤ path.length := by
  unfold isSelfOrParent at h
  simp only [Bool.or_eq_true, Bool.and_eq_true, beq_iff_eq] at h
  rcases h with (h | ⟨_, h⟩) | h
  · rw [h]
  · have := List.IsPrefix.length_le (List.isPrefixOf_iff_prefix.mp h)
    simp at this
    omega
  · obtain ⟨h1, h2⟩ := h
    rw [h1]
    cases path with
    | nil => simp [isRooted] at h2
    | cons c cs => simp

/-- A generation name of a constructed helper is longer than its base directory. -/
theorem makeName_length (p : Str) (i : Nat) :
    (Dir p).length < ((newDataBackupHelper p).makeName i).length := by
  obtain ⟨r, ⟨out, dd⟩, hb, hs⟩ := Clean_reach (dirPart p)
  obtain ⟨h1, h2, h3⟩ := reach_resplit r ⟨out, dd⟩ hb
  have hB : Dir p = lazybuf.string r ⟨out, dd⟩ := hs
  rw [← hB] at h1 h2 h3
  have hj : (newDataBackupHelper p).joined = Dir p ++ Separator :: Base p := by
    simp [dataBackupHelper.joined, newDataBackupHelper, h1]
  have hne : Dir p ++ Separator :: Base p ++ oldSuffix i ≠ [] := by
    cases hd : Dir p with
    | nil => exact absurd hd h1
    | cons c cs => simp
  have hsplit : splitElems (Dir p ++ Separator :: Base p ++ oldSuffix i) =
      splitElems (Dir p) ++ splitElems (Base p ++ oldSuffix i) := by
    rw [← splitElems_append_sep]
    simp
  have hroot : isRooted (Dir p ++ Separator :: Base p ++ oldSuffix i) = r := by
    rw [List.append_assoc, isRooted_append _ _ h1, h2]
  have hfold : ∃ e : Str, 5 ≤ e.length ∧
      (splitElems (Base p ++ oldSuffix i)).foldl (cleanStep r) ⟨out, dd⟩ = ⟨e :: out, dd⟩ := by
    rcases Base_shape p with hF | hF
    · refine ⟨oldSuffix i, oldSuffix_length i, ?_⟩
      have : splitElems (Base p ++ oldSuffix i) = [[], oldSuffix i] := by
        rw [hF]
        have := splitElems_append_sep [] (oldSuffix i)
        rw [splitElems_of_no_sep _ (oldSuffix_no_sep i)] at this
        simpa [splitElems] using this
      rw [this]
      have hpl := plainElem_append_oldSuffix [] i
      simp only [List.nil_append] at hpl
      simp only [List.foldl_cons, List.foldl_nil]
      have hskip : cleanStep r ⟨out, dd⟩ [] = ⟨out, dd⟩ := by simp [cleanStep]
      rw [hskip, cleanStep_plain _ _ _ hpl]
    · refine ⟨Base p ++ oldSuffix i, by have := append_oldSuffix_length (Base p) i; omega, ?_⟩
      have hns : Separator ∉ Base p ++ oldSuffix i := by
        intro hm
        rcases List.mem_append.mp hm with hm | hm
        · exact hF hm
        · exact oldSuffix_no_sep i hm
      rw [splitElems_of_no_sep _ hns]
      simp only [List.foldl_cons, List.foldl_nil]
      rw [cleanStep_plain _ _ _ (plainElem_append_oldSuffix _ i)]
  obtain ⟨e, he, hf⟩ := hfold
  have hname : (newDataBackupHelper p).makeName i = lazybuf.string r ⟨e :: out, dd⟩ := by
    rw [makeName_eq, hj]
    unfold Clean
    rw [if_neg hne, hsplit, hroot, List.foldl_append, h3, hf]
  have hlen := string_push_length r e out dd dd
  rw [hname, hB]
  omega

/-- The names of a helper made by `newDataBackupHelper` are kept apart. -/
theorem newDataBackupHelper_separate (p : Str) : Separate (newDataBackupHelper p) := by
  refine ⟨makeName_injective _, makeName_ne_folder _, ?_⟩
  intro i
  cases h : isSelfOrParent ((newDataBackupHelper p).makeName i) (newDataBackupHelper p).baseDir with
  | false => rfl
  | true =>
    have h1 := isSelfOrParent_length _ _ h
    have h2 := makeName_length p i
    have h3 : (newDataBackupHelper p).baseDir = Dir p := rfl
    rw [h3] at h1
    omega

/-! ## Rotation of a contiguous run of generations -/

/-- A successful `makeBackup` on a state whose generations are exactly those of
the indices below `k`, with `k` at most the limit: afterwards they are exactly
those below `min (k + 1) keep`, generation 0 holds what the folder held and every
other one what the generation before it held. -/
theorem makeBackup_contiguous (dbh : dataBackupHelper) (sep : Separate dbh) (keep : Int)
    (fs : FS) (k : Nat) (ht : fs.files dbh.folder ≠ none)
    (hgen : ∀ i, fs.files (dbh.makeName i) ≠ none ↔ i < k) (hk : (k : Int) ≤ keep)
    (hnil : (dbh.makeBackup keep fs).1 = .nil) :
    1 ≤ keep ∧
    (∀ i, (dbh.makeBackup keep fs).2.files (dbh.makeName i) ≠ none ↔
      i < min (k + 1) keep.toNat) ∧
    (dbh.makeBackup keep fs).2.files dbh.folder = none ∧
    (dbh.makeBackup keep fs).2.files (dbh.makeName 0) = fs.files dbh.folder ∧
    (∀ j, j + 1 < min (k + 1) keep.toNat →
      (dbh.makeBackup keep fs).2.files (dbh.makeName (j + 1)) = fs.files (dbh.makeName j)) ∧
    (∀ p, p ≠ dbh.folder → (∀ j, p ≠ dbh.makeName j) →
      (dbh.makeBackup keep fs).2.files p = fs.files p ∨
      (fs.files p = none ∧ (dbh.makeBackup keep fs).2.files p = some emptyDir)) := by
  obtain ⟨L, hL1, hL2, hL3, hsrc, a1, a2, a3, a4, a5⟩ := makeBackup_nil dbh sep keep fs ht hnil
  have hup : L ≤ k + 1 := by
    by_contra hc
    have := (hgen k).mp (hsrc k (by omega))
    omega
  have hlow : min (k + 1) keep.toNat ≤ L := by
    rcases hL3 with h | h
    · have : ¬ (L - 1 < k) := fun hlt => (hgen (L - 1)).mpr hlt h
      omega
    · omega
  have hLeq : L = min (k + 1) keep.toNat := by omega
  rw [← hLeq]
  refine ⟨by omega, ?_, a1, a2, a3, ?_⟩
  · intro i
    rcases Nat.lt_or_ge i L with hi | hi
    · refine ⟨fun _ => hi, fun _ => ?_⟩
      cases i with
      | zero => rw [a2]; exact ht
      | succ j =>
        rw [a3 j hi]
        exact (hgen j).mpr (by omega)
    · have hfr := a4 (dbh.makeName i) (sep.folder i)
        (fun j hj h => by have := sep.inj h; omega) (Or.inr (sep.parent i))
      rw [hfr]
      refine ⟨fun h => ?_, fun h => ?_⟩
      · have := (hgen i).mp h
        omega
      · omega
  · intro p hp hpj
    exact a5 p hp (fun j _ => hpj j)

/-! ## The claims -/

/-- C1: a successful `makeBackup` with limit `keep`, on a state where the folder
and the generations `0..k-1` exist and generation `k` does not, with `k < keep`:
afterwards the folder path does not exist, generation 0 holds the former content
of the folder, generation `i` holds the former content of generation `i-1` for
`1 ≤ i ≤ k`, and every content a generation held before is still held by a
generation. -/
theorem makeBackup_shifts (p : Str) (keep : Int) (k : Nat) (fs : FS)
    (hk : (k : Int) < keep)
    (ht : fs.files (newDataBackupHelper p).folder ≠ none)
    (hex : ∀ i, i < k → fs.files ((newDataBackupHelper p).makeName i) ≠ none)
    (hfree : fs.files ((newDataBackupHelper p).makeName k) = none)
    (hnil : ((newDataBackupHelper p).makeBackup keep fs).1 = .nil) :
    ((newDataBackupHelper p).makeBackup keep fs).2.files (newDataBackupHelper p).folder = none ∧
    ((newDataBackupHelper p).makeBackup keep fs).2.files ((newDataBackupHelper p).makeName 0) =
      fs.files (newDataBackupHelper p).folder ∧
    (∀ i, 1 ≤ i → i ≤ k →
      ((newDataBackupHelper p).makeBackup keep fs).2.files ((newDataBackupHelper p).makeName i) =
        fs.files ((newDataBackupHelper p).makeName (i - 1))) ∧
    (∀ j c, fs.files ((newDataBackupHelper p).makeName j) = some c →
      ∃ j', ((newDataBackupHelper p).makeBackup keep fs).2.files
        ((newDataBackupHelper p).makeName j') = some c) := by
  have sep := newDataBackupHelper_separate p
  obtain ⟨L, hL1, hL2, hL3, hsrc, a1, a2, a3, a4, _⟩ :=
    makeBackup_nil _ sep keep fs ht hnil
  have hup : L ≤ k + 1 := by
    by_contra hc
    exact hsrc k (by omega) hfree
  have hlow : k + 1 ≤ L := by
    rcases hL3 with h | h
    · by_contra hc
      exact hex (L - 1) (by omega) h
    · omega
  have hLeq : L = k + 1 := by omega
  subst hLeq
  refine ⟨a1, a2, ?_, ?_⟩
  · intro i h1 h2
    have := a3 (i - 1) (by omega)
    have e : i - 1 + 1 = i := by omega
    rwa [e] at this
  · intro j c hj
    rcases Nat.lt_or_ge j k with hlt | hge
    · exact ⟨j + 1, by rw [a3 j (by omega)]; exact hj⟩
    · have hne : j ≠ k := fun h => by rw [h, hfree] at hj; cases hj
      refine ⟨j, ?_⟩
      rw [a4 _ (sep.folder j) (fun j' hj' h => by have := sep.inj h; omega)
        (Or.inl (by rw [hj]; simp))]
      exact hj

/-- C1, at limit 2 on `/data/store` holding 8 with generation 0 holding 7. -/
theorem makeBackup_shifts_witness :
    ((newDataBackupHelper "/data/store".toList).makeBackup 2
      (FS.ofList [("/data/store".toList, 8), ("/data/store.old.0".toList, 7)] [])).2.files
        "/data/store".toList = none ∧
    ((newDataBackupHelper "/data/store".toList).makeBackup 2
      (FS.ofList [("/data/store".toList, 8), ("/data/store.old.0".toList, 7)] [])).2.files
        "/data/store.old.0".toList = some 8 ∧
    ((newDataBackupHelper "/data/store".toList).makeBackup 2
      (FS.ofList [("/data/store".toList, 8), ("/data/store.old.0".toList, 7)] [])).2.files
        "/data/store.old.1".toList = some 7 := by
  have h := makeBackup_shifts "/data/store".toList 2 1
    (FS.ofList [("/data/store".toList, 8), ("/data/store.old.0".toList, 7)] [])
    (by decide) (by decide) (by decide) (by decide) (by decide)
  exact ⟨h.1, h.2.1, h.2.2.1 1 (by decide) (by decide)⟩

/-- C2, as stated, fails: with limit 1 on a state where the folder and the
generations 0 and 1 exist, `makeBackup` returns nil after a successful remove,
and generation 1 still exists. -/
theorem makeBackup_discard_counterexample :
    (FS.ofList [("/data/store".toList, 9), ("/data/store.old.0".toList, 8),
      ("/data/store.old.1".toList, 7)] []).files
      (newDataBackupHelper "/data/store".toList).folder ≠ none ∧
    (∀ i, i < 1 → (FS.ofList [("/data/store".toList, 9), ("/data/store.old.0".toList, 8),
      ("/data/store.old.1".toList, 7)] []).files
      ((newDataBackupHelper "/data/store".toList).makeName i) ≠ none) ∧
    ((newDataBackupHelper "/data/store".toList).makeBackup 1
      (FS.ofList [("/data/store".toList, 9), ("/data/store.old.0".toList, 8),
        ("/data/store.old.1".toList, 7)] [])).1 = .nil ∧
    (⟨.RemoveAll "/data/store.old.0".toList, none⟩ : Event) ∈
      ((newDataBackupHelper "/data/store".toList).makeBackup 1
        (FS.ofList [("/data/store".toList, 9), ("/data/store.old.0".toList, 8),
          ("/data/store.old.1".toList, 7)] [])).2.trace ∧
    ((newDataBackupHelper "/data/store".toList).makeBackup 1
      (FS.ofList [("/data/store".toList, 9), ("/data/store.old.0".toList, 8),
        ("/data/store.old.1".toList, 7)] [])).2.files
      ((newDataBackupHelper "/data/store".toList).makeName 1) = some 7 := by
  decide

/-- C2, amended: a successful `makeBackup` with limit `N ≥ 1`, on a state where the
folder and the generations `0..N-1` exist and generation `N` does not exist, the
content of generation `N-1` being told apart from the others (no other
generation nor the folder holds it): afterwards the folder path does not exist, generation 0 holds the former content
of the folder, generation `i` that of generation `i-1` for `1 ≤ i ≤ N-1`,
generation `N` does not exist, and no generation holds the former content of
generation `N-1`. -/
theorem makeBackup_discards_oldest (p : Str) (N : Nat) (fs : FS) (hN : 1 ≤ N)
    (ht : fs.files (newDataBackupHelper p).folder ≠ none)
    (hex : ∀ i, i < N → fs.files ((newDataBackupHelper p).makeName i) ≠ none)
    (hfree : fs.files ((newDataBackupHelper p).makeName N) = none)
    (huniq : ∀ j, fs.files ((newDataBackupHelper p).makeName j) =
      fs.files ((newDataBackupHelper p).makeName (N - 1)) → j = N - 1)
    (hfold : fs.files (newDataBackupHelper p).folder ≠
      fs.files ((newDataBackupHelper p).makeName (N - 1)))
    (hnil : ((newDataBackupHelper p).makeBackup N fs).1 = .nil) :
    ((newDataBackupHelper p).makeBackup N fs).2.files (newDataBackupHelper p).folder = none ∧
    ((newDataBackupHelper p).makeBackup N fs).2.files ((newDataBackupHelper p).makeName 0) =
      fs.files (newDataBackupHelper p).folder ∧
    (∀ i, 1 ≤ i → i ≤ N - 1 →
      ((newDataBackupHelper p).makeBackup N fs).2.files ((newDataBackupHelper p).makeName i) =
        fs.files ((newDataBackupHelper p).makeName (i - 1))) ∧
    ((newDataBackupHelper p).makeBackup N fs).2.files ((newDataBackupHelper p).makeName N) =
      none ∧
    (∀ j, ((newDataBackupHelper p).makeBackup N fs).2.files
      ((newDataBackupHelper p).makeName j) ≠
        fs.files ((newDataBackupHelper p).makeName (N - 1))) := by
  have sep := newDataBackupHelper_separate p
  obtain ⟨L, hL1, hL2, hL3, hsrc, a1, a2, a3, a4, _⟩ :=
    makeBackup_nil _ sep N fs ht hnil
  have hLeq : L = N := by
    rcases hL3 with h | h
    · exact absurd h (hex (L - 1) (by omega))
    · omega
  subst hLeq
  have hframe : ∀ j, L ≤ j →
      ((newDataBackupHelper p).makeBackup L fs).2.files ((newDataBackupHelper p).makeName j) =
        fs.files ((newDataBackupHelper p).makeName j) := fun j hj =>
    a4 _ (sep.folder j) (fun j' hj' h => by have := sep.inj h; omega) (Or.inr (sep.parent j))
  refine ⟨a1, a2, ?_, ?_, ?_⟩
  · intro i h1 h2
    have := a3 (i - 1) (by omega)
    have e : i - 1 + 1 = i := by omega
    rwa [e] at this
  · rw [hframe L (Nat.le_refl L)]
    exact hfree
  · intro j
    rcases Nat.lt_or_ge j L with hlt | hge
    · cases j with
      | zero => rw [a2]; exact hfold
      | succ j' =>
        rw [a3 j' hlt]
        intro h
        have := huniq j' h
        omega
    · rw [hframe j hge]
      intro h
      have := huniq j h
      omega

/-- C2 amended, at limit 1 on `/data/store` holding 9 with generation 0 holding 8. -/
theorem makeBackup_discards_oldest_witness :
    ((newDataBackupHelper "/data/store".toList).makeBackup 1
      (FS.ofList [("/data/store".toList, 9), ("/data/store.old.0".toList, 8)] [])).2.files
        "/data/store.old.0".toList = some 9 ∧
    ((newDataBackupHelper "/data/store".toList).makeBackup 1
      (FS.ofList [("/data/store".toList, 9), ("/data/store.old.0".toList, 8)] [])).2.files
        "/data/store.old.1".toList = none ∧
    ∀ j, ((newDataBackupHelper "/data/store".toList).makeBackup 1
      (FS.ofList [("/data/store".toList, 9), ("/data/store.old.0".toList, 8)] [])).2.files
        ((newDataBackupHelper "/data/store".toList).makeName j) ≠ some 8 := by
  have h := makeBackup_discards_oldest "/data/store".toList 1
    (FS.ofList [("/data/store".toList, 9), ("/data/store.old.0".toList, 8)] [])
    (by decide) (by decide) (by decide) (by decide)
    (fun j hj => by
      by_contra hne
      have hinj := makeName_injective (newDataBackupHelper "/data/store".toList)
      have hnone := ofList_files_none
        [("/data/store".toList, 9), ("/data/store.old.0".toList, 8)] []
        ((newDataBackupHelper "/data/store".toList).makeName j) (by
          intro e he
          simp only [List.mem_cons, List.mem_singleton, List.not_mem_nil, or_false] at he
          rcases he with he | he
          · rw [he]; exact makeName_ne_folder _ j
          · rw [he]; exact fun e0 => hne (hinj (e0.trans (by decide))))
      rw [hnone] at hj
      revert hj
      decide)
    (by decide) (by decide)
  exact ⟨h.2.1, h.2.2.2.1, h.2.2.2.2⟩

/-! ## Repeated rotations -/

theorem recreate_files_folder (dbh : dataBackupHelper) (c : Content) (fs : FS) :
    (recreate dbh c fs).files dbh.folder = some c := by
  simp [recreate]

theorem recreate_files_of_ne (dbh : dataBackupHelper) (c : Content) (fs : FS) (q : Str)
    (h : q ≠ dbh.folder) : (recreate dbh c fs).files q = fs.files q := by
  simp [recreate, Function.update_noteq h]

/-- After `m` successful rounds from a state without generations: the generations
are exactly those below `min m N`, and generation `i` holds the content of round
`m - i`. -/
theorem rotate_spec (dbh : dataBackupHelper) (sep : Separate dbh) (N : Nat)
    (c : Nat → Content) (fs : FS) (h0 : ∀ i, fs.files (dbh.makeName i) = none) :
    ∀ m, rotateOk dbh N c m fs = true →
      (∀ i, (rotate dbh N c m fs).files (dbh.makeName i) ≠ none ↔ i < min m N) ∧
      (∀ i, i < min m N → (rotate dbh N c m fs).files (dbh.makeName i) = some (c (m - i))) := by
  intro m
  induction m with
  | zero =>
    intro _
    refine ⟨fun i => ?_, fun i hi => ?_⟩
    · simp [rotate, h0]
    · simp at hi
  | succ m ih =>
    intro hok
    simp only [rotateOk, Bool.and_eq_true, decide_eq_true_eq] at hok
    obtain ⟨ih1, ih2⟩ := ih hok.1
    have hgen : ∀ i, (recreate dbh (c (m + 1)) (rotate dbh N c m fs)).files (dbh.makeName i) ≠ none
        ↔ i < min m N := by
      intro i
      rw [recreate_files_of_ne _ _ _ _ (sep.folder i)]
      exact ih1 i
    obtain ⟨_, b1, _, b3, b4, _⟩ := makeBackup_contiguous dbh sep N
      (recreate dbh (c (m + 1)) (rotate dbh N c m fs)) (min m N)
      (by rw [recreate_files_folder]; simp) hgen (by omega) hok.2
    have hmin : min (min m N + 1) (N : Int).toNat = min (m + 1) N := by
      simp only [Int.toNat_ofNat]
      omega
    rw [hmin] at b1 b4
    refine ⟨b1, ?_⟩
    intro i hi
    cases i with
    | zero =>
      show ((dbh.makeBackup N (recreate dbh (c (m + 1)) (rotate dbh N c m fs))).2).files
        (dbh.makeName 0) = _
      rw [b3, recreate_files_folder]
      rfl
    | succ j =>
      show ((dbh.makeBackup N (recreate dbh (c (m + 1)) (rotate dbh N c m fs))).2).files
        (dbh.makeName (j + 1)) = _
      rw [b4 j hi, recreate_files_of_ne _ _ _ _ (sep.folder j), ih2 j (by omega)]
      have e : m - j = m + 1 - (j + 1) := by omega
      rw [e]

/-- After `m` successful rounds from a state that holds none of the contents of
the rounds, these contents being pairwise distinct and not that of an empty
directory: a path that holds the content of round `j` is generation `m - j`. -/
theorem rotate_holders (dbh : dataBackupHelper) (sep : Separate dbh) (N : Nat)
    (c : Nat → Content) (fs : FS) (h0 : ∀ i, fs.files (dbh.makeName i) = none)
    (hinj : ∀ a b, 1 ≤ a → 1 ≤ b → c a = c b → a = b)
    (hempty : ∀ j, 1 ≤ j → c j ≠ emptyDir)
    (hfresh : ∀ q j, 1 ≤ j → fs.files q ≠ some (c j)) :
    ∀ m, rotateOk dbh N c m fs = true →
      ∀ q j, 1 ≤ j → (rotate dbh N c m fs).files q = some (c j) →
        ∃ i, i < min m N ∧ q = dbh.makeName i ∧ j + i = m := by
  intro m
  induction m with
  | zero =>
    intro _ q j hj h
    exact absurd h (hfresh q j hj)
  | succ m ih =>
    intro hok q j hj h
    have hok' := hok
    simp only [rotateOk, Bool.and_eq_true, decide_eq_true_eq] at hok
    obtain ⟨ih1, ih2⟩ := rotate_spec dbh sep N c fs h0 m hok.1
    obtain ⟨n1, n2⟩ := rotate_spec dbh sep N c fs h0 (m + 1) hok'
    have hgen : ∀ i, (recreate dbh (c (m + 1)) (rotate dbh N c m fs)).files (dbh.makeName i) ≠ none
        ↔ i < min m N := by
      intro i
      rw [recreate_files_of_ne _ _ _ _ (sep.folder i)]
      exact ih1 i
    obtain ⟨_, _, b2, _, _, b5⟩ := makeBackup_contiguous dbh sep N
      (recreate dbh (c (m + 1)) (rotate dbh N c m fs)) (min m N)
      (by rw [recreate_files_folder]; simp) hgen (by omega) hok.2
    have hstep : rotate dbh N c (m + 1) fs =
        (dbh.makeBackup N (recreate dbh (c (m + 1)) (rotate dbh N c m fs))).2 := rfl
    rw [← hstep] at b2 b5
    by_cases hq : q = dbh.folder
    · rw [hq, b2] at h
      cases h
    by_cases hg : ∃ i, q = dbh.makeName i
    · obtain ⟨i, hi⟩ := hg
      have hlt : i < min (m + 1) N := (n1 i).mp (by rw [← hi, h]; simp)
      refine ⟨i, hlt, hi, ?_⟩
      have := n2 i hlt
      rw [← hi, h] at this
      have hc := hinj j (m + 1 - i) hj (by omega) (Option.some.inj this)
      omega
    · have hgi : ∀ i, q ≠ dbh.makeName i := fun i hi => hg ⟨i, hi⟩
      rcases b5 q hq hgi with hb | hb
      · rw [hb, recreate_files_of_ne _ _ _ _ hq] at h
        obtain ⟨i, _, hi, _⟩ := ih hok.1 q j hj h
        exact absurd hi (hgi i)
      · rw [hb.2] at h
        exact absurd (Option.some.inj h).symm (hempty j hj)

/-- C3: from a state without generation directories, after `m` successful calls
of `makeBackup` with limit `N` (any `N`, so every `N ≥ 1`), the folder being
recreated before each call, the
generation directories that exist are exactly those of the indices below
`min m N`. -/
theorem rotate_generations (p : Str) (N : Nat) (c : Nat → Content) (m : Nat) (fs : FS)
    (h0 : ∀ i, fs.files ((newDataBackupHelper p).makeName i) = none)
    (hok : rotateOk (newDataBackupHelper p) N c m fs = true) :
    ∀ i, (rotate (newDataBackupHelper p) N c m fs).files
      ((newDataBackupHelper p).makeName i) ≠ none ↔ i < min m N :=
  (rotate_spec _ (newDataBackupHelper_separate p) N c fs h0 m hok).1

/-- C3, at limit 2: exactly the generations 0 and 1 exist after 2 rounds and
after 3 rounds. -/
theorem rotate_generations_witness :
    (∀ i, (rotate (newDataBackupHelper "/data/store".toList) 2 (fun j => j) 2
      (FS.ofList [] [])).files ((newDataBackupHelper "/data/store".toList).makeName i) ≠ none
        ↔ i < 2) ∧
    (∀ i, (rotate (newDataBackupHelper "/data/store".toList) 2 (fun j => j) 3
      (FS.ofList [] [])).files ((newDataBackupHelper "/data/store".toList).makeName i) ≠ none
        ↔ i < 2) :=
  ⟨rotate_generations "/data/store".toList 2 (fun j => j) 2 (FS.ofList [] [])
      (fun _ => rfl) (by decide),
    rotate_generations "/data/store".toList 2 (fun j => j) 3 (FS.ofList [] [])
      (fun _ => rfl) (by decide)⟩

/-- C4: from a state without generation directories, after `m` successful
calls of `makeBackup` with limit `N`, the folder being recreated with
content `c j` before the `j`-th call: generation `i` holds `c (m - i)` for every
`i < min m N`, no generation of a higher index exists, and every content `c j`
with `j ≤ m - N` is held by no path.  The contents tell the rounds apart: they
are pairwise distinct, none is that of an empty directory, and no path holds
one of them at the start. -/
theorem rotate_contents (p : Str) (N : Nat) (c : Nat → Content) (m : Nat) (fs : FS)
    (h0 : ∀ i, fs.files ((newDataBackupHelper p).makeName i) = none)
    (hinj : ∀ a b, 1 ≤ a → 1 ≤ b → c a = c b → a = b)
    (hempty : ∀ j, 1 ≤ j → c j ≠ emptyDir)
    (hfresh : ∀ q j, 1 ≤ j → fs.files q ≠ some (c j))
    (hok : rotateOk (newDataBackupHelper p) N c m fs = true) :
    (∀ i, i < min m N → (rotate (newDataBackupHelper p) N c m fs).files
      ((newDataBackupHelper p).makeName i) = some (c (m - i))) ∧
    (∀ i, min m N ≤ i → (rotate (newDataBackupHelper p) N c m fs).files
      ((newDataBackupHelper p).makeName i) = none) ∧
    (∀ j, 1 ≤ j → j + N ≤ m →
      ∀ q, (rotate (newDataBackupHelper p) N c m fs).files q ≠ some (c j)) := by
  have sep := newDataBackupHelper_separate p
  obtain ⟨a1, a2⟩ := rotate_spec _ sep N c fs h0 m hok
  refine ⟨a2, ?_, ?_⟩
  · intro i hi
    by_contra hne
    have := (a1 i).mp hne
    omega
  · intro j hj hjm q hq
    obtain ⟨i, hi, _, hji⟩ := rotate_holders _ sep N c fs h0 hinj hempty hfresh m hok q j hj hq
    omega

/-- C4, at limit 2 with the contents A = 1, B = 2, C = 3: after the third round
generation 0 holds C, generation 1 holds B, there is no generation 2 and no path
holds A. -/
theorem rotate_contents_witness :
    (rotate (newDataBackupHelper "/data/store".toList) 2 (fun j => j) 3
      (FS.ofList [] [])).files "/data/store.old.0".toList = some 3 ∧
    (rotate (newDataBackupHelper "/data/store".toList) 2 (fun j => j) 3
      (FS.ofList [] [])).files "/data/store.old.1".toList = some 2 ∧
    (rotate (newDataBackupHelper "/data/store".toList) 2 (fun j => j) 3
      (FS.ofList [] [])).files "/data/store.old.2".toList = none ∧
    ∀ q, (rotate (newDataBackupHelper "/data/store".toList) 2 (fun j => j) 3
      (FS.ofList [] [])).files q ≠ some 1 := by
  have h := rotate_contents "/data/store".toList 2 (fun j => j) 3 (FS.ofList [] [])
    (fun _ => rfl) (fun a b _ _ h => h)
    (fun j hj h => by have h1 : j = 0 := h; omega)
    (fun q j _ h => by simp [FS.ofList] at h) (by decide)
  exact ⟨h.1 0 (by decide), h.1 1 (by decide), h.2.1 2 (by decide),
    h.2.2 1 (by decide) (by decide)⟩

/-! ## A folder that is missing, and a parent directory that cannot be made -/

theorem makeBackup_of_notExist (dbh : dataBackupHelper) (keep : Int) (fs : FS)
    (h : IsNotExist (Stat dbh.folder fs).1 = true) :
    dbh.makeBackup keep fs = (.nil, (Stat dbh.folder fs).2) := by
  have hfold : Join dbh.baseDir dbh.folderName = dbh.folder := rfl
  unfold dataBackupHelper.makeBackup
  rw [hfold]
  simp only [h, if_true]

/-- C5, as stated, fails: on a state where the folder does not exist and every
call on a path under its parent directory fails with code 13 (the existence
tests among them), `makeBackup` does not return at once: it calls `MkdirAll`,
takes all five generations for existing, calls `RemoveAll` and `Rename`, and
returns an error. -/
theorem makeBackup_missing_counterexample :
    (FS.ofList [("/data".toList, 1)]
      [(0, 13), (2, 13), (3, 13), (4, 13), (5, 13), (6, 13), (7, 13), (8, 13)]).files
      (newDataBackupHelper "/data/store".toList).folder = none ∧
    ((newDataBackupHelper "/data/store".toList).makeBackup 5
      (FS.ofList [("/data".toList, 1)]
        [(0, 13), (2, 13), (3, 13), (4, 13), (5, 13), (6, 13), (7, 13), (8, 13)])).1 =
      .err (.other 13) ∧
    ((newDataBackupHelper "/data/store".toList).makeBackup 5
      (FS.ofList [("/data".toList, 1)]
        [(0, 13), (2, 13), (3, 13), (4, 13), (5, 13), (6, 13), (7, 13), (8, 13)])).2.trace =
      [⟨.Stat "/data/store".toList, some (.other 13)⟩,
       ⟨.MkdirAll "/data".toList, none⟩,
       ⟨.Stat "/data/store.old.0".toList, some (.other 13)⟩,
       ⟨.Stat "/data/store.old.1".toList, some (.other 13)⟩,
       ⟨.Stat "/data/store.old.2".toList, some (.other 13)⟩,
       ⟨.Stat "/data/store.old.3".toList, some (.other 13)⟩,
       ⟨.Stat "/data/store.old.4".toList, some (.other 13)⟩,
       ⟨.RemoveAll "/data/store.old.4".toList, some (.other 13)⟩,
       ⟨.Rename "/data/store.old.3".toList "/data/store.old.4".toList, some (.other 13)⟩] := by
  decide

/-- C5, amended: when the existence test reports that the folder does not exist
(it does not exist and the test does not fail for another reason), `makeBackup`
returns nil whatever the limit, the files are as before, and the only call made
is that test: no directory is created, nothing is renamed or removed. -/
theorem makeBackup_missing_folder (dbh : dataBackupHelper) (keep : Int) (fs : FS)
    (ht : fs.files dbh.folder = none) (hf : fs.fault = none) :
    (dbh.makeBackup keep fs).1 = .nil ∧
    (dbh.makeBackup keep fs).2.files = fs.files ∧
    (dbh.makeBackup keep fs).2.trace = fs.trace ++ [⟨.Stat dbh.folder, some .notExist⟩] := by
  have hst : Stat dbh.folder fs =
      (some .notExist, fs.record (.Stat dbh.folder) (some .notExist) fs.files) := by
    unfold Stat
    rw [hf]
    simp [ht]
  have hne : IsNotExist (Stat dbh.folder fs).1 = true := by rw [hst]; rfl
  rw [makeBackup_of_notExist dbh keep fs hne, hst]
  exact ⟨rfl, rfl, rfl⟩

/-- C5 amended, on `/data/store` missing under `/data`, with the default limit. -/
theorem makeBackup_missing_folder_witness :
    ((newDataBackupHelper "/data/store".toList).makeBackup RaftDataBackupKeep
      (FS.ofList [("/data".toList, 1)] [])).1 = .nil ∧
    ((newDataBackupHelper "/data/store".toList).makeBackup RaftDataBackupKeep
      (FS.ofList [("/data".toList, 1)] [])).2.files = (FS.ofList [("/data".toList, 1)] []).files ∧
    ((newDataBackupHelper "/data/store".toList).makeBackup RaftDataBackupKeep
      (FS.ofList [("/data".toList, 1)] [])).2.trace =
      [⟨.Stat "/data/store".toList, some .notExist⟩] :=
  makeBackup_missing_folder (newDataBackupHelper "/data/store".toList) RaftDataBackupKeep
    (FS.ofList [("/data".toList, 1)] []) (by decide) (by decide)

/-- C6, as stated, fails.  With limit 2 on a state where the generations 0, 1
and 2 exist (left by a larger limit), a successful `makeBackup` leaves three
generations.  With limit 5 on a state where the generations 0 and 3 exist, it
leaves the generations 0, 1 and 3, which are not a run without gaps. -/
theorem makeBackup_run_counterexample :
    (((newDataBackupHelper "/data/store".toList).makeBackup 2
        (FS.ofList [("/data/store".toList, 9), ("/data/store.old.0".toList, 8),
          ("/data/store.old.1".toList, 7), ("/data/store.old.2".toList, 6)] [])).1 = .nil ∧
      ¬ ∃ k, k ≤ 2 ∧ ∀ i, (((newDataBackupHelper "/data/store".toList).makeBackup 2
        (FS.ofList [("/data/store".toList, 9), ("/data/store.old.0".toList, 8),
          ("/data/store.old.1".toList, 7), ("/data/store.old.2".toList, 6)] [])).2.files
          ((newDataBackupHelper "/data/store".toList).makeName i) ≠ none ↔ i < k)) ∧
    (((newDataBackupHelper "/data/store".toList).makeBackup 5
        (FS.ofList [("/data/store".toList, 9), ("/data/store.old.0".toList, 8),
          ("/data/store.old.3".toList, 7)] [])).1 = .nil ∧
      ¬ ∃ k, k ≤ 5 ∧ ∀ i, (((newDataBackupHelper "/data/store".toList).makeBackup 5
        (FS.ofList [("/data/store".toList, 9), ("/data/store.old.0".toList, 8),
          ("/data/store.old.3".toList, 7)] [])).2.files
          ((newDataBackupHelper "/data/store".toList).makeName i) ≠ none ↔ i < k)) := by
  refine ⟨⟨by decide, ?_⟩, ⟨by decide, ?_⟩⟩
  · rintro ⟨k, hk, h⟩
    have := (h 2).mp (by decide)
    omega
  · rintro ⟨k, hk, h⟩
    have h3 := (h 3).mp (by decide)
    have h2 := (h 2).mpr (by omega)
    revert h2
    decide

/-- C6, amended: after a `makeBackup` with limit `N` that returns nil on an
existing folder, in a state whose generation directories are exactly those of
the indices below some `j ≤ N`, the generation directories are exactly those of
the indices below `min (j + 1) N`: a run without gaps of at most `N`. -/
theorem makeBackup_keeps_run (p : Str) (N j : Nat) (fs : FS)
    (ht : fs.files (newDataBackupHelper p).folder ≠ none)
    (hgen : ∀ i, fs.files ((newDataBackupHelper p).makeName i) ≠ none ↔ i < j)
    (hj : j ≤ N)
    (hnil : ((newDataBackupHelper p).makeBackup N fs).1 = .nil) :
    min (j + 1) N ≤ N ∧
    ∀ i, ((newDataBackupHelper p).makeBackup N fs).2.files
      ((newDataBackupHelper p).makeName i) ≠ none ↔ i < min (j + 1) N := by
  obtain ⟨_, b1, _⟩ := makeBackup_contiguous _ (newDataBackupHelper_separate p) N fs j ht hgen
    (by omega) hnil
  simp only [Int.toNat_ofNat] at b1
  exact ⟨Nat.min_le_right _ _, b1⟩

/-- C6 amended, at limit 2 on `/data/store` with the generations 0 and 1:
afterwards the generations 0 and 1 exist and generation 2 does not. -/
theorem makeBackup_keeps_run_witness :
    ((newDataBackupHelper "/data/store".toList).makeBackup 2
      (FS.ofList [("/data/store".toList, 9), ("/data/store.old.0".toList, 8),
        ("/data/store.old.1".toList, 7)] [])).2.files "/data/store.old.0".toList ≠ none ∧
    ((newDataBackupHelper "/data/store".toList).makeBackup 2
      (FS.ofList [("/data/store".toList, 9), ("/data/store.old.0".toList, 8),
        ("/data/store.old.1".toList, 7)] [])).2.files "/data/store.old.1".toList ≠ none ∧
    ¬ ((newDataBackupHelper "/data/store".toList).makeBackup 2
      (FS.ofList [("/data/store".toList, 9), ("/data/store.old.0".toList, 8),
        ("/data/store.old.1".toList, 7)] [])).2.files "/data/store.old.2".toList ≠ none := by
  have h := (makeBackup_keeps_run "/data/store".toList 2 2
    (FS.ofList [("/data/store".toList, 9), ("/data/store.old.0".toList, 8),
      ("/data/store.old.1".toList, 7)] [])
    (by decide)
    (fun i => by
      constructor
      · intro h
        by_contra hge
        have hinj := makeName_injective (newDataBackupHelper "/data/store".toList)
        exact h (ofList_files_none _ _ _ (by
          intro e he
          simp only [List.mem_cons, List.mem_singleton, List.not_mem_nil, or_false] at he
          rcases he with he | he | he
          · rw [he]; exact makeName_ne_folder _ i
          · rw [he]
            intro e0
            have := hinj (e0.trans (show _ = (newDataBackupHelper "/data/store".toList).makeName 0
              by decide))
            omega
          · rw [he]
            intro e0
            have := hinj (e0.trans (show _ = (newDataBackupHelper "/data/store".toList).makeName 1
              by decide))
            omega))
      · intro h
        interval_cases i <;> decide)
    (by decide) (by decide)).2
  exact ⟨(h 0).mpr (by decide), (h 1).mpr (by decide),
    fun hne => absurd ((h 2).mp hne) (by decide)⟩

/-- C9: on a state where the folder exists and the call of `MkdirAll` for the
parent directory fails with `e`, `makeBackup` returns `e`; the files are as
before, and the only calls made are the existence test and that `MkdirAll`: no
remove and no rename. -/
theorem makeBackup_mkdir_fails (dbh : dataBackupHelper) (keep : Int) (fs : FS) (e : OsError)
    (ht : fs.files dbh.folder ≠ none)
    (hmk : (MkdirAll dbh.baseDir (Stat dbh.folder fs).2).1 = some e) :
    (dbh.makeBackup keep fs).1 = .err e ∧
    (dbh.makeBackup keep fs).2.files = fs.files ∧
    (dbh.makeBackup keep fs).2.trace =
      fs.trace ++ [⟨.Stat dbh.folder, (Stat dbh.folder fs).1⟩, ⟨.MkdirAll dbh.baseDir, some e⟩] := by
  have hfold : Join dbh.baseDir dbh.folderName = dbh.folder := rfl
  have hst : IsNotExist (Stat dbh.folder fs).1 = false := Stat_exists ht
  have hfiles := MkdirAll_files_of_err _ _ _ hmk
  have htrace := MkdirAll_trace dbh.baseDir (Stat dbh.folder fs).2
  rw [hmk, Stat_trace] at htrace
  unfold dataBackupHelper.makeBackup
  rw [hfold]
  simp only [hst, Bool.false_eq_true, if_false, hmk]
  refine ⟨trivial, ?_, ?_⟩
  · rw [hfiles, Stat_files]
  · rw [htrace]
    simp

/-- C9, on `/data/store` with generation 0, the second call failing with code 13. -/
theorem makeBackup_mkdir_fails_witness :
    ((newDataBackupHelper "/data/store".toList).makeBackup 5
      (FS.ofList [("/data/store".toList, 9), ("/data/store.old.0".toList, 8)] [(1, 13)])).1 =
      .err (.other 13) ∧
    ((newDataBackupHelper "/data/store".toList).makeBackup 5
      (FS.ofList [("/data/store".toList, 9), ("/data/store.old.0".toList, 8)] [(1, 13)])).2.files =
      (FS.ofList [("/data/store".toList, 9), ("/data/store.old.0".toList, 8)] [(1, 13)]).files ∧
    ((newDataBackupHelper "/data/store".toList).makeBackup 5
      (FS.ofList [("/data/store".toList, 9), ("/data/store.old.0".toList, 8)] [(1, 13)])).2.trace =
      [⟨.Stat "/data/store".toList, none⟩, ⟨.MkdirAll "/data".toList, some (.other 13)⟩] :=
  makeBackup_mkdir_fails (newDataBackupHelper "/data/store".toList) 5
    (FS.ofList [("/data/store".toList, 9), ("/data/store.old.0".toList, 8)] [(1, 13)])
    (.other 13) (by decide) (by decide)

/-- C10 fails on the code: for the data folder `data/raft/`, the directory
`makeBackup` tests and renames is `data/raft/raft`, not `data/raft`, the
directory the path identifies; and the generations are named
`data/raft/raft.old.<i>`, inside the data folder. -/
theorem newDataBackupHelper_trailing_separator :
    (newDataBackupHelper "data/raft/".toList).baseDir = "data/raft".toList ∧
    (newDataBackupHelper "data/raft/".toList).folderName = "raft".toList ∧
    (newDataBackupHelper "data/raft/".toList).folder = "data/raft/raft".toList ∧
    Clean "data/raft/".toList = "data/raft".toList ∧
    (newDataBackupHelper "data/raft/".toList).folder ≠ Clean "data/raft/".toList ∧
    (newDataBackupHelper "data/raft/".toList).makeName 0 = "data/raft/raft.old.0".toList := by
  decide

/-! ## Failures of the primitives -/

/-- C7, as stated, fails.  With limit 1, when the remove of generation 0 fails
with code 13, `makeBackup` goes on to the final rename and returns the error of
that rename, code 39.  With limit 5, when the existence test of the folder fails
with code 5, `makeBackup` goes on, rotates, and returns nil. -/
theorem makeBackup_failure_counterexample :
    (((newDataBackupHelper "/data/store".toList).makeBackup 1
        (FS.ofList [("/data".toList, 1), ("/data/store".toList, 9),
          ("/data/store.old.0".toList, 8)] [(3, 13), (4, 39)])).1 = .err (.other 39) ∧
      ((newDataBackupHelper "/data/store".toList).makeBackup 1
        (FS.ofList [("/data".toList, 1), ("/data/store".toList, 9),
          ("/data/store.old.0".toList, 8)] [(3, 13), (4, 39)])).2.trace =
        [⟨.Stat "/data/store".toList, none⟩,
         ⟨.MkdirAll "/data".toList, none⟩,
         ⟨.Stat "/data/store.old.0".toList, none⟩,
         ⟨.RemoveAll "/data/store.old.0".toList, some (.other 13)⟩,
         ⟨.Rename "/data/store".toList "/data/store.old.0".toList, some (.other 39)⟩]) ∧
    (((newDataBackupHelper "/data/store".toList).makeBackup 5
        (FS.ofList [("/data".toList, 1), ("/data/store".toList, 9)] [(0, 5)])).1 = .nil ∧
      ((newDataBackupHelper "/data/store".toList).makeBackup 5
        (FS.ofList [("/data".toList, 1), ("/data/store".toList, 9)] [(0, 5)])).2.trace =
        [⟨.Stat "/data/store".toList, some (.other 5)⟩,
         ⟨.MkdirAll "/data".toList, none⟩,
         ⟨.Stat "/data/store.old.0".toList, some .notExist⟩,
         ⟨.Rename "/data/store".toList "/data/store.old.0".toList, none⟩]) := by
  decide

/-- C7, amended: on a state with an existing folder, whenever the creation of
the parent directory, a shift rename or the final rename fails, `makeBackup`
returns that same error and the failed call is its last call. -/
theorem makeBackup_returns_failure (dbh : dataBackupHelper) (keep : Int) (fs : FS)
    (pre post : List Event) (ev : Event)
    (ht : fs.files dbh.folder ≠ none)
    (hev : (dbh.makeBackup keep fs).2.trace = fs.trace ++ pre ++ ev :: post)
    (hf : ev.fatal = true) :
    post = [] ∧ ∃ e, ev.err = some e ∧ (dbh.makeBackup keep fs).1 = .err e := by
  obtain ⟨evs, htr, h⟩ := makeBackup_run dbh keep fs ht
  have heq : pre ++ ev :: post = evs := by
    rw [htr, List.append_assoc] at hev
    exact (List.append_cancel_left hev).symm
  rcases h with ⟨_, hq⟩ | ⟨_, hq⟩ | ⟨e, pre', h1, h2, h3, _⟩ | ⟨e, pre', j, h1, h2, h3, _⟩ |
    ⟨e, pre', h1, h2, h3, _⟩
  · rw [← heq] at hq
    exact (not_quiet_of_fatal hq hf).elim
  · rw [← heq] at hq
    exact (not_quiet_of_fatal hq hf).elim
  · obtain ⟨a, b, _⟩ := fatal_is_last (heq.trans h2) h3 hf
    exact ⟨a, e, by rw [b], h1⟩
  · obtain ⟨a, b, _⟩ := fatal_is_last (heq.trans h2) h3 hf
    exact ⟨a, e, by rw [b], h1⟩
  · obtain ⟨a, b, _⟩ := fatal_is_last (heq.trans h2) h3 hf
    exact ⟨a, e, by rw [b], h1⟩

/-- C7 amended, on `/data/store` with limit 5, the creation of the parent
directory failing with code 13. -/
theorem makeBackup_returns_failure_witness :
    ((newDataBackupHelper "/data/store".toList).makeBackup 5
      (FS.ofList [("/data/store".toList, 9)] [(1, 13)])).2.trace =
      [⟨.Stat "/data/store".toList, none⟩] ++
        (⟨.MkdirAll "/data".toList, some (.other 13)⟩ : Event) :: [] ∧
    ∃ e, (⟨.MkdirAll "/data".toList, some (.other 13)⟩ : Event).err = some e ∧
      ((newDataBackupHelper "/data/store".toList).makeBackup 5
        (FS.ofList [("/data/store".toList, 9)] [(1, 13)])).1 = .err e :=
  ⟨by decide,
    (makeBackup_returns_failure (newDataBackupHelper "/data/store".toList) 5
      (FS.ofList [("/data/store".toList, 9)] [(1, 13)])
      [⟨.Stat "/data/store".toList, none⟩] []
      ⟨.MkdirAll "/data".toList, some (.other 13)⟩ (by decide) (by decide) (by decide)).2⟩

/-- C8: on a state with an existing folder, when the rename of generation `j` to
generation `j + 1` in the shift step fails with `e`, `makeBackup` returns `e`
and that rename is its last call: no later shift rename and no final rename.
The folder still holds what it held, and so does every generation up to `j`;
in particular generation 0 when the failing rename is that of generation 0. -/
theorem makeBackup_shift_failure (p : Str) (keep : Int) (fs : FS)
    (pre post : List Event) (j : Nat) (e : OsError)
    (ht : fs.files (newDataBackupHelper p).folder ≠ none)
    (hev : ((newDataBackupHelper p).makeBackup keep fs).2.trace =
      fs.trace ++ pre ++
        ⟨.Rename ((newDataBackupHelper p).makeName j) ((newDataBackupHelper p).makeName (j + 1)),
          some e⟩ :: post) :
    ((newDataBackupHelper p).makeBackup keep fs).1 = .err e ∧ post = [] ∧
    ((newDataBackupHelper p).makeBackup keep fs).2.files (newDataBackupHelper p).folder =
      fs.files (newDataBackupHelper p).folder ∧
    (∀ j', j' ≤ j →
      ((newDataBackupHelper p).makeBackup keep fs).2.files
        ((newDataBackupHelper p).makeName j') = fs.files ((newDataBackupHelper p).makeName j')) := by
  have sep := newDataBackupHelper_separate p
  obtain ⟨evs, htr, h⟩ := makeBackup_run (newDataBackupHelper p) keep fs ht
  have hf : (⟨.Rename ((newDataBackupHelper p).makeName j)
      ((newDataBackupHelper p).makeName (j + 1)), some e⟩ : Event).fatal = true := rfl
  have heq : pre ++ ⟨.Rename ((newDataBackupHelper p).makeName j)
      ((newDataBackupHelper p).makeName (j + 1)), some e⟩ :: post = evs := by
    rw [htr, List.append_assoc] at hev
    exact (List.append_cancel_left hev).symm
  rcases h with ⟨_, hq⟩ | ⟨_, hq⟩ | ⟨e', pre', h1, h2, h3, _⟩ | ⟨e', pre', j0, h1, h2, h3, h4⟩ |
    ⟨e', pre', h1, h2, h3, _⟩
  · rw [← heq] at hq
    exact (not_quiet_of_fatal hq hf).elim
  · rw [← heq] at hq
    exact (not_quiet_of_fatal hq hf).elim
  · obtain ⟨_, b, _⟩ := fatal_is_last (heq.trans h2) h3 hf
    cases b
  · obtain ⟨a, b, _⟩ := fatal_is_last (heq.trans h2) h3 hf
    have hb := Event.mk.inj b
    have hc := Call.Rename.inj hb.1
    have hj : j = j0 := sep.inj hc.1
    have he : e = e' := Option.some.inj hb.2
    subst hj he
    refine ⟨h1, a, ?_, ?_⟩
    · exact h4 _ (Or.inl ht) (fun j' _ => (sep.folder j').symm)
    · intro j' hj'
      exact h4 _ (Or.inr (sep.parent j')) (fun j'' h5 h6 => by
        have := sep.inj h6
        omega)
  · obtain ⟨_, b, _⟩ := fatal_is_last (heq.trans h2) h3 hf
    have hb := Event.mk.inj b
    have hc := Call.Rename.inj hb.1
    exact absurd hc.1 (sep.folder j)

/-- C8, on `/data/store` with generations 0 and 1 and limit 3: the rename of
generation 1 succeeds, that of generation 0 fails with code 13; the folder and
generation 0 hold what they held. -/
theorem makeBackup_shift_failure_witness :
    ((newDataBackupHelper "/data/store".toList).makeBackup 3
      (FS.ofList [("/data/store".toList, 9), ("/data/store.old.0".toList, 8),
        ("/data/store.old.1".toList, 7)] [(6, 13)])).1 = .err (.other 13) ∧
    ((newDataBackupHelper "/data/store".toList).makeBackup 3
      (FS.ofList [("/data/store".toList, 9), ("/data/store.old.0".toList, 8),
        ("/data/store.old.1".toList, 7)] [(6, 13)])).2.files "/data/store".toList = some 9 ∧
    ((newDataBackupHelper "/data/store".toList).makeBackup 3
      (FS.ofList [("/data/store".toList, 9), ("/data/store.old.0".toList, 8),
        ("/data/store.old.1".toList, 7)] [(6, 13)])).2.files "/data/store.old.0".toList =
      some 8 := by
  have h := makeBackup_shift_failure "/data/store".toList 3
    (FS.ofList [("/data/store".toList, 9), ("/data/store.old.0".toList, 8),
      ("/data/store.old.1".toList, 7)] [(6, 13)])
    [⟨.Stat "/data/store".toList, none⟩,
     ⟨.MkdirAll "/data".toList, none⟩,
     ⟨.Stat "/data/store.old.0".toList, none⟩,
     ⟨.Stat "/data/store.old.1".toList, none⟩,
     ⟨.Stat "/data/store.old.2".toList, some .notExist⟩,
     ⟨.Rename "/data/store.old.1".toList "/data/store.old.2".toList, none⟩]
    [] 0 (.other 13) (by decide) (by decide)
  exact ⟨h.1, h.2.2.1, h.2.2.2 0 (Nat.le_refl 0)⟩

/-! ## The generation names as entries of the base directory -/

theorem dropWhile_append_stop {α : Type} (f : α → Bool) (xs : List α) (y : α) (ys : List α)
    (hxs : ∀ x ∈ xs, f x = true) (hy : f y = false) :
    (xs ++ y :: ys).dropWhile f = y :: ys := by
  induction xs with
  | nil => simp [List.dropWhile, hy]
  | cons x rest ih =>
    have hx := hxs x (List.mem_cons_self _ _)
    simp only [List.cons_append, List.dropWhile_cons, hx, if_true]
    exact ih (fun z hz => hxs z (List.mem_cons_of_mem _ hz))

theorem takeWhile_append_stop {α : Type} (f : α → Bool) (xs : List α) (y : α) (ys : List α)
    (hxs : ∀ x ∈ xs, f x = true) (hy : f y = false) :
    (xs ++ y :: ys).takeWhile f = xs := by
  induction xs with
  | nil => simp [List.takeWhile, hy]
  | cons x rest ih =>
    have hx := hxs x (List.mem_cons_self _ _)
    simp only [List.cons_append, List.takeWhile_cons, hx, if_true]
    rw [ih (fun z hz => hxs z (List.mem_cons_of_mem _ hz))]

theorem ne_sep_of_no_sep (x : Str) (h : Separator ∉ x) :
    ∀ c ∈ x.reverse, (c != Separator) = true := by
  intro c hc
  have hc' := List.mem_reverse.mp hc
  simp only [bne_iff_ne, ne_eq]
  intro e
  exact h (e ▸ hc')

theorem dirPart_append_sep (pre x : Str) (h : Separator ∉ x) :
    dirPart (pre ++ Separator :: x) = pre ++ [Separator] := by
  unfold dirPart
  have hrev : (pre ++ Separator :: x).reverse = x.reverse ++ Separator :: pre.reverse := by
    simp
  rw [hrev, dropWhile_append_stop _ _ _ _ (ne_sep_of_no_sep x h) (by simp)]
  simp

theorem dirPart_of_no_sep (x : Str) (h : Separator ∉ x) : dirPart x = [] := by
  unfold dirPart
  have : x.reverse.dropWhile (fun c => c != Separator) = [] := by
    rw [List.dropWhile_eq_nil_iff]
    exact ne_sep_of_no_sep x h
  rw [this]
  rfl

theorem takeWhile_of_all {α : Type} (f : α → Bool) (xs : List α)
    (hxs : ∀ x ∈ xs, f x = true) : xs.takeWhile f = xs := by
  induction xs with
  | nil => rfl
  | cons x rest ih =>
    have hx := hxs x (List.mem_cons_self _ _)
    simp only [List.takeWhile_cons, hx, if_true]
    rw [ih (fun z hz => hxs z (List.mem_cons_of_mem _ hz))]

theorem Base_of_tail (pre x : Str) (hne : x ≠ []) (h : Separator ∉ x)
    (s : Str) (hs : s = x ∨ s = pre ++ Separator :: x) : Base s = x := by
  have hlast : ∃ c cs, x.reverse = c :: cs ∧ c ≠ Separator := by
    cases hx : x.reverse with
    | nil => exact absurd (List.reverse_eq_nil_iff.mp hx) hne
    | cons c cs =>
      refine ⟨c, cs, rfl, ?_⟩
      have := ne_sep_of_no_sep x h c (by rw [hx]; simp)
      simpa using this
  obtain ⟨c, cs, hx, hc⟩ := hlast
  have hsne : s ≠ [] := by
    rcases hs with hs | hs
    · rw [hs]; exact hne
    · rw [hs]; simp
  have hrev : ∃ rest, s.reverse = c :: rest := by
    rcases hs with hs | hs
    · exact ⟨cs, by rw [hs, hx]⟩
    · exact ⟨cs ++ Separator :: pre.reverse, by rw [hs]; simp [hx]⟩
  obtain ⟨rest, hrest⟩ := hrev
  have hstrip : (s.reverse.dropWhile (fun c => c == Separator)).reverse = s := by
    rw [hrest]
    simp only [List.dropWhile_cons, beq_iff_eq, hc, if_false]
    rw [← hrest]
    simp
  have htake : (s.reverse.takeWhile (fun c => c != Separator)).reverse = x := by
    rcases hs with hs | hs
    · rw [hs, takeWhile_of_all _ _ (ne_sep_of_no_sep x h)]
      simp
    · have hr : s.reverse = x.reverse ++ Separator :: pre.reverse := by rw [hs]; simp
      rw [hr, takeWhile_append_stop _ _ _ _ (ne_sep_of_no_sep x h) (by simp)]
      simp
  unfold Base
  rw [if_neg hsne]
  simp only [hstrip, htake, if_neg hne]

/-- Cleaning the string of a reachable buffer followed by a separator gives the
string back. -/
theorem Clean_string_sep (r : Bool) (b : lazybuf) (h : b.reach r) :
    Clean (b.string r ++ [Separator]) = b.string r := by
  obtain ⟨h1, h2, h3⟩ := reach_resplit r b h
  have hne : b.string r ++ [Separator] ≠ [] := by simp
  have hsplit : splitElems (b.string r ++ [Separator]) = splitElems (b.string r) ++ [[]] := by
    have := splitElems_append_sep (b.string r) []
    simpa [splitElems] using this
  unfold Clean
  rw [if_neg hne, isRooted_append _ _ h1, h2, hsplit, List.foldl_append, h3]
  simp [cleanStep]

/-- The string of a buffer after one more element is written. -/
theorem string_push_cases (r : Bool) (e : Str) (out : List Str) (d d1 : Nat) :
    (out = [] ∧ r = false ∧ lazybuf.string r ⟨e :: out, d⟩ = e) ∨
    (out = [] ∧ r = true ∧ lazybuf.string r ⟨e :: out, d⟩ = Separator :: e) ∨
    (out ≠ [] ∧
      lazybuf.string r ⟨e :: out, d⟩ = lazybuf.string r ⟨out, d1⟩ ++ Separator :: e) := by
  cases out with
  | nil =>
    cases r with
    | false => left; exact ⟨rfl, rfl, by simp [lazybuf.string, joinElems]⟩
    | true => right; left; exact ⟨rfl, rfl, by simp [lazybuf.string, joinElems]⟩
  | cons x rest =>
    right; right
    refine ⟨by simp, ?_⟩
    cases r with
    | true =>
      simp only [lazybuf.string, if_true, List.reverse_cons (a := e)]
      rw [joinElems_concat _ _ (by simp)]
      rfl
    | false =>
      simp only [lazybuf.string, List.reverse_cons (a := e)]
      rw [joinElems_concat _ _ (by simp)]
      simp

/-- For a folder name without separator, the generation name of index `i` is the
entry named `<folderName>.old.<i>` of the base directory: that is its last
element, and its directory is the cleaned base directory. -/
theorem makeName_entry (dbh : dataBackupHelper) (hF : Separator ∉ dbh.folderName) (i : Nat) :
    Base (dbh.makeName i) = dbh.folderName ++ ".old.".toList ++ decimal i ∧
    Dir (dbh.makeName i) = Clean dbh.baseDir := by
  have hx : dbh.folderName ++ ".old.".toList ++ decimal i = dbh.folderName ++ oldSuffix i := by
    simp [oldSuffix]
  rw [hx]
  have hns : Separator ∉ dbh.folderName ++ oldSuffix i := by
    intro hm
    rcases List.mem_append.mp hm with hm | hm
    · exact hF hm
    · exact oldSuffix_no_sep i hm
  have hpl := plainElem_append_oldSuffix dbh.folderName i
  have hne : dbh.folderName ++ oldSuffix i ≠ [] := hpl.1
  by_cases hb : dbh.baseDir = []
  · have hname : dbh.makeName i = dbh.folderName ++ oldSuffix i := by
      rw [makeName_eq]
      simp only [dataBackupHelper.joined, hb, ne_eq, not_true_eq_false, if_false]
      unfold Clean
      rw [if_neg hne, splitElems_of_no_sep _ hns]
      simp only [List.foldl_cons, List.foldl_nil]
      rw [cleanStep_plain _ _ _ hpl]
      have hr : isRooted (dbh.folderName ++ oldSuffix i) = false := by
        have := joinElems_head_ne_sep [] _ hne hns
        simpa [joinElems] using this
      rw [hr]
      simp [lazybuf.string, joinElems]
    rw [hname, hb]
    refine ⟨Base_of_tail [] _ hne hns _ (Or.inl rfl), ?_⟩
    unfold Dir
    rw [dirPart_of_no_sep _ hns]
  · -- the buffer after the elements of the base directory
    have hreach : (lazybuf.reach (isRooted dbh.baseDir)
        ((splitElems dbh.baseDir).foldl (cleanStep (isRooted dbh.baseDir)) ⟨[], 0⟩)) :=
      foldl_cleanStep_reach _ _ (splitElems_no_sep dbh.baseDir) _ (reach_init _)
    have hclean : Clean dbh.baseDir =
        ((splitElems dbh.baseDir).foldl (cleanStep (isRooted dbh.baseDir)) ⟨[], 0⟩).string
          (isRooted dbh.baseDir) := by
      unfold Clean
      rw [if_neg hb]
    generalize hst : (splitElems dbh.baseDir).foldl (cleanStep (isRooted dbh.baseDir)) ⟨[], 0⟩
      = st at hreach hclean
    obtain ⟨out, dd⟩ := st
    have hname : dbh.makeName i =
        lazybuf.string (isRooted dbh.baseDir) ⟨(dbh.folderName ++ oldSuffix i) :: out, dd⟩ := by
      rw [makeName_eq]
      simp only [dataBackupHelper.joined, hb, ne_eq, not_false_eq_true, if_true]
      have hne2 : dbh.baseDir ++ Separator :: dbh.folderName ++ oldSuffix i ≠ [] := by
        cases hd : dbh.baseDir with
        | nil => exact absurd hd hb
        | cons c cs => simp
      have hsplit : splitElems (dbh.baseDir ++ Separator :: dbh.folderName ++ oldSuffix i) =
          splitElems dbh.baseDir ++ [dbh.folderName ++ oldSuffix i] := by
        have := splitElems_append_sep dbh.baseDir (dbh.folderName ++ oldSuffix i)
        rw [splitElems_of_no_sep _ hns] at this
        simpa using this
      have hroot : isRooted (dbh.baseDir ++ Separator :: dbh.folderName ++ oldSuffix i) =
          isRooted dbh.baseDir := by
        rw [List.append_assoc, isRooted_append _ _ hb]
      unfold Clean
      rw [if_neg hne2, hsplit, hroot, List.foldl_append, hst]
      simp only [List.foldl_cons, List.foldl_nil]
      rw [cleanStep_plain _ _ _ hpl]
    rw [hname, hclean]
    rcases string_push_cases (isRooted dbh.baseDir) (dbh.folderName ++ oldSuffix i) out dd dd with
      ⟨ho, hr, hs⟩ | ⟨ho, hr, hs⟩ | ⟨ho, hs⟩
    · rw [hs]
      refine ⟨Base_of_tail [] _ hne hns _ (Or.inl rfl), ?_⟩
      unfold Dir
      rw [dirPart_of_no_sep _ hns, ho, hr]
      rfl
    · rw [hs]
      refine ⟨Base_of_tail [] _ hne hns _ (Or.inr rfl), ?_⟩
      unfold Dir
      have := dirPart_append_sep [] _ hns
      simp only [List.nil_append] at this
      rw [this, ho, hr]
      rfl
    · rw [hs]
      refine ⟨Base_of_tail _ _ hne hns _ (Or.inr rfl), ?_⟩
      unfold Dir
      rw [dirPart_append_sep _ _ hns]
      exact Clean_string_sep _ _ hreach

/-- C16, as stated, fails: the helper of the data folder `/` has the base
directory `/` and the folder name `/`; its generation 0 is `/.old.0`, the entry
`.old.0` of `/`, and not an entry named `/.old.0`, which is the folder name
followed by `.old.0`. -/
theorem makeName_entry_counterexample :
    (newDataBackupHelper "/".toList).baseDir = "/".toList ∧
    (newDataBackupHelper "/".toList).folderName = "/".toList ∧
    (newDataBackupHelper "/".toList).makeName 0 = "/.old.0".toList ∧
    Dir ((newDataBackupHelper "/".toList).makeName 0) = "/".toList ∧
    Base ((newDataBackupHelper "/".toList).makeName 0) = ".old.0".toList ∧
    Base ((newDataBackupHelper "/".toList).makeName 0) ≠
      (newDataBackupHelper "/".toList).folderName ++ ".old.".toList ++ decimal 0 := by
  decide

/-- C16, amended: for every helper and all indices `i`, `j`: `makeName i` is the
join of the base directory with the name `<folderName>.old.<i>`, `i` in decimal,
and when the folder name holds no separator it is the entry of that name in the
base directory (its last element is that name and its directory is the cleaned
base directory); `makeName i = makeName j` only if `i = j`; and `makeName i` is
not the path of the rotated folder. -/
theorem makeName_distinct (dbh : dataBackupHelper) (i j : Nat) :
    dbh.makeName i = Join dbh.baseDir (dbh.folderName ++ ".old.".toList ++ decimal i) ∧
    (Separator ∉ dbh.folderName →
      Base (dbh.makeName i) = dbh.folderName ++ ".old.".toList ++ decimal i ∧
      Dir (dbh.makeName i) = Clean dbh.baseDir) ∧
    (dbh.makeName i = dbh.makeName j → i = j) ∧
    dbh.makeName i ≠ Join dbh.baseDir dbh.folderName :=
  ⟨rfl, fun hF => makeName_entry dbh hF i, fun h => makeName_injective dbh h,
    makeName_ne_folder dbh i⟩

/-- C16 amended, on the helper of `data/raft`: generation 12 is `data/raft.old.12`, the
entry `raft.old.12` of `data`. -/
theorem makeName_distinct_witness :
    (newDataBackupHelper "data/raft".toList).makeName 12 = "data/raft.old.12".toList ∧
    Base ((newDataBackupHelper "data/raft".toList).makeName 12) = "raft.old.12".toList ∧
    Dir ((newDataBackupHelper "data/raft".toList).makeName 12) = "data".toList ∧
    (newDataBackupHelper "data/raft".toList).makeName 12 ≠ "data/raft".toList :=
  ⟨(makeName_distinct (newDataBackupHelper "data/raft".toList) 12 12).1.trans (by decide),
    ((makeName_distinct (newDataBackupHelper "data/raft".toList) 12 12).2.1 (by decide)).1.trans
      (by decide),
    ((makeName_distinct (newDataBackupHelper "data/raft".toList) 12 12).2.1 (by decide)).2.trans
      (by decide),
    (makeName_distinct (newDataBackupHelper "data/raft".toList) 12 12).2.2.2⟩

/-! ## Index accesses, and the paths a rotation leaves alone -/

theorem shiftAndSave_of_panic (dbh : dataBackupHelper) (bs : List Str) (fs : FS)
    (h : (shiftLoop bs (bs.length - 1) fs).1 = .panic) :
    shiftAndSave dbh bs fs = (.panic, (shiftLoop bs (bs.length - 1) fs).2) := by
  unfold shiftAndSave
  simp only [h]

theorem MkdirAll_files_of_nil (path : Str) (fs : FS) (h : (MkdirAll path fs).1 = none) :
    (MkdirAll path fs).2.files = mkdirAllFiles path fs.files := by
  unfold MkdirAll at h ⊢
  cases hf : fs.fault with
  | some c => simp [hf] at h
  | none => rfl

theorem mkdirAllFiles_cases (path : Str) (files : Str → Option Content) (q : Str) :
    mkdirAllFiles path files q = files q ∨
    (isSelfOrParent q path = true ∧ files q = none ∧
      mkdirAllFiles path files q = some emptyDir) := by
  unfold mkdirAllFiles
  by_cases hp : isSelfOrParent q path = true
  · cases hv : files q with
    | none => right; simp [hp]
    | some c => left; simp
  · left; simp [hp]

/-- The shift and the final rename change no path but the folder and the names
of the indices below `L`, however they end. -/
theorem shiftAndSave_frame (dbh : dataBackupHelper) (bs : List Str)
    (L : Nat) (hL : 1 ≤ L) (hlen : bs.length = L)
    (hbs : ∀ j, j < L → index bs (j : Int) = some (dbh.makeName j)) (fs : FS)
    (q : Str) (hq : q ≠ dbh.folder) (hqj : ∀ j, j < L → q ≠ dbh.makeName j) :
    (shiftAndSave dbh bs fs).2.files q = fs.files q := by
  have hb : ∀ j, j ≤ bs.length - 1 → index bs (j : Int) = some (dbh.makeName j) :=
    fun j hj => hbs j (by omega)
  have hfr := shiftLoop_frame dbh.makeName bs (bs.length - 1) fs hb q
    (fun j hj => hqj j (by omega))
  cases hs : (shiftLoop bs (bs.length - 1) fs).1 with
  | err e => rw [shiftAndSave_of_err dbh bs fs e hs]; exact hfr
  | panic => rw [shiftAndSave_of_panic dbh bs fs hs]; exact hfr
  | nil =>
    cases hr : (Rename dbh.folder (dbh.makeName 0) (shiftLoop bs (bs.length - 1) fs).2).1 with
    | some e =>
      rw [shiftAndSave_of_nil_err dbh bs fs e hs hr]
      show (Rename dbh.folder (dbh.makeName 0) (shiftLoop bs (bs.length - 1) fs).2).2.files q = _
      rw [Rename_files_of_err _ _ _ e hr]
      exact hfr
    | none =>
      rw [shiftAndSave_of_nil_nil dbh bs fs hs hr]
      show (Rename dbh.folder (dbh.makeName 0) (shiftLoop bs (bs.length - 1) fs).2).2.files q = _
      rw [(Rename_nil hr).2, Function.update_noteq (hqj 0 (by omega)),
        Function.update_noteq hq]
      exact hfr

/-- The length of the enumerated list is at most the limit. -/
theorem enumerated_length (dbh : dataBackupHelper) (keep : Int) (fs : FS) :
    (dbh.enumerated keep fs).length ≤ keep.toNat := by
  obtain ⟨_, _, m, l3, l4, _⟩ :=
    listBackups_spec dbh keep (MkdirAll dbh.baseDir (Stat dbh.folder fs).2).2
  unfold dataBackupHelper.enumerated
  rw [l3]
  simpa using l4

theorem enumerated_index (dbh : dataBackupHelper) (keep : Int) (fs : FS) (j : Nat)
    (hj : j < (dbh.enumerated keep fs).length) :
    index (dbh.enumerated keep fs) (j : Int) = some (dbh.makeName j) := by
  obtain ⟨_, _, m, l3, _, _⟩ :=
    listBackups_spec dbh keep (MkdirAll dbh.baseDir (Stat dbh.folder fs).2).2
  unfold dataBackupHelper.enumerated at hj ⊢
  rw [l3] at hj ⊢
  exact index_range_map _ _ _ (by simpa using hj)

/-- Whatever the outcome, `makeBackup` on an existing folder leaves every path
but the folder and the generations of the indices up to `min k (keep - 1)`, `k`
the length of the enumerated list, as `MkdirAll` left it. -/
theorem makeBackup_frame (dbh : dataBackupHelper) (keep : Int) (fs : FS)
    (ht : fs.files dbh.folder ≠ none) (q : Str) (hq : q ≠ dbh.folder)
    (hqj : ∀ j, j ≤ min (dbh.enumerated keep fs).length (keep.toNat - 1) →
      q ≠ dbh.makeName j) :
    (dbh.makeBackup keep fs).2.files q =
      (MkdirAll dbh.baseDir (Stat dbh.folder fs).2).2.files q := by
  have hst : IsNotExist (Stat dbh.folder fs).1 = false := Stat_exists ht
  have hlen := enumerated_length dbh keep fs
  have hidx := enumerated_index dbh keep fs
  have hl1 := (listBackups_spec dbh keep (MkdirAll dbh.baseDir (Stat dbh.folder fs).2).2).1
  unfold dataBackupHelper.enumerated at hqj hlen hidx
  cases hmk : (MkdirAll dbh.baseDir (Stat dbh.folder fs).2).1 with
  | some e => rw [makeBackup_of_mkdir_err dbh keep fs e hst hmk]
  | none =>
    by_cases hk : keep ≤ ((dbh.listBackups keep
        (MkdirAll dbh.baseDir (Stat dbh.folder fs).2).2).1.length : Int)
    · cases hi : index (dbh.listBackups keep (MkdirAll dbh.baseDir (Stat dbh.folder fs).2).2).1
          (((dbh.listBackups keep (MkdirAll dbh.baseDir (Stat dbh.folder fs).2).2).1.length
            : Int) - 1) with
      | none =>
        rw [makeBackup_of_panic dbh keep fs hst hmk hk hi]
        show (dbh.listBackups keep (MkdirAll dbh.baseDir (Stat dbh.folder fs).2).2).2.files q = _
        rw [hl1]
      | some last =>
        rw [makeBackup_of_remove dbh keep fs last hst hmk hk hi]
        have hpos : 0 < (dbh.listBackups keep
            (MkdirAll dbh.baseDir (Stat dbh.folder fs).2).2).1.length := by
          by_contra h0
          have h0' : (dbh.listBackups keep
            (MkdirAll dbh.baseDir (Stat dbh.folder fs).2).2).1.length = 0 := by omega
          rw [h0'] at hi
          simp [index] at hi
        have hlast : last = dbh.makeName ((dbh.listBackups keep
            (MkdirAll dbh.baseDir (Stat dbh.folder fs).2).2).1.length - 1) := by
          have e : (((dbh.listBackups keep
              (MkdirAll dbh.baseDir (Stat dbh.folder fs).2).2).1.length : Int) - 1) =
              (((dbh.listBackups keep
                (MkdirAll dbh.baseDir (Stat dbh.folder fs).2).2).1.length - 1 : Nat) : Int) := by
            omega
          rw [e, hidx _ (by omega)] at hi
          exact (Option.some.inj hi).symm
        rw [shiftAndSave_frame dbh _ _ hpos rfl (fun j hj => hidx j hj) _ q hq
          (fun j hj => hqj j (by omega)),
          RemoveAll_files_of_ne _ _ _ (by rw [hlast]; exact hqj _ (by omega)), hl1]
    · rw [makeBackup_of_append dbh keep fs hst hmk hk]
      have hidx2 : ∀ j, j < (dbh.listBackups keep
          (MkdirAll dbh.baseDir (Stat dbh.folder fs).2).2).1.length + 1 →
          index ((dbh.listBackups keep (MkdirAll dbh.baseDir (Stat dbh.folder fs).2).2).1 ++
            [dbh.makeName (dbh.listBackups keep
              (MkdirAll dbh.baseDir (Stat dbh.folder fs).2).2).1.length]) (j : Int)
            = some (dbh.makeName j) := by
        intro j hj
        rcases Nat.lt_succ_iff_lt_or_eq.mp hj with hlt | heq
        · have := hidx j hlt
          rw [index_natCast] at this ⊢
          rw [List.getElem?_append_left hlt]
          exact this
        · rw [index_natCast, heq, List.getElem?_append_right (Nat.le_refl _)]
          simp
      rw [shiftAndSave_frame dbh _ _ (Nat.succ_pos _) (by simp) hidx2 _ q hq
        (fun j hj => hqj j (by omega)), hl1]

/-- With a limit of at least 1, `makeBackup` makes no index access out of range. -/
theorem makeBackup_no_panic (dbh : dataBackupHelper) (keep : Int) (fs : FS) (hN : 1 ≤ keep) :
    (dbh.makeBackup keep fs).1 ≠ .panic := by
  by_cases hne : IsNotExist (Stat dbh.folder fs).1 = true
  · rw [makeBackup_of_notExist dbh keep fs hne]
    simp
  have hst : IsNotExist (Stat dbh.folder fs).1 = false := by simpa using hne
  have hlen := enumerated_length dbh keep fs
  have hidx := enumerated_index dbh keep fs
  unfold dataBackupHelper.enumerated at hlen hidx
  have hsas : ∀ (bs : List Str) (L : Nat) (fs' : FS), 1 ≤ L → bs.length = L →
      (∀ j, j < L → index bs (j : Int) = some (dbh.makeName j)) →
      (shiftAndSave dbh bs fs').1 ≠ .panic := by
    intro bs L fs' h1 h2 h3 hp
    obtain ⟨_, _, h⟩ := shiftAndSave_run dbh bs L h1 h2 h3 fs'
    rcases h with ⟨h, _⟩ | ⟨e, _, _, _, h, _⟩ | ⟨e, _, h, _⟩ <;> rw [hp] at h <;> cases h
  cases hmk : (MkdirAll dbh.baseDir (Stat dbh.folder fs).2).1 with
  | some e =>
    rw [makeBackup_of_mkdir_err dbh keep fs e hst hmk]
    simp
  | none =>
    by_cases hk : keep ≤ ((dbh.listBackups keep
        (MkdirAll dbh.baseDir (Stat dbh.folder fs).2).2).1.length : Int)
    · have hpos : 0 < (dbh.listBackups keep
          (MkdirAll dbh.baseDir (Stat dbh.folder fs).2).2).1.length := by omega
      have hi : index (dbh.listBackups keep (MkdirAll dbh.baseDir (Stat dbh.folder fs).2).2).1
          (((dbh.listBackups keep (MkdirAll dbh.baseDir (Stat dbh.folder fs).2).2).1.length
            : Int) - 1) = some (dbh.makeName ((dbh.listBackups keep
              (MkdirAll dbh.baseDir (Stat dbh.folder fs).2).2).1.length - 1)) := by
        have e : (((dbh.listBackups keep
            (MkdirAll dbh.baseDir (Stat dbh.folder fs).2).2).1.length : Int) - 1) =
            (((dbh.listBackups keep
              (MkdirAll dbh.baseDir (Stat dbh.folder fs).2).2).1.length - 1 : Nat) : Int) := by
          omega
        rw [e]
        exact hidx _ (by omega)
      rw [makeBackup_of_remove dbh keep fs _ hst hmk hk hi]
      exact hsas _ _ _ hpos rfl (fun j hj => hidx j hj)
    · rw [makeBackup_of_append dbh keep fs hst hmk hk]
      refine hsas _ ((dbh.listBackups keep
        (MkdirAll dbh.baseDir (Stat dbh.folder fs).2).2).1.length + 1) _ (Nat.succ_pos _)
        (by simp) ?_
      intro j hj
      rcases Nat.lt_succ_iff_lt_or_eq.mp hj with hlt | heq
      · have := hidx j hlt
        rw [index_natCast] at this ⊢
        rw [List.getElem?_append_left hlt]
        exact this
      · rw [index_natCast, heq, List.getElem?_append_right (Nat.le_refl _)]
        simp

/-- C14, as stated, fails: with limit 0 on a state where the folder exists and the
creation of the parent directory fails, `makeBackup` returns that error before
any list access, so it is free of out-of-range accesses although the limit is
below 1. -/
theorem makeBackup_index_counterexample :
    (FS.ofList [("/data/store".toList, 9)] [(1, 13)]).files
      (newDataBackupHelper "/data/store".toList).folder ≠ none ∧
    ((newDataBackupHelper "/data/store".toList).makeBackup 0
      (FS.ofList [("/data/store".toList, 9)] [(1, 13)])).1 = .err (.other 13) ∧
    ¬ (((newDataBackupHelper "/data/store".toList).makeBackup 0
      (FS.ofList [("/data/store".toList, 9)] [(1, 13)])).1 ≠ .panic ↔ (1 : Int) ≤ 0) := by
  refine ⟨by decide, by decide, ?_⟩
  intro h
  have := h.mp (by decide)
  omega

/-- C14, amended: on a state where the folder exists and the creation of the
parent directory succeeds, `makeBackup` is free of out-of-range list accesses
if and only if the limit is at least 1; with a limit of 0 or less the
enumerated list is empty, the test `len(backups) >= RaftDataBackupKeep` holds
and `backups[len(backups)-1]` is out of range. -/
theorem makeBackup_index_range (dbh : dataBackupHelper) (keep : Int) (fs : FS)
    (ht : fs.files dbh.folder ≠ none)
    (hmk : (MkdirAll dbh.baseDir (Stat dbh.folder fs).2).1 = none) :
    ((dbh.makeBackup keep fs).1 ≠ .panic ↔ 1 ≤ keep) ∧
    (keep ≤ 0 → dbh.enumerated keep fs = [] ∧
      keep ≤ ((dbh.enumerated keep fs).length : Int) ∧
      index (dbh.enumerated keep fs) (((dbh.enumerated keep fs).length : Int) - 1) = none) := by
  have hst : IsNotExist (Stat dbh.folder fs).1 = false := Stat_exists ht
  have hlen := enumerated_length dbh keep fs
  have hempty : keep ≤ 0 → dbh.enumerated keep fs = [] ∧
      keep ≤ ((dbh.enumerated keep fs).length : Int) ∧
      index (dbh.enumerated keep fs) (((dbh.enumerated keep fs).length : Int) - 1) = none := by
    intro hk
    have h0 : (dbh.enumerated keep fs).length = 0 := by omega
    have hnil : dbh.enumerated keep fs = [] := List.length_eq_zero.mp h0
    rw [hnil]
    exact ⟨rfl, by simpa using hk, by simp [index]⟩
  refine ⟨⟨?_, makeBackup_no_panic dbh keep fs⟩, hempty⟩
  intro hnp
  by_contra hk
  obtain ⟨_, h2, h3⟩ := hempty (by omega)
  exact hnp (by rw [makeBackup_of_panic dbh keep fs hst hmk h2 h3])

/-- C14 amended, on `/data/store`: no panic with the default limit, a panic with
limit 0. -/
theorem makeBackup_index_range_witness :
    ((newDataBackupHelper "/data/store".toList).makeBackup RaftDataBackupKeep
      (FS.ofList [("/data/store".toList, 9)] [])).1 ≠ .panic ∧
    ((newDataBackupHelper "/data/store".toList).makeBackup 0
      (FS.ofList [("/data/store".toList, 9)] [])).1 = .panic :=
  ⟨(makeBackup_index_range (newDataBackupHelper "/data/store".toList) RaftDataBackupKeep
      (FS.ofList [("/data/store".toList, 9)] []) (by decide) (by decide)).1.mpr (by decide),
    by
      have h := (makeBackup_index_range (newDataBackupHelper "/data/store".toList) 0
        (FS.ofList [("/data/store".toList, 9)] []) (by decide) (by decide)).1
      by_contra hne
      have := h.mp hne
      omega⟩

/-- C13, as stated, fails: for the data folder `a/..` the folder is `.` and the
base directory is `a`; on a state where `.` exists and `a` does not,
`makeBackup` creates `a`, which is neither the folder nor a generation path, and
then fails at the final rename. -/
theorem makeBackup_frame_counterexample :
    (newDataBackupHelper "a/..".toList).folder = ".".toList ∧
    (newDataBackupHelper "a/..".toList).baseDir = "a".toList ∧
    (newDataBackupHelper "a/..".toList).makeName 0 = "a/...old.0".toList ∧
    (newDataBackupHelper "a/..".toList).enumerated 5
      (FS.ofList [(".".toList, 5)] [(3, 22)]) = [] ∧
    ((newDataBackupHelper "a/..".toList).makeBackup 5
      (FS.ofList [(".".toList, 5)] [(3, 22)])).1 = .err (.other 22) ∧
    (FS.ofList [(".".toList, 5)] [(3, 22)]).files "a".toList = none ∧
    ((newDataBackupHelper "a/..".toList).makeBackup 5
      (FS.ofList [(".".toList, 5)] [(3, 22)])).2.files "a".toList = some emptyDir := by
  decide

/-- C13, amended: with `k` the length of the list `listBackups` returns,
`makeBackup` on an existing folder, whether it succeeds or fails, changes no
path other than the folder, the generation paths of the indices
`0..min k (keep - 1)`, and the base directory with its parents, which stay as
they are when they exist and become empty directories when they are missing;
in particular every generation of an index above `min k (keep - 1)` keeps its
existence and content. -/
theorem makeBackup_changes_only (p : Str) (keep : Int) (fs : FS)
    (ht : fs.files (newDataBackupHelper p).folder ≠ none) :
    (∀ q, q ≠ (newDataBackupHelper p).folder →
      (∀ j, j ≤ min ((newDataBackupHelper p).enumerated keep fs).length (keep.toNat - 1) →
        q ≠ (newDataBackupHelper p).makeName j) →
      ((newDataBackupHelper p).makeBackup keep fs).2.files q = fs.files q ∨
      (isSelfOrParent q (newDataBackupHelper p).baseDir = true ∧ fs.files q = none ∧
        ((newDataBackupHelper p).makeBackup keep fs).2.files q = some emptyDir)) ∧
    (∀ j, min ((newDataBackupHelper p).enumerated keep fs).length (keep.toNat - 1) < j →
      ((newDataBackupHelper p).makeBackup keep fs).2.files ((newDataBackupHelper p).makeName j) =
        fs.files ((newDataBackupHelper p).makeName j)) := by
  have sep := newDataBackupHelper_separate p
  have hfr := makeBackup_frame (newDataBackupHelper p) keep fs ht
  have hmkc : ∀ q, (MkdirAll (newDataBackupHelper p).baseDir
      (Stat (newDataBackupHelper p).folder fs).2).2.files q = fs.files q ∨
      (isSelfOrParent q (newDataBackupHelper p).baseDir = true ∧ fs.files q = none ∧
        (MkdirAll (newDataBackupHelper p).baseDir
          (Stat (newDataBackupHelper p).folder fs).2).2.files q = some emptyDir) := by
    intro q
    cases hmk : (MkdirAll (newDataBackupHelper p).baseDir
        (Stat (newDataBackupHelper p).folder fs).2).1 with
    | some e =>
      left
      rw [MkdirAll_files_of_err _ _ e hmk, Stat_files]
    | none =>
      rw [MkdirAll_files_of_nil _ _ hmk, Stat_files]
      exact mkdirAllFiles_cases _ _ q
  refine ⟨?_, ?_⟩
  · intro q hq hqj
    rw [hfr q hq hqj]
    exact hmkc q
  · intro j hj
    rw [hfr _ (sep.folder j) (fun j' hj' h => by have := sep.inj h; omega)]
    rcases hmkc ((newDataBackupHelper p).makeName j) with h | ⟨h, _, _⟩
    · exact h
    · rw [sep.parent j] at h
      cases h

/-- C13 amended, on `/data/store` with generations 0 and 2 and limit 5: the
enumerated list has length 1, and generation 2, above the gap, is as before. -/
theorem makeBackup_changes_only_witness :
    ((newDataBackupHelper "/data/store".toList).enumerated 5
      (FS.ofList [("/data/store".toList, 9), ("/data/store.old.0".toList, 8),
        ("/data/store.old.2".toList, 6)] [])).length = 1 ∧
    ((newDataBackupHelper "/data/store".toList).makeBackup 5
      (FS.ofList [("/data/store".toList, 9), ("/data/store.old.0".toList, 8),
        ("/data/store.old.2".toList, 6)] [])).2.files
      ((newDataBackupHelper "/data/store".toList).makeName 2) = some 6 :=
  ⟨by decide,
    ((makeBackup_changes_only "/data/store".toList 5
      (FS.ofList [("/data/store".toList, 9), ("/data/store.old.0".toList, 8),
        ("/data/store.old.2".toList, 6)] []) (by decide)).2 2
      (by decide)).trans (by decide)⟩

/-! ## What the enumeration returns when the existence tests do not fail -/

theorem Stat_nil {name : Str} {fs : FS} (h : (Stat name fs).1 = none) :
    fs.files name ≠ none := by
  unfold Stat at h
  cases hf : fs.fault with
  | some c => simp [hf] at h
  | none =>
    cases hv : fs.files name with
    | none => simp [hf, hv] at h
    | some c => simp

theorem Stat_faulted (name : Str) (fs : FS)
    (h : (⟨.Stat name, (Stat name fs).1⟩ : Event).faulted = false)
    (hne : IsNotExist (Stat name fs).1 = false) : fs.files name ≠ none := by
  cases hs : (Stat name fs).1 with
  | none => exact Stat_nil hs
  | some e =>
    cases e with
    | notExist => rw [hs] at hne; cases hne
    | other c => rw [hs] at h; cases h

/-- The enumeration loop, with its calls: when none of its existence tests fails
with an error other than not-exist, every name it appends exists. -/
theorem listBackupsLoop_truth (dbh : dataBackupHelper) (keep : Int) :
    ∀ (fuel i : Nat) (backups : List Str) (fs : FS),
      ∃ (evs : List Event) (m : Nat),
        (listBackupsLoop dbh keep fuel i backups fs).2.trace = fs.trace ++ evs ∧
        (listBackupsLoop dbh keep fuel i backups fs).1 =
          backups ++ (List.range' i m).map dbh.makeName ∧
        ((∀ ev ∈ evs, ev.faulted = false) →
          ∀ j, j < m → fs.files (dbh.makeName (i + j)) ≠ none) := by
  intro fuel
  induction fuel with
  | zero =>
    intro i backups fs
    exact ⟨[], 0, by simp [listBackupsLoop], by simp [listBackupsLoop],
      fun _ j hj => absurd hj (Nat.not_lt_zero j)⟩
  | succ fuel ih =>
    intro i backups fs
    unfold listBackupsLoop
    by_cases hlt : (i : Int) < keep
    · rw [if_pos hlt]
      by_cases hne : IsNotExist (Stat (dbh.makeName i) fs).1 = true
      · rw [if_pos hne]
        exact ⟨_, 0, Stat_trace _ _, by simp, fun _ j hj => absurd hj (Nat.not_lt_zero j)⟩
      · rw [if_neg hne]
        obtain ⟨evs, m, h1, h2, h3⟩ :=
          ih (i + 1) (backups ++ [dbh.makeName i]) (Stat (dbh.makeName i) fs).2
        refine ⟨⟨.Stat (dbh.makeName i), (Stat (dbh.makeName i) fs).1⟩ :: evs, m + 1, ?_, ?_, ?_⟩
        · rw [h1, Stat_trace]
          simp
        · simpa [List.range'_succ] using h2
        · intro hun j hj
          cases j with
          | zero =>
            exact Stat_faulted _ _ (hun _ (List.mem_cons_self _ _)) (by simpa using hne)
          | succ j' =>
            have := h3 (fun ev hev => hun ev (List.mem_cons_of_mem _ hev)) j' (by omega)
            rw [Stat_files] at this
            have e : i + 1 + j' = i + (j' + 1) := by omega
            rw [← e]
            exact this
    · rw [if_neg hlt]
      exact ⟨[], 0, by simp, by simp, fun _ j hj => absurd hj (Nat.not_lt_zero j)⟩

/-- What `listBackups` returns, with its calls `evs`: the names of the indices
below some `m` at most the limit, index `m` missing when `m` is below the limit,
and every index below `m` existing when no test failed with another error. -/
theorem listBackups_truth (dbh : dataBackupHelper) (keep : Int) (fs : FS) (evs : List Event)
    (htr : (dbh.listBackups keep fs).2.trace = fs.trace ++ evs) :
    ∃ m : Nat, (dbh.listBackups keep fs).1 = (List.range m).map dbh.makeName ∧
      m ≤ keep.toNat ∧
      ((m : Int) < keep → fs.files (dbh.makeName m) = none) ∧
      ((∀ ev ∈ evs, ev.faulted = false) → ∀ j, j < m → fs.files (dbh.makeName j) ≠ none) := by
  obtain ⟨_, _, m, l3, l4, l5⟩ := listBackups_spec dbh keep fs
  obtain ⟨evs', m', h1, h2, h3⟩ := listBackupsLoop_truth dbh keep keep.toNat 0 [] fs
  have hevs : evs' = evs := by
    have h1' : (dbh.listBackups keep fs).2.trace = fs.trace ++ evs' := h1
    rw [htr] at h1'
    exact (List.append_cancel_left h1').symm
  have hm : m' = m := by
    have h2' : (dbh.listBackups keep fs).1 = [] ++ (List.range' 0 m').map dbh.makeName := h2
    rw [l3] at h2'
    have := congrArg List.length h2'
    simpa using this.symm
  subst hevs hm
  refine ⟨m', l3, l4, l5, ?_⟩
  intro hun j hj
  simpa using h3 hun j hj

/-- C11, as stated, fails: with limit 1 on a state without generations where the
existence test of generation 0 fails with code 13, `listBackups` returns the
name of generation 0, which does not exist. -/
theorem listBackups_counterexample :
    (FS.ofList [] [(0, 13)]).files ((newDataBackupHelper "/data/store".toList).makeName 0) = none ∧
    ((newDataBackupHelper "/data/store".toList).listBackups 1 (FS.ofList [] [(0, 13)])).1 =
      ["/data/store.old.0".toList] ∧
    ((newDataBackupHelper "/data/store".toList).listBackups 1 (FS.ofList [] [(0, 13)])).2.trace =
      [⟨.Stat "/data/store.old.0".toList, some (.other 13)⟩] := by
  decide

/-- C11, amended: when no existence test of the call fails with an error other
than not-exist, `listBackups` with limit `N` returns exactly the names of the
indices `0..k-1`, in increasing order, where `k` is at most `N`, every index
below `k` exists, and index `k` does not exist when `k < N`: `k` is the minimum
of `N` and the first missing index.  So the length is at most `N`, every
returned path exists, and nothing beyond the first gap is returned. -/
theorem listBackups_prefix (dbh : dataBackupHelper) (N : Nat) (fs : FS) (evs : List Event)
    (htr : (dbh.listBackups N fs).2.trace = fs.trace ++ evs)
    (hun : ∀ ev ∈ evs, ev.faulted = false) :
    ∃ k : Nat, (dbh.listBackups N fs).1 = (List.range k).map dbh.makeName ∧
      k ≤ N ∧
      (∀ i, i < k → fs.files (dbh.makeName i) ≠ none) ∧
      (k < N → fs.files (dbh.makeName k) = none) ∧
      (∀ i, fs.files (dbh.makeName i) = none → k ≤ i) ∧
      ((dbh.listBackups N fs).1.length ≤ N) ∧
      (∀ x ∈ (dbh.listBackups N fs).1, fs.files x ≠ none) := by
  obtain ⟨m, h1, h2, h3, h4⟩ := listBackups_truth dbh N fs evs htr
  have h5 := h4 hun
  refine ⟨m, h1, by simpa using h2, h5, fun h => h3 (by exact_mod_cast h), ?_, ?_, ?_⟩
  · intro i hi
    by_contra hlt
    exact h5 i (by omega) hi
  · rw [h1]
    simpa using h2
  · intro x hx
    rw [h1] at hx
    obtain ⟨i, hi, rfl⟩ := List.mem_map.mp hx
    exact h5 i (by simpa using hi)

/-- C11 amended, at limit 5 on `/data/store` with the generations 0, 1 and 3:
the list is the names of the generations 0 and 1. -/
theorem listBackups_prefix_witness :
    ((newDataBackupHelper "/data/store".toList).listBackups 5
      (FS.ofList [("/data/store.old.0".toList, 8), ("/data/store.old.1".toList, 7),
        ("/data/store.old.3".toList, 6)] [])).1 =
      ["/data/store.old.0".toList, "/data/store.old.1".toList] ∧
    ∃ k : Nat, ((newDataBackupHelper "/data/store".toList).listBackups 5
      (FS.ofList [("/data/store.old.0".toList, 8), ("/data/store.old.1".toList, 7),
        ("/data/store.old.3".toList, 6)] [])).1 =
        (List.range k).map (newDataBackupHelper "/data/store".toList).makeName ∧ k ≤ 5 := by
  obtain ⟨k, h1, h2, _⟩ := listBackups_prefix (newDataBackupHelper "/data/store".toList) 5
    (FS.ofList [("/data/store.old.0".toList, 8), ("/data/store.old.1".toList, 7),
      ("/data/store.old.3".toList, 6)] [])
    [⟨.Stat "/data/store.old.0".toList, none⟩, ⟨.Stat "/data/store.old.1".toList, none⟩,
      ⟨.Stat "/data/store.old.2".toList, some .notExist⟩]
    (by decide) (by decide)
  exact ⟨by decide, k, h1, h2⟩

/-! ## Replaying the calls -/

theorem replay_nil (files : Str → Option Content) : replay files [] = files := rfl

theorem replay_cons (files : Str → Option Content) (ev : Event) (evs : List Event) :
    replay files (ev :: evs) = replay (ev.apply files) evs := rfl

theorem replay_append (files : Str → Option Content) (a b : List Event) :
    replay files (a ++ b) = replay (replay files a) b := by
  unfold replay
  rw [List.foldl_append]

theorem Stat_apply (name : Str) (fs : FS) :
    (Stat name fs).2.files = (⟨.Stat name, (Stat name fs).1⟩ : Event).apply fs.files := by
  rw [Stat_files]
  rfl

theorem MkdirAll_apply (path : Str) (fs : FS) :
    (MkdirAll path fs).2.files =
      (⟨.MkdirAll path, (MkdirAll path fs).1⟩ : Event).apply fs.files := by
  cases h : (MkdirAll path fs).1 with
  | none => rw [MkdirAll_files_of_nil _ _ h]; rfl
  | some e => rw [MkdirAll_files_of_err _ _ e h]; rfl

theorem RemoveAll_apply (path : Str) (fs : FS) :
    (RemoveAll path fs).2.files =
      (⟨.RemoveAll path, (RemoveAll path fs).1⟩ : Event).apply fs.files := by
  unfold RemoveAll
  cases hf : fs.fault <;> rfl

theorem Rename_apply (o n : Str) (fs : FS) :
    (Rename o n fs).2.files = (⟨.Rename o n, (Rename o n fs).1⟩ : Event).apply fs.files := by
  cases h : (Rename o n fs).1 with
  | none => rw [(Rename_nil h).2]; rfl
  | some e => rw [Rename_files_of_err _ _ _ e h]; rfl

theorem replay_quiet_stats (files : Str → Option Content) (evs : List Event)
    (h : ∀ ev ∈ evs, ev.isStat = true) : replay files evs = files := by
  induction evs generalizing files with
  | nil => rfl
  | cons ev rest ih =>
    rw [replay_cons]
    have h1 := h ev (List.mem_cons_self _ _)
    have h2 : ev.apply files = files := by
      obtain ⟨call, err⟩ := ev
      cases call <;> first | rfl | cases h1
    rw [h2]
    exact ih files (fun x hx => h x (List.mem_cons_of_mem _ hx))

theorem renames_append (a b : List Event) : renames (a ++ b) = renames a ++ renames b := by
  unfold renames
  rw [List.filterMap_append]

theorem renames_of_stats (evs : List Event) (h : ∀ ev ∈ evs, ev.isStat = true) :
    renames evs = [] := by
  induction evs with
  | nil => rfl
  | cons ev rest ih =>
    have h1 := h ev (List.mem_cons_self _ _)
    have h2 := ih (fun x hx => h x (List.mem_cons_of_mem _ hx))
    obtain ⟨call, err⟩ := ev
    cases call <;> first | (simpa [renames] using h2) | cases h1

/-- A rename that stands in `a ++ b`, when `a` holds no rename, stands in `b`. -/
theorem split_in_right {a b pre post : List Event} {o n : Str} {err : Option OsError}
    (h : a ++ b = pre ++ (⟨.Rename o n, err⟩ : Event) :: post) (ha : renames a = []) :
    ∃ pre', pre = a ++ pre' ∧ b = pre' ++ (⟨.Rename o n, err⟩ : Event) :: post := by
  rcases List.append_eq_append_iff.mp h with ⟨a', h1, h2⟩ | ⟨c', h1, h2⟩
  · exact ⟨a', h1, h2⟩
  · cases c' with
    | nil => exact ⟨[], by simpa using h1.symm, by simpa using h2.symm⟩
    | cons x rest =>
      simp only [List.cons_append, List.cons.injEq] at h2
      rw [h1, renames_append, ← h2.1] at ha
      simp [renames] at ha

theorem safeRenames_nil (files : Str → Option Content) : safeRenames files [] := by
  intro pre o n err post h
  simp at h

theorem safeRenames_append_left (files : Str → Option Content) (a b : List Event)
    (ha : renames a = []) (hb : safeRenames (replay files a) b) : safeRenames files (a ++ b) := by
  intro pre o n err post h
  obtain ⟨pre', h1, h2⟩ := split_in_right h ha
  rw [h1, replay_append]
  exact hb pre' o n err post h2

theorem safeRenames_cons_rename (files : Str → Option Content) (o n : Str)
    (err : Option OsError) (evs : List Event)
    (ho : files o ≠ none) (hn : files n = none)
    (h : safeRenames ((⟨.Rename o n, err⟩ : Event).apply files) evs) :
    safeRenames files ((⟨.Rename o n, err⟩ : Event) :: evs) := by
  intro pre o' n' err' post hsplit
  cases pre with
  | nil =>
    simp only [List.nil_append, List.cons.injEq, Event.mk.injEq, Call.Rename.injEq] at hsplit
    obtain ⟨⟨⟨h1, h2⟩, _⟩, _⟩ := hsplit
    rw [replay_nil, ← h1, ← h2]
    exact ⟨ho, hn⟩
  | cons x rest =>
    simp only [List.cons_append, List.cons.injEq] at hsplit
    rw [replay_cons, ← hsplit.1]
    exact h rest o' n' err' post hsplit.2

theorem safeRenames_concat_rename (files : Str → Option Content) (o n : Str)
    (err : Option OsError) (evs : List Event) (h : safeRenames files evs)
    (ho : replay files evs o ≠ none) (hn : replay files evs n = none) :
    safeRenames files (evs ++ [(⟨.Rename o n, err⟩ : Event)]) := by
  intro pre o' n' err' post hsplit
  rcases List.eq_nil_or_concat post with hp | ⟨rest, y, hp⟩
  · subst hp
    have h1 := List.append_inj' hsplit (by simp)
    have h2 := h1.2
    simp only [List.cons.injEq, Event.mk.injEq, Call.Rename.injEq, and_true] at h2
    rw [← h1.1, ← h2.1.1, ← h2.1.2]
    exact ⟨ho, hn⟩
  · subst hp
    have h0 : evs ++ [(⟨.Rename o n, err⟩ : Event)] =
        (pre ++ (⟨.Rename o' n', err'⟩ : Event) :: rest) ++ [y] := by
      rw [hsplit]; simp
    have h1 := List.append_inj' h0 (by simp)
    exact h pre o' n' err' rest h1.1

/-! ## The renames of `makeBackup` -/

theorem listBackupsLoop_stats (dbh : dataBackupHelper) (keep : Int) :
    ∀ (fuel i : Nat) (backups : List Str) (fs : FS),
      ∃ evs, (listBackupsLoop dbh keep fuel i backups fs).2.trace = fs.trace ++ evs ∧
        ∀ ev ∈ evs, ∃ j, ev.call = .Stat (dbh.makeName j) := by
  intro fuel
  induction fuel with
  | zero =>
    intro i backups fs
    exact ⟨[], by simp [listBackupsLoop], fun ev h => by simp at h⟩
  | succ fuel ih =>
    intro i backups fs
    unfold listBackupsLoop
    by_cases hlt : (i : Int) < keep
    · rw [if_pos hlt]
      by_cases hne : IsNotExist (Stat (dbh.makeName i) fs).1 = true
      · rw [if_pos hne]
        refine ⟨_, Stat_trace _ _, ?_⟩
        intro ev hev
        simp only [List.mem_singleton] at hev
        exact ⟨i, by rw [hev]⟩
      · rw [if_neg hne]
        obtain ⟨evs, h1, h2⟩ :=
          ih (i + 1) (backups ++ [dbh.makeName i]) (Stat (dbh.makeName i) fs).2
        refine ⟨⟨.Stat (dbh.makeName i), (Stat (dbh.makeName i) fs).1⟩ :: evs, ?_, ?_⟩
        · rw [h1, Stat_trace]
          simp
        · intro ev hev
          rcases List.mem_cons.mp hev with h | h
          · exact ⟨i, by rw [h]⟩
          · exact h2 ev h
    · rw [if_neg hlt]
      exact ⟨[], by simp, fun ev h => by simp at h⟩

theorem shiftPlan_step (g : Nat → Str) (i : Nat) :
    (List.range (i + 1)).reverse.map (fun j => (g j, g (j + 1))) =
      (g i, g (i + 1)) :: (List.range i).reverse.map (fun j => (g j, g (j + 1))) := by
  rw [List.range_succ, List.reverse_append]
  rfl

theorem renames_cons_rename (o n : Str) (err : Option OsError) (evs : List Event) :
    renames ((⟨.Rename o n, err⟩ : Event) :: evs) = (o, n) :: renames evs := by
  simp [renames]

/-- The shift loop entered at `i` over distinct names `g 0 .. g i`, of which all
exist but the last: its calls are renames of the plan, each with a source that
exists and a destination that does not, and when it ends `g 0` is free. -/
theorem shiftLoop_safe (g : Nat → Str) (hg : Function.Injective g) (bs : List Str) :
    ∀ (i : Nat) (fs : FS), (∀ j, j ≤ i → index bs (j : Int) = some (g j)) →
      (∀ j, j < i → fs.files (g j) ≠ none) → fs.files (g i) = none →
      ∃ evs, (shiftLoop bs i fs).2.trace = fs.trace ++ evs ∧
        (shiftLoop bs i fs).2.files = replay fs.files evs ∧
        safeRenames fs.files evs ∧
        (∀ ev ∈ evs, ev.isRename = true) ∧
        renames evs <+: (List.range i).reverse.map (fun j => (g j, g (j + 1))) ∧
        (((shiftLoop bs i fs).1 = .nil ∧
            renames evs = (List.range i).reverse.map (fun j => (g j, g (j + 1))) ∧
            (shiftLoop bs i fs).2.files (g 0) = none) ∨
          ((shiftLoop bs i fs).1 ≠ .nil ∧ evs ≠ [])) := by
  intro i
  induction i with
  | zero =>
    intro fs _ _ h0
    exact ⟨[], by simp [shiftLoop], rfl, safeRenames_nil _, fun ev h => by simp at h,
      by simp [renames], Or.inl ⟨rfl, by simp [renames], h0⟩⟩
  | succ i ih =>
    intro fs hb hsrc hdst
    have hbi := hb i (Nat.le_succ i)
    have hbi1 := hb (i + 1) (Nat.le_refl _)
    unfold shiftLoop
    simp only [hbi, hbi1]
    have htr := Rename_trace (g i) (g (i + 1)) fs
    have hap := Rename_apply (g i) (g (i + 1)) fs
    cases hr : (Rename (g i) (g (i + 1)) fs).1 with
    | some e =>
      simp only []
      rw [hr] at htr hap
      refine ⟨_, htr, ?_, ?_, ?_, ?_, Or.inr ⟨by simp, by simp⟩⟩
      · rw [hap]
        rfl
      · exact safeRenames_cons_rename _ _ _ _ _ (hsrc i (Nat.lt_succ_self i)) hdst
          (safeRenames_nil _)
      · intro ev hev
        simp only [List.mem_singleton] at hev
        rw [hev]
        rfl
      · rw [shiftPlan_step, renames_cons_rename]
        exact (List.prefix_cons_inj _).mpr (List.nil_prefix)
    | none =>
      simp only []
      rw [hr] at htr hap
      obtain ⟨_, hfiles⟩ := Rename_nil hr
      have hne : g i ≠ g (i + 1) := fun h => by have := hg h; omega
      have hsrc' : ∀ j, j < i → (Rename (g i) (g (i + 1)) fs).2.files (g j) ≠ none := by
        intro j hj
        rw [hfiles, Function.update_noteq (fun h => by have := hg h; omega),
          Function.update_noteq (fun h => by have := hg h; omega)]
        exact hsrc j (by omega)
      have hdst' : (Rename (g i) (g (i + 1)) fs).2.files (g i) = none := by
        rw [hfiles, Function.update_noteq hne, Function.update_same]
      obtain ⟨evs, h1, h2, h3, h4, h5, h6⟩ :=
        ih (Rename (g i) (g (i + 1)) fs).2 (fun j hj => hb j (Nat.le_succ_of_le hj)) hsrc' hdst'
      refine ⟨⟨.Rename (g i) (g (i + 1)), none⟩ :: evs, ?_, ?_, ?_, ?_, ?_, ?_⟩
      · rw [h1, htr]
        simp
      · rw [h2, replay_cons, hap]
      · refine safeRenames_cons_rename _ _ _ _ _ (hsrc i (Nat.lt_succ_self i)) hdst ?_
        rw [← hap]
        exact h3
      · intro ev hev
        rcases List.mem_cons.mp hev with h | h
        · rw [h]
          rfl
        · exact h4 ev h
      · rw [shiftPlan_step, renames_cons_rename]
        exact (List.prefix_cons_inj _).mpr h5
      · rcases h6 with ⟨a, b, c⟩ | ⟨a, b⟩
        · exact Or.inl ⟨a, by rw [shiftPlan_step, renames_cons_rename, b], c⟩
        · exact Or.inr ⟨a, by simp⟩

theorem shiftAndSave_state_of_nil (dbh : dataBackupHelper) (bs : List Str) (fs : FS)
    (h : (shiftLoop bs (bs.length - 1) fs).1 = .nil) :
    (shiftAndSave dbh bs fs).2 =
      (Rename dbh.folder (dbh.makeName 0) (shiftLoop bs (bs.length - 1) fs).2).2 := by
  cases hr : (Rename dbh.folder (dbh.makeName 0) (shiftLoop bs (bs.length - 1) fs).2).1 with
  | some e => rw [shiftAndSave_of_nil_err dbh bs fs e h hr]
  | none => rw [shiftAndSave_of_nil_nil dbh bs fs h hr]

theorem shiftAndSave_state_of_ne_nil (dbh : dataBackupHelper) (bs : List Str) (fs : FS)
    (h : (shiftLoop bs (bs.length - 1) fs).1 ≠ .nil) :
    (shiftAndSave dbh bs fs).2 = (shiftLoop bs (bs.length - 1) fs).2 := by
  cases hs : (shiftLoop bs (bs.length - 1) fs).1 with
  | nil => exact absurd hs h
  | err e => rw [shiftAndSave_of_err dbh bs fs e hs]
  | panic => rw [shiftAndSave_of_panic dbh bs fs hs]

/-- The shift and the final rename over the names of the indices below `L`, of
which all exist but the last, with the folder existing: the calls are renames of
the plan, in its order, each with a source that exists and a destination that
does not. -/
theorem shiftAndSave_safe (dbh : dataBackupHelper) (bs : List Str)
    (L : Nat) (hL : 1 ≤ L) (hlen : bs.length = L)
    (hbs : ∀ j, j < L → index bs (j : Int) = some (dbh.makeName j)) (fs : FS)
    (ht : fs.files dbh.folder ≠ none)
    (hsrc : ∀ j, j + 1 < L → fs.files (dbh.makeName j) ≠ none)
    (hdst : fs.files (dbh.makeName (L - 1)) = none) :
    ∃ evs, (shiftAndSave dbh bs fs).2.trace = fs.trace ++ evs ∧
      (shiftAndSave dbh bs fs).2.files = replay fs.files evs ∧
      safeRenames fs.files evs ∧
      (∀ ev ∈ evs, ev.isRename = true) ∧ evs ≠ [] ∧
      renames evs <+: shiftPlan dbh L := by
  have hb : ∀ j, j ≤ bs.length - 1 → index bs (j : Int) = some (dbh.makeName j) :=
    fun j hj => hbs j (by omega)
  obtain ⟨evs, h1, h2, h3, h4, h5, h6⟩ := shiftLoop_safe dbh.makeName (makeName_injective dbh) bs
    (bs.length - 1) fs hb (fun j hj => hsrc j (by omega)) (by rw [hlen]; exact hdst)
  have hfr := shiftLoop_frame dbh.makeName bs (bs.length - 1) fs hb
  have hplan : shiftPlan dbh L =
      (List.range (bs.length - 1)).reverse.map
        (fun j => (dbh.makeName j, dbh.makeName (j + 1))) ++ [(dbh.folder, dbh.makeName 0)] := by
    rw [hlen]
    rfl
  rcases h6 with ⟨a, b, c⟩ | ⟨a, b⟩
  · rw [shiftAndSave_state_of_nil dbh bs fs a]
    have htr := Rename_trace dbh.folder (dbh.makeName 0) (shiftLoop bs (bs.length - 1) fs).2
    have hap := Rename_apply dbh.folder (dbh.makeName 0) (shiftLoop bs (bs.length - 1) fs).2
    have hfold : replay fs.files evs dbh.folder ≠ none := by
      rw [← h2, hfr _ (fun j _ => (makeName_ne_folder dbh j).symm)]
      exact ht
    refine ⟨evs ++ [⟨.Rename dbh.folder (dbh.makeName 0),
      (Rename dbh.folder (dbh.makeName 0) (shiftLoop bs (bs.length - 1) fs).2).1⟩], ?_, ?_, ?_,
      ?_, by simp, ?_⟩
    · rw [htr, h1, List.append_assoc]
    · rw [hap, h2, replay_append]
      rfl
    · exact safeRenames_concat_rename _ _ _ _ _ h3 hfold (by rw [← h2]; exact c)
    · intro ev hev
      rcases List.mem_append.mp hev with h | h
      · exact h4 ev h
      · simp only [List.mem_singleton] at h
        rw [h]
        rfl
    · rw [hplan, renames_append, b]
      have hlast : renames [(⟨.Rename dbh.folder (dbh.makeName 0),
          (Rename dbh.folder (dbh.makeName 0) (shiftLoop bs (bs.length - 1) fs).2).1⟩ : Event)] =
          [(dbh.folder, dbh.makeName 0)] := by
        simp [renames]
      rw [hlast]
  · rw [shiftAndSave_state_of_ne_nil dbh bs fs a]
    refine ⟨evs, h1, h2, h3, h4, b, ?_⟩
    rw [hplan]
    exact h5.trans (List.prefix_append _ _)

theorem shifted_of_le (dbh : dataBackupHelper) (keep : Int) (fs : FS)
    (hk : keep ≤ ((dbh.listBackups keep
      (MkdirAll dbh.baseDir (Stat dbh.folder fs).2).2).1.length : Int)) :
    dbh.shifted keep fs =
      (dbh.listBackups keep (MkdirAll dbh.baseDir (Stat dbh.folder fs).2).2).1 := by
  unfold dataBackupHelper.shifted dataBackupHelper.enumerated
  simp only [hk, if_true]

theorem shifted_of_not_le (dbh : dataBackupHelper) (keep : Int) (fs : FS)
    (hk : ¬ keep ≤ ((dbh.listBackups keep
      (MkdirAll dbh.baseDir (Stat dbh.folder fs).2).2).1.length : Int)) :
    dbh.shifted keep fs =
      (dbh.listBackups keep (MkdirAll dbh.baseDir (Stat dbh.folder fs).2).2).1 ++
        [dbh.makeName
          (dbh.listBackups keep (MkdirAll dbh.baseDir (Stat dbh.folder fs).2).2).1.length] := by
  unfold dataBackupHelper.shifted dataBackupHelper.enumerated
  simp only [hk, if_false]

/-- The enumeration from a state `fs2`, with its calls: existence tests of
generation names that change no file. -/
theorem listBackups_calls (dbh : dataBackupHelper) (keep : Int) (fs2 : FS) :
    ∃ (evs : List Event) (m : Nat),
      (dbh.listBackups keep fs2).2.trace = fs2.trace ++ evs ∧
      (dbh.listBackups keep fs2).2.files = fs2.files ∧
      (∀ ev ∈ evs, ∃ j, ev.call = .Stat (dbh.makeName j)) ∧
      (∀ files, replay files evs = files) ∧ renames evs = [] ∧
      (dbh.listBackups keep fs2).1 = (List.range m).map dbh.makeName ∧
      m ≤ keep.toNat ∧
      ((m : Int) < keep → fs2.files (dbh.makeName m) = none) ∧
      ((∀ ev ∈ evs, ev.faulted = false) → ∀ j, j < m → fs2.files (dbh.makeName j) ≠ none) := by
  obtain ⟨evs, h1, h2⟩ := listBackupsLoop_stats dbh keep keep.toNat 0 [] fs2
  have h1' : (dbh.listBackups keep fs2).2.trace = fs2.trace ++ evs := h1
  obtain ⟨m, l1, l2, l3, l4⟩ := listBackups_truth dbh keep fs2 evs h1'
  have hs : ∀ ev ∈ evs, ev.isStat = true := by
    intro ev hev
    obtain ⟨j, hj⟩ := h2 ev hev
    unfold Event.isStat
    rw [hj]
  exact ⟨evs, m, h1', (listBackups_spec dbh keep fs2).1, h2,
    fun files => replay_quiet_stats files evs hs, renames_of_stats evs hs, l1, l2, l3, l4⟩

/-- The calls of `makeBackup` up to its shift loop, on an existing folder with
`MkdirAll` succeeding: an existence test of the folder, `MkdirAll`, the
existence tests of the enumeration, and `RemoveAll` when the limit is reached.
The rest of the run is the shift over the list `shifted`, the names of the
indices below its length `L`; the folder still exists, and when no existence
test of a generation failed with another error and `RemoveAll` succeeded, the
generations below `L - 1` exist and generation `L - 1` does not. -/
theorem makeBackup_prepare (dbh : dataBackupHelper) (N : Nat) (hN : 1 ≤ N) (fs : FS)
    (ht : fs.files dbh.folder ≠ none)
    (hmk : (MkdirAll dbh.baseDir (Stat dbh.folder fs).2).1 = none) :
    ∃ (A : List Event) (fs3 : FS) (L : Nat),
      dbh.makeBackup N fs = shiftAndSave dbh (dbh.shifted N fs) fs3 ∧
      (dbh.shifted N fs).length = L ∧ 1 ≤ L ∧
      (∀ j, j < L → index (dbh.shifted N fs) (j : Int) = some (dbh.makeName j)) ∧
      fs3.trace = fs.trace ++ A ∧ fs3.files = replay fs.files A ∧ renames A = [] ∧
      fs3.files dbh.folder ≠ none ∧
      ((∀ ev ∈ A, ∀ i, ev.call = .Stat (dbh.makeName i) → ev.faulted = false) →
        (∀ ev ∈ A, ev.isRemoveAll = true → ev.err = none) →
        (∀ j, j + 1 < L → fs3.files (dbh.makeName j) ≠ none) ∧
          fs3.files (dbh.makeName (L - 1)) = none) ∧
      L ≤ N ∧
      (mkdirAllFiles dbh.baseDir fs.files (dbh.makeName (L - 1)) = none ∨ L = N) ∧
      (∀ q, q ≠ dbh.makeName (L - 1) → fs3.files q = mkdirAllFiles dbh.baseDir fs.files q) := by
  have hst : IsNotExist (Stat dbh.folder fs).1 = false := Stat_exists ht
  have h2M : (MkdirAll dbh.baseDir (Stat dbh.folder fs).2).2.files =
      mkdirAllFiles dbh.baseDir fs.files := by
    rw [MkdirAll_files_of_nil _ _ hmk, Stat_files]
  have h2tr : (MkdirAll dbh.baseDir (Stat dbh.folder fs).2).2.trace =
      fs.trace ++ [⟨.Stat dbh.folder, (Stat dbh.folder fs).1⟩, ⟨.MkdirAll dbh.baseDir, none⟩] := by
    rw [MkdirAll_trace, Stat_trace, hmk]
    simp
  have h2files : (MkdirAll dbh.baseDir (Stat dbh.folder fs).2).2.files =
      replay fs.files
        [⟨.Stat dbh.folder, (Stat dbh.folder fs).1⟩, ⟨.MkdirAll dbh.baseDir, none⟩] := by
    rw [MkdirAll_apply, hmk, Stat_apply]
    rfl
  have h2fold : (MkdirAll dbh.baseDir (Stat dbh.folder fs).2).2.files dbh.folder ≠ none := by
    rw [MkdirAll_files_of_exists _ _ _ (by rw [Stat_files]; exact ht), Stat_files]
    exact ht
  obtain ⟨evsL, m, c1, c2, c3, c4, c5, c6, c7, c8, c9⟩ :=
    listBackups_calls dbh N (MkdirAll dbh.baseDir (Stat dbh.folder fs).2).2
  have hlen : (dbh.listBackups N (MkdirAll dbh.baseDir (Stat dbh.folder fs).2).2).1.length = m := by
    rw [c6]
    simp
  have hm : m ≤ N := by simpa using c7
  have hidx : ∀ j, j < m →
      index (dbh.listBackups N (MkdirAll dbh.baseDir (Stat dbh.folder fs).2).2).1 (j : Int) =
        some (dbh.makeName j) := by
    intro j hj
    rw [c6]
    exact index_range_map _ _ _ hj
  have hunf : (∀ ev ∈ evsL, ∀ i, ev.call = .Stat (dbh.makeName i) → ev.faulted = false) →
      ∀ ev ∈ evsL, ev.faulted = false := by
    intro h ev hev
    obtain ⟨j, hj⟩ := c3 ev hev
    exact h ev hev j hj
  by_cases hk : (N : Int) ≤ ((dbh.listBackups N
      (MkdirAll dbh.baseDir (Stat dbh.folder fs).2).2).1.length : Int)
  · have hmN : m = N := by
      rw [hlen] at hk
      omega
    have hi : index (dbh.listBackups N (MkdirAll dbh.baseDir (Stat dbh.folder fs).2).2).1
        (((dbh.listBackups N (MkdirAll dbh.baseDir (Stat dbh.folder fs).2).2).1.length
          : Int) - 1) = some (dbh.makeName (m - 1)) := by
      have e : (((dbh.listBackups N
          (MkdirAll dbh.baseDir (Stat dbh.folder fs).2).2).1.length : Int) - 1) =
          ((m - 1 : Nat) : Int) := by
        rw [hlen]
        omega
      rw [e]
      exact hidx _ (by omega)
    refine ⟨[⟨.Stat dbh.folder, (Stat dbh.folder fs).1⟩, ⟨.MkdirAll dbh.baseDir, none⟩] ++ evsL ++
        [⟨.RemoveAll (dbh.makeName (m - 1)), (RemoveAll (dbh.makeName (m - 1))
          (dbh.listBackups N (MkdirAll dbh.baseDir (Stat dbh.folder fs).2).2).2).1⟩],
      (RemoveAll (dbh.makeName (m - 1))
        (dbh.listBackups N (MkdirAll dbh.baseDir (Stat dbh.folder fs).2).2).2).2, m,
      ?_, ?_, by omega, ?_, ?_, ?_, ?_, ?_, ?_, by omega, Or.inr hmN, ?_⟩
    · rw [makeBackup_of_remove dbh N fs _ hst hmk hk hi, shifted_of_le dbh N fs hk]
    · rw [shifted_of_le dbh N fs hk, hlen]
    · rw [shifted_of_le dbh N fs hk]
      exact hidx
    · rw [RemoveAll_trace, c1, h2tr]
      simp
    · rw [RemoveAll_apply, c2, h2files, replay_append, replay_append, c4]
      rfl
    · rw [renames_append, renames_append, c5]
      simp [renames]
    · rw [RemoveAll_files_of_ne _ _ _ (makeName_ne_folder dbh _).symm, c2]
      exact h2fold
    · intro hs hr
      have hs' : ∀ ev ∈ evsL, ev.faulted = false :=
        hunf (fun ev hev => hs ev (by simp [hev]))
      have hr' : (RemoveAll (dbh.makeName (m - 1))
          (dbh.listBackups N (MkdirAll dbh.baseDir (Stat dbh.folder fs).2).2).2).1 = none :=
        hr ⟨.RemoveAll (dbh.makeName (m - 1)), _⟩ (by simp) rfl
      refine ⟨?_, RemoveAll_files_of_nil _ _ hr'⟩
      intro j hj
      rw [RemoveAll_files_of_ne _ _ _
        (fun h => by have := makeName_injective dbh h; omega), c2]
      exact c9 hs' j (by omega)
    · intro q hq
      rw [RemoveAll_files_of_ne _ _ _ hq, c2, h2M]
  · have hmN : m < N := by
      rw [hlen] at hk
      omega
    refine ⟨[⟨.Stat dbh.folder, (Stat dbh.folder fs).1⟩, ⟨.MkdirAll dbh.baseDir, none⟩] ++ evsL,
      (dbh.listBackups N (MkdirAll dbh.baseDir (Stat dbh.folder fs).2).2).2, m + 1,
      ?_, ?_, by omega, ?_, ?_, ?_, ?_, ?_, ?_, by omega, Or.inl ?_, ?_⟩
    · rw [makeBackup_of_append dbh N fs hst hmk hk, shifted_of_not_le dbh N fs hk]
    · rw [shifted_of_not_le dbh N fs hk]
      simp [hlen]
    · rw [shifted_of_not_le dbh N fs hk]
      intro j hj
      rcases Nat.lt_succ_iff_lt_or_eq.mp hj with hlt | heq
      · have := hidx j hlt
        rw [index_natCast] at this ⊢
        rw [List.getElem?_append_left (by rw [hlen]; exact hlt)]
        exact this
      · rw [index_natCast, heq, hlen, List.getElem?_append_right (by rw [hlen])]
        simp [hlen]
    · rw [c1, h2tr]
      simp
    · rw [c2, h2files, replay_append, c4]
    · rw [renames_append, c5]
      simp [renames]
    · rw [c2]
      exact h2fold
    · intro hs _
      have hs' : ∀ ev ∈ evsL, ev.faulted = false :=
        hunf (fun ev hev => hs ev (by simp [hev]))
      refine ⟨?_, ?_⟩
      · intro j hj
        rw [c2]
        exact c9 hs' j (by omega)
      · rw [c2]
        exact c8 (by exact_mod_cast hmN)
    · rw [← h2M]
      exact c8 (by exact_mod_cast hmN)
    · intro q _
      rw [c2, h2M]

/-! ## C12: the renames of a rotation -/

theorem safeRenames_of_no_rename (files : Str → Option Content) (evs : List Event)
    (h : renames evs = []) : safeRenames files evs := by
  have := safeRenames_append_left files evs [] h (safeRenames_nil _)
  simpa using this

/-- C12, as stated, fails: with limit 2 on an existing `/data/store` without
generations, where the existence test of generation 0 fails with code 13,
`listBackups` returns the name of generation 0, the name of generation 1 is
appended, and the shift loop issues the rename of generation 0 to generation 1
although its source does not exist. -/
theorem makeBackup_rename_counterexample :
    (FS.ofList [("/data/store".toList, 7)] [(2, 13)]).files
      (newDataBackupHelper "/data/store".toList).folder ≠ none ∧
    ((newDataBackupHelper "/data/store".toList).makeBackup 2
      (FS.ofList [("/data/store".toList, 7)] [(2, 13)])).2.trace =
      [⟨.Stat "/data/store".toList, none⟩, ⟨.MkdirAll "/data".toList, none⟩,
        ⟨.Stat "/data/store.old.0".toList, some (.other 13)⟩,
        ⟨.Stat "/data/store.old.1".toList, some .notExist⟩,
        ⟨.Rename "/data/store.old.0".toList "/data/store.old.1".toList, some .notExist⟩] ∧
    replay (FS.ofList [("/data/store".toList, 7)] [(2, 13)]).files
      [⟨.Stat "/data/store".toList, none⟩, ⟨.MkdirAll "/data".toList, none⟩,
        ⟨.Stat "/data/store.old.0".toList, some (.other 13)⟩,
        ⟨.Stat "/data/store.old.1".toList, some .notExist⟩] "/data/store.old.0".toList = none ∧
    ¬ safeRenames (FS.ofList [("/data/store".toList, 7)] [(2, 13)]).files
      [⟨.Stat "/data/store".toList, none⟩, ⟨.MkdirAll "/data".toList, none⟩,
        ⟨.Stat "/data/store.old.0".toList, some (.other 13)⟩,
        ⟨.Stat "/data/store.old.1".toList, some .notExist⟩,
        ⟨.Rename "/data/store.old.0".toList "/data/store.old.1".toList, some .notExist⟩] := by
  refine ⟨by decide, by decide, by decide, ?_⟩
  intro h
  exact (h [⟨.Stat "/data/store".toList, none⟩, ⟨.MkdirAll "/data".toList, none⟩,
    ⟨.Stat "/data/store.old.0".toList, some (.other 13)⟩,
    ⟨.Stat "/data/store.old.1".toList, some .notExist⟩]
    "/data/store.old.0".toList "/data/store.old.1".toList (some .notExist) [] rfl).1 (by decide)

/-- C12, amended: for every limit `N ≥ 1` and every state with an existing
folder, when no existence test of a generation fails with an error other than
not-exist and the recursive remove succeeds when it is invoked, the calls `evs`
of `makeBackup` are such that every rename finds its source existing and its
destination not existing, in the files as the calls before it left them (which
`replay` computes: the files at the end are the replay of all calls).  When
`MkdirAll` succeeded the calls are `A ++ S`, where `A` holds no rename, `S` is
a non-empty list of renames, the last path of the list `shifted` does not exist
after `A`, and the renames of `S` are an initial part of the plan: generation
`L-2` to `L-1`, down to generation 0 to 1, then the folder to generation 0. -/
theorem makeBackup_renames_safe (dbh : dataBackupHelper) (N : Nat) (hN : 1 ≤ N) (fs : FS)
    (evs : List Event)
    (ht : fs.files dbh.folder ≠ none)
    (htr : (dbh.makeBackup N fs).2.trace = fs.trace ++ evs)
    (hst : ∀ ev ∈ evs, ∀ i, ev.call = .Stat (dbh.makeName i) → ev.faulted = false)
    (hrm : ∀ ev ∈ evs, ev.isRemoveAll = true → ev.err = none) :
    safeRenames fs.files evs ∧
    (dbh.makeBackup N fs).2.files = replay fs.files evs ∧
    ((MkdirAll dbh.baseDir (Stat dbh.folder fs).2).1 = none →
      ∃ A S last, evs = A ++ S ∧ renames A = [] ∧ (∀ ev ∈ S, ev.isRename = true) ∧ S ≠ [] ∧
        (dbh.shifted N fs).getLast? = some last ∧
        replay fs.files A last = none ∧
        renames S <+: shiftPlan dbh (dbh.shifted N fs).length) := by
  have hstat : IsNotExist (Stat dbh.folder fs).1 = false := Stat_exists ht
  cases hmk : (MkdirAll dbh.baseDir (Stat dbh.folder fs).2).1 with
  | some e =>
    have hevs : evs = [⟨.Stat dbh.folder, (Stat dbh.folder fs).1⟩,
        ⟨.MkdirAll dbh.baseDir, some e⟩] := by
      rw [makeBackup_of_mkdir_err dbh N fs e hstat hmk] at htr
      have h2 : (MkdirAll dbh.baseDir (Stat dbh.folder fs).2).2.trace = fs.trace ++ evs := htr
      rw [MkdirAll_trace, Stat_trace, hmk, List.append_assoc] at h2
      exact (List.append_cancel_left h2).symm
    refine ⟨?_, ?_, fun h => by cases h⟩
    · rw [hevs]
      exact safeRenames_of_no_rename _ _ (by simp [renames])
    · rw [makeBackup_of_mkdir_err dbh N fs e hstat hmk, hevs]
      show (MkdirAll dbh.baseDir (Stat dbh.folder fs).2).2.files = _
      rw [MkdirAll_files_of_err _ _ e hmk, Stat_files]
      rfl
  | none =>
    obtain ⟨A, fs3, L, p1, p2, p3, p4, p5, p6, p7, p8, p9, _⟩ :=
      makeBackup_prepare dbh N hN fs ht hmk
    obtain ⟨S0, r1, _⟩ := shiftAndSave_run dbh (dbh.shifted N fs) L p3 p2 p4 fs3
    have hevs : evs = A ++ S0 := by
      rw [p1, r1, p5, List.append_assoc] at htr
      exact (List.append_cancel_left htr).symm
    obtain ⟨q1, q2⟩ := p9
      (fun ev hev => hst ev (by rw [hevs]; exact List.mem_append_left _ hev))
      (fun ev hev => hrm ev (by rw [hevs]; exact List.mem_append_left _ hev))
    obtain ⟨S, s1, s2, s3, s4, s5, s6⟩ :=
      shiftAndSave_safe dbh (dbh.shifted N fs) L p3 p2 p4 fs3 p8 q1 q2
    have hS : S0 = S := by
      rw [r1] at s1
      exact List.append_cancel_left s1
    subst hS
    have hlast : (dbh.shifted N fs).getLast? = some (dbh.makeName (L - 1)) := by
      have := p4 (L - 1) (by omega)
      rw [index_natCast] at this
      rw [List.getLast?_eq_getElem?, p2]
      exact this
    refine ⟨?_, ?_, fun _ => ⟨A, S0, _, hevs, p7, s4, s5, hlast, ?_, ?_⟩⟩
    · rw [hevs]
      refine safeRenames_append_left _ _ _ p7 ?_
      rw [← p6]
      exact s3
    · rw [p1, s2, p6, hevs, replay_append]
    · rw [← p6]
      exact q2
    · rw [p2]
      exact s6

/-- C12 amended, at limit 3 on `/data/store` with the generations 0 and 1: the
calls are the five before the loop, then the renames of generation 1 to 2, of
generation 0 to 1 and of the folder to generation 0, each finding its source
existing and its destination not existing. -/
theorem makeBackup_renames_safe_witness :
    (FS.ofList [("/data".toList, 0), ("/data/store".toList, 7),
      ("/data/store.old.0".toList, 6), ("/data/store.old.1".toList, 5)] []).files
      (newDataBackupHelper "/data/store".toList).folder ≠ none ∧
    safeRenames (FS.ofList [("/data".toList, 0), ("/data/store".toList, 7),
      ("/data/store.old.0".toList, 6), ("/data/store.old.1".toList, 5)] []).files
      [⟨.Stat "/data/store".toList, none⟩, ⟨.MkdirAll "/data".toList, none⟩,
        ⟨.Stat "/data/store.old.0".toList, none⟩, ⟨.Stat "/data/store.old.1".toList, none⟩,
        ⟨.Stat "/data/store.old.2".toList, some .notExist⟩,
        ⟨.Rename "/data/store.old.1".toList "/data/store.old.2".toList, none⟩,
        ⟨.Rename "/data/store.old.0".toList "/data/store.old.1".toList, none⟩,
        ⟨.Rename "/data/store".toList "/data/store.old.0".toList, none⟩] :=
  ⟨by decide,
    (makeBackup_renames_safe (newDataBackupHelper "/data/store".toList) 3 (by decide)
      (FS.ofList [("/data".toList, 0), ("/data/store".toList, 7),
        ("/data/store.old.0".toList, 6), ("/data/store.old.1".toList, 5)] [])
      [⟨.Stat "/data/store".toList, none⟩, ⟨.MkdirAll "/data".toList, none⟩,
        ⟨.Stat "/data/store.old.0".toList, none⟩, ⟨.Stat "/data/store.old.1".toList, none⟩,
        ⟨.Stat "/data/store.old.2".toList, some .notExist⟩,
        ⟨.Rename "/data/store.old.1".toList "/data/store.old.2".toList, none⟩,
        ⟨.Rename "/data/store.old.0".toList "/data/store.old.1".toList, none⟩,
        ⟨.Rename "/data/store".toList "/data/store.old.0".toList, none⟩]
      (by decide) (by decide)
      (fun ev hev _ _ => (by decide : ∀ ev ∈
        ([⟨.Stat "/data/store".toList, none⟩, ⟨.MkdirAll "/data".toList, none⟩,
          ⟨.Stat "/data/store.old.0".toList, none⟩, ⟨.Stat "/data/store.old.1".toList, none⟩,
          ⟨.Stat "/data/store.old.2".toList, some .notExist⟩,
          ⟨.Rename "/data/store.old.1".toList "/data/store.old.2".toList, none⟩,
          ⟨.Rename "/data/store.old.0".toList "/data/store.old.1".toList, none⟩,
          ⟨.Rename "/data/store".toList "/data/store.old.0".toList, none⟩] : List Event),
          ev.faulted = false) ev hev)
      (by decide)).1⟩

/-! ## A rotation interrupted by a failed rename -/

/-- The files after the shift loop entered at `i` over distinct names
`g 0 .. g i` with `g i` free, however it ends: for some `t ≤ i` the names below
`t` are untouched, `g t` is free, and every name from `t` to `i - 1` has moved up
by one.  When the loop ran to its end, `t = 0`. -/
theorem shiftLoop_state (g : Nat → Str) (hg : Function.Injective g) (bs : List Str) :
    ∀ (i : Nat) (fs : FS), (∀ j, j ≤ i → index bs (j : Int) = some (g j)) →
      fs.files (g i) = none →
      ∃ t, t ≤ i ∧ (shiftLoop bs i fs).2.files (g t) = none ∧
        (∀ j, j < t → (shiftLoop bs i fs).2.files (g j) = fs.files (g j)) ∧
        (∀ j, t ≤ j → j < i → (shiftLoop bs i fs).2.files (g (j + 1)) = fs.files (g j)) ∧
        ((shiftLoop bs i fs).1 = .nil → t = 0) ∧ (shiftLoop bs i fs).1 ≠ .panic := by
  intro i
  induction i with
  | zero =>
    intro fs _ h0
    exact ⟨0, Nat.le_refl 0, h0, fun j hj => absurd hj (Nat.not_lt_zero j),
      fun j _ hj => absurd hj (Nat.not_lt_zero j), fun _ => rfl, by simp [shiftLoop]⟩
  | succ i ih =>
    intro fs hb hdst
    have hbi := hb i (Nat.le_succ i)
    have hbi1 := hb (i + 1) (Nat.le_refl _)
    have hb' : ∀ j, j ≤ i → index bs (j : Int) = some (g j) :=
      fun j hj => hb j (Nat.le_succ_of_le hj)
    have hfr := shiftLoop_frame g bs i (Rename (g i) (g (i + 1)) fs).2 hb' (g (i + 1))
      (fun j hj h => by have := hg h; omega)
    unfold shiftLoop
    simp only [hbi, hbi1]
    cases hr : (Rename (g i) (g (i + 1)) fs).1 with
    | some e =>
      simp only []
      refine ⟨i + 1, Nat.le_refl _, ?_, ?_, ?_, (fun h => by cases h), (fun h => by cases h)⟩
      · rw [Rename_files_of_err _ _ _ e hr]
        exact hdst
      · intro j _
        rw [Rename_files_of_err _ _ _ e hr]
      · intro j h1 h2
        omega
    | none =>
      simp only []
      obtain ⟨_, hfiles⟩ := Rename_nil hr
      have hne : g i ≠ g (i + 1) := fun h => by have := hg h; omega
      have hdst' : (Rename (g i) (g (i + 1)) fs).2.files (g i) = none := by
        rw [hfiles, Function.update_noteq hne, Function.update_same]
      have hold : ∀ j, j < i → (Rename (g i) (g (i + 1)) fs).2.files (g j) = fs.files (g j) := by
        intro j hj
        rw [hfiles, Function.update_noteq (fun h => by have := hg h; omega),
          Function.update_noteq (fun h => by have := hg h; omega)]
      obtain ⟨t, t1, t2, t3, t4, t5, t6⟩ := ih (Rename (g i) (g (i + 1)) fs).2 hb' hdst'
      refine ⟨t, Nat.le_succ_of_le t1, t2, ?_, ?_, t5, t6⟩
      · intro j hj
        rw [t3 j hj, hold j (by omega)]
      · intro j h1 h2
        rcases Nat.lt_succ_iff_lt_or_eq.mp h2 with hlt | heq
        · rw [t4 j h1 hlt, hold j hlt]
        · rw [heq, hfr, hfiles, Function.update_same]

/-- The files after `shiftAndSave` returned an error, over the names of the
indices below `L` with the last one free: for some `t < L` the generations below
`t` are untouched, generation `t` is free, the generations from `t` to `L - 2`
have moved up by one, and the folder is untouched. -/
theorem shiftAndSave_failed (dbh : dataBackupHelper) (bs : List Str)
    (L : Nat) (hL : 1 ≤ L) (hlen : bs.length = L)
    (hbs : ∀ j, j < L → index bs (j : Int) = some (dbh.makeName j)) (fs : FS) (e : OsError)
    (hdst : fs.files (dbh.makeName (L - 1)) = none)
    (hfail : (shiftAndSave dbh bs fs).1 = .err e) :
    ∃ t, t < L ∧ (shiftAndSave dbh bs fs).2.files (dbh.makeName t) = none ∧
      (∀ j, j < t → (shiftAndSave dbh bs fs).2.files (dbh.makeName j) =
        fs.files (dbh.makeName j)) ∧
      (∀ j, t ≤ j → j + 1 < L → (shiftAndSave dbh bs fs).2.files (dbh.makeName (j + 1)) =
        fs.files (dbh.makeName j)) ∧
      (shiftAndSave dbh bs fs).2.files dbh.folder = fs.files dbh.folder := by
  have hb : ∀ j, j ≤ bs.length - 1 → index bs (j : Int) = some (dbh.makeName j) :=
    fun j hj => hbs j (by omega)
  obtain ⟨t, t1, t2, t3, t4, t5, t6⟩ := shiftLoop_state dbh.makeName (makeName_injective dbh) bs
    (bs.length - 1) fs hb (by rw [hlen]; exact hdst)
  have hfr := shiftLoop_frame dbh.makeName bs (bs.length - 1) fs hb dbh.folder
    (fun j _ => (makeName_ne_folder dbh j).symm)
  have hfiles : (shiftAndSave dbh bs fs).2.files = (shiftLoop bs (bs.length - 1) fs).2.files := by
    by_cases hs : (shiftLoop bs (bs.length - 1) fs).1 = .nil
    · cases hr : (Rename dbh.folder (dbh.makeName 0) (shiftLoop bs (bs.length - 1) fs).2).1 with
      | none =>
        rw [shiftAndSave_of_nil_nil dbh bs fs hs hr] at hfail
        cases hfail
      | some e' =>
        rw [shiftAndSave_of_nil_err dbh bs fs e' hs hr]
        exact Rename_files_of_err _ _ _ e' hr
    · rw [shiftAndSave_state_of_ne_nil dbh bs fs hs]
  rw [hfiles]
  exact ⟨t, by omega, t2, t3, fun j h1 h2 => t4 j h1 (by omega), hfr⟩

theorem mkdirAllFiles_of_exists (path : Str) (files : Str → Option Content) (q : Str)
    (h : files q ≠ none) : mkdirAllFiles path files q = files q := by
  rcases mkdirAllFiles_cases path files q with h1 | ⟨_, h2, _⟩
  · exact h1
  · exact absurd h2 h

theorem mkdirAllFiles_of_not_parent (path : Str) (files : Str → Option Content) (q : Str)
    (h : isSelfOrParent q path = false) : mkdirAllFiles path files q = files q := by
  rcases mkdirAllFiles_cases path files q with h1 | ⟨h2, _, _⟩
  · exact h1
  · rw [h] at h2
    cases h2

theorem mkdirAllFiles_of_parent (path : Str) (files : Str → Option Content) (q : Str)
    (h : isSelfOrParent q path = true) : mkdirAllFiles path files q ≠ none := by
  rcases mkdirAllFiles_cases path files q with h1 | ⟨_, _, h2⟩
  · unfold mkdirAllFiles at h1 ⊢
    cases hv : files q with
    | none => simp [h, hv]
    | some c => simp [hv]
  · rw [h2]
    simp

/-- The files after `makeBackup` returned the error of a rename, on an existing
folder, when no existence test of a generation failed with another error and
the recursive remove succeeded.  With `M` the files after `MkdirAll` and `L`
the number of names shifted over: for some `t < L` the generations below `t`
are as in `M`, generation `t` is free, the generations from `t` to `L - 2` have
moved up by one, the folder is untouched, and every other path is as in `M`. -/
theorem makeBackup_failed_state (dbh : dataBackupHelper) (N : Nat) (hN : 1 ≤ N) (fs : FS)
    (evs : List Event) (e : OsError)
    (ht : fs.files dbh.folder ≠ none)
    (hmk : (MkdirAll dbh.baseDir (Stat dbh.folder fs).2).1 = none)
    (htr : (dbh.makeBackup N fs).2.trace = fs.trace ++ evs)
    (hst : ∀ ev ∈ evs, ∀ i, ev.call = .Stat (dbh.makeName i) → ev.faulted = false)
    (hrm : ∀ ev ∈ evs, ev.isRemoveAll = true → ev.err = none)
    (hfail : (dbh.makeBackup N fs).1 = .err e) :
    ∃ L t, 1 ≤ L ∧ L ≤ N ∧ t < L ∧
      (mkdirAllFiles dbh.baseDir fs.files (dbh.makeName (L - 1)) = none ∨ L = N) ∧
      (∀ j, j + 1 < L → mkdirAllFiles dbh.baseDir fs.files (dbh.makeName j) ≠ none) ∧
      (dbh.makeBackup N fs).2.files (dbh.makeName t) = none ∧
      (∀ j, j < t → (dbh.makeBackup N fs).2.files (dbh.makeName j) =
        mkdirAllFiles dbh.baseDir fs.files (dbh.makeName j)) ∧
      (∀ j, t ≤ j → j + 1 < L → (dbh.makeBackup N fs).2.files (dbh.makeName (j + 1)) =
        mkdirAllFiles dbh.baseDir fs.files (dbh.makeName j)) ∧
      (dbh.makeBackup N fs).2.files dbh.folder = fs.files dbh.folder ∧
      (∀ q, q ≠ dbh.folder → (∀ j, j < L → q ≠ dbh.makeName j) →
        (dbh.makeBackup N fs).2.files q = mkdirAllFiles dbh.baseDir fs.files q) := by
  obtain ⟨A, fs3, L, p1, p2, p3, p4, p5, p6, p7, p8, p9, p10, p11, p12⟩ :=
    makeBackup_prepare dbh N hN fs ht hmk
  obtain ⟨S0, r1, _⟩ := shiftAndSave_run dbh (dbh.shifted N fs) L p3 p2 p4 fs3
  have hevs : evs = A ++ S0 := by
    rw [p1, r1, p5, List.append_assoc] at htr
    exact (List.append_cancel_left htr).symm
  obtain ⟨q1, q2⟩ := p9
    (fun ev hev => hst ev (by rw [hevs]; exact List.mem_append_left _ hev))
    (fun ev hev => hrm ev (by rw [hevs]; exact List.mem_append_left _ hev))
  rw [p1] at hfail ⊢
  obtain ⟨t, t1, t2, t3, t4, t5⟩ :=
    shiftAndSave_failed dbh (dbh.shifted N fs) L p3 p2 p4 fs3 e q2 hfail
  have hM : ∀ j, j + 1 < L → fs3.files (dbh.makeName j) =
      mkdirAllFiles dbh.baseDir fs.files (dbh.makeName j) :=
    fun j hj => p12 _ (fun h => by have := makeName_injective dbh h; omega)
  refine ⟨L, t, p3, p10, t1, p11, ?_, t2, ?_, ?_, ?_, ?_⟩
  · intro j hj
    rw [← hM j hj]
    exact q1 j hj
  · intro j hj
    rw [t3 j hj, hM j (by omega)]
  · intro j h1 h2
    rw [t4 j h1 h2, hM j h2]
  · rw [t5, p12 _ (makeName_ne_folder dbh _).symm, mkdirAllFiles_of_exists _ _ _ ht]
  · intro q hq hqj
    rw [shiftAndSave_frame dbh _ L p3 p2 p4 fs3 q hq hqj, p12 q (hqj _ (by omega))]

/-! ## C15: a second call after a failed rename -/

theorem ok_not_faulted (ev : Event) (h : ev.ok = true) : ev.faulted = false := by
  obtain ⟨call, err⟩ := ev
  cases err with
  | none => rfl
  | some e =>
    cases e with
    | notExist => rfl
    | other c => cases call <;> cases h

theorem ok_removeAll (ev : Event) (h : ev.ok = true) (hr : ev.isRemoveAll = true) :
    ev.err = none := by
  obtain ⟨call, err⟩ := ev
  cases err with
  | none => rfl
  | some e =>
    cases call with
    | RemoveAll path => cases e <;> cases h
    | Stat name => cases hr
    | MkdirAll path => cases hr
    | Rename o n => cases hr

/-- A call of `makeBackup` whose last call is a failed rename, no call before it
having failed, then a second call that returns nil: the files are those a
single call returning nil leaves, from any state with the files of the start. -/
theorem makeBackup_again (dbh : dataBackupHelper) (sep : Separate dbh) (N k : Nat)
    (fs fs' : FS) (pre : List Event) (o n : Str) (e : OsError)
    (hN : 1 ≤ N) (hk : k ≤ N)
    (ht : fs.files dbh.folder ≠ none)
    (hex : ∀ i, i < k → fs.files (dbh.makeName i) ≠ none)
    (hfree : ∀ i, k ≤ i → fs.files (dbh.makeName i) = none)
    (htr : (dbh.makeBackup N fs).2.trace = fs.trace ++ (pre ++ [⟨.Rename o n, some e⟩]))
    (hpre : ∀ ev ∈ pre, ev.ok = true)
    (hagain : (dbh.makeBackup N (dbh.makeBackup N fs).2).1 = .nil)
    (hsame : fs'.files = fs.files)
    (hone : (dbh.makeBackup N fs').1 = .nil) :
    (dbh.makeBackup N fs).1 = .err e ∧
    (dbh.makeBackup N (dbh.makeBackup N fs).2).2.files = (dbh.makeBackup N fs').2.files := by
  have hstat : IsNotExist (Stat dbh.folder fs).1 = false := Stat_exists ht
  have hfatal : (⟨.Rename o n, some e⟩ : Event).fatal = true := rfl
  -- `MkdirAll` succeeded
  have hmk : (MkdirAll dbh.baseDir (Stat dbh.folder fs).2).1 = none := by
    cases h : (MkdirAll dbh.baseDir (Stat dbh.folder fs).2).1 with
    | none => rfl
    | some e' =>
      exfalso
      rw [makeBackup_of_mkdir_err dbh N fs e' hstat h] at htr
      have h2 : (MkdirAll dbh.baseDir (Stat dbh.folder fs).2).2.trace =
        fs.trace ++ (pre ++ [⟨.Rename o n, some e⟩]) := htr
      rw [MkdirAll_trace, Stat_trace, h, List.append_assoc] at h2
      have h4 := (List.append_inj' (List.append_cancel_left h2) rfl).2
      simp at h4
  -- the call returned the error of the rename
  have hfail : (dbh.makeBackup N fs).1 = .err e := by
    obtain ⟨evs, r1, r2⟩ := makeBackup_run dbh N fs ht
    have hevs : evs = pre ++ [⟨.Rename o n, some e⟩] := by
      rw [htr] at r1
      exact (List.append_cancel_left r1).symm
    rcases r2 with ⟨_, hq⟩ | ⟨_, hq⟩ | ⟨e', pre', _, h2, _⟩ | ⟨e', pre', j, h1, h2, _⟩ |
      ⟨e', pre', h1, h2, _⟩
    · rw [hevs] at hq
      exact (not_quiet_of_fatal hq hfatal).elim
    · rw [hevs] at hq
      exact (not_quiet_of_fatal hq hfatal).elim
    · rw [hevs] at h2
      have h4 := (List.append_inj' h2 rfl).2
      simp at h4
    · rw [hevs] at h2
      have h4 := (List.append_inj' h2 rfl).2
      simp only [List.cons.injEq, Event.mk.injEq, Option.some.injEq, and_true] at h4
      rw [h1, h4.2]
    · rw [hevs] at h2
      have h4 := (List.append_inj' h2 rfl).2
      simp only [List.cons.injEq, Event.mk.injEq, Option.some.injEq, and_true] at h4
      rw [h1, h4.2]
  have hst : ∀ ev ∈ pre ++ [(⟨.Rename o n, some e⟩ : Event)], ∀ i,
      ev.call = .Stat (dbh.makeName i) → ev.faulted = false := by
    intro ev hev i hc
    rcases List.mem_append.mp hev with h | h
    · exact ok_not_faulted ev (hpre ev h)
    · simp only [List.mem_singleton] at h
      rw [h] at hc
      cases hc
  have hrm : ∀ ev ∈ pre ++ [(⟨.Rename o n, some e⟩ : Event)],
      ev.isRemoveAll = true → ev.err = none := by
    intro ev hev hr
    rcases List.mem_append.mp hev with h | h
    · exact ok_removeAll ev (hpre ev h) hr
    · simp only [List.mem_singleton] at h
      rw [h] at hr
      cases hr
  -- the files after the failed call
  obtain ⟨L, t, f1, f2, f3, f4, f5, f6, f7, f8, f9, f10⟩ :=
    makeBackup_failed_state dbh N hN fs _ e ht hmk htr hst hrm hfail
  have hMg : ∀ j, mkdirAllFiles dbh.baseDir fs.files (dbh.makeName j) =
      fs.files (dbh.makeName j) :=
    fun j => mkdirAllFiles_of_not_parent _ _ _ (sep.parent j)
  simp only [hMg] at f4 f5 f7 f8
  have hLup : L - 1 ≤ k := by
    by_contra hc
    exact f5 k (by omega) (hfree k (Nat.le_refl k))
  have hLlow : k ≤ L - 1 ∨ L = N := by
    rcases f4 with h | h
    · left
      by_contra hc
      exact hex (L - 1) (by omega) h
    · exact Or.inr h
  -- the second call
  have ht1 : (dbh.makeBackup N fs).2.files dbh.folder ≠ none := by
    rw [f9]
    exact ht
  obtain ⟨L2, b1, b2, b3, b4, a1, a2, a3, a4, _⟩ :=
    makeBackup_nil dbh sep N (dbh.makeBackup N fs).2 ht1 hagain
  have hL2up : L2 ≤ t + 1 := by
    by_contra hc
    exact b4 t (by omega) f6
  have hL2 : L2 = t + 1 := by
    rcases b3 with h | h
    · by_contra hc
      have h1 : L2 - 1 < t := by omega
      rw [f7 _ h1] at h
      exact hex (L2 - 1) (by omega) h
    · have : (L2 : Int) = (N : Int) := h
      omega
  -- the single call
  have ht' : fs'.files dbh.folder ≠ none := by
    rw [hsame]
    exact ht
  have hmk' : (MkdirAll dbh.baseDir (Stat dbh.folder fs').2).1 = none := by
    cases h : (MkdirAll dbh.baseDir (Stat dbh.folder fs').2).1 with
    | none => rfl
    | some e' =>
      rw [makeBackup_of_mkdir_err dbh N fs' e' (Stat_exists ht') h] at hone
      cases hone
  obtain ⟨LR, c1, c2, c3, c4, d1, d2, d3, d4, _⟩ := makeBackup_nil dbh sep N fs' ht' hone
  rw [hsame] at c3 d2
  simp only [hsame] at c4 d3 d4
  have hLRup : LR - 1 ≤ k := by
    by_contra hc
    exact c4 k (by omega) (hfree k (Nat.le_refl k))
  have hLR : LR = L := by
    rcases c3 with h | h
    · have h1 : k ≤ LR - 1 := by
        by_contra hc
        exact hex (LR - 1) (by omega) h
      have : (LR : Int) ≤ (N : Int) := c2
      omega
    · have : (LR : Int) = (N : Int) := h
      omega
  subst hLR
  refine ⟨hfail, funext fun q => ?_⟩
  by_cases hq : q = dbh.folder
  · rw [hq, a1, d1]
  by_cases hg : ∃ i, q = dbh.makeName i
  · obtain ⟨i, rfl⟩ := hg
    cases i with
    | zero => rw [a2, f9, d2]
    | succ j =>
      by_cases hj : j < t
      · rw [a3 j (by omega), f7 j hj, d3 j (by omega)]
      · have hF2 : (dbh.makeBackup N (dbh.makeBackup N fs).2).2.files (dbh.makeName (j + 1)) =
            (dbh.makeBackup N fs).2.files (dbh.makeName (j + 1)) :=
          a4 _ (sep.folder _) (fun j' hj' h => by have := sep.inj h; omega)
            (Or.inr (sep.parent _))
        by_cases hjL : j + 1 < LR
        · rw [hF2, f8 j (by omega) hjL, d3 j hjL]
        · rw [hF2, f10 _ (sep.folder _) (fun j' hj' h => by have := sep.inj h; omega), hMg,
            d4 _ (sep.folder _) (fun j' hj' h => by have := sep.inj h; omega)
              (Or.inr (sep.parent _))]
  · have hqj : ∀ j, q ≠ dbh.makeName j := fun j h => hg ⟨j, h⟩
    have hF1 : (dbh.makeBackup N fs).2.files q = mkdirAllFiles dbh.baseDir fs.files q :=
      f10 q hq (fun j _ => hqj j)
    have hF2 : (dbh.makeBackup N (dbh.makeBackup N fs).2).2.files q =
        (dbh.makeBackup N fs).2.files q := by
      refine a4 q hq (fun j _ => hqj j) ?_
      cases hp : isSelfOrParent q dbh.baseDir with
      | false => exact Or.inr rfl
      | true =>
        left
        rw [hF1]
        exact mkdirAllFiles_of_parent _ _ _ hp
    rw [hF2, hF1, makeBackup_frame dbh N fs' ht' q hq (fun j _ => hqj j),
      MkdirAll_files_of_nil _ _ hmk', Stat_files, hsame]

/-- C15: for every limit `N ≥ 1` and every state where the folder exists and the
existing generations are exactly those of the indices below `k`, with `k ≤ N`:
when a call of `makeBackup` ends with a failed rename (a failed rename changes
nothing), no call before it having failed, so that it returns the error of that
rename, and `makeBackup` called again returns nil, then the files are those
that a single call returning nil leaves when it starts from the files of the
original state. -/
theorem makeBackup_retry (p : Str) (N k : Nat) (fs fs' : FS) (pre : List Event)
    (o n : Str) (e : OsError)
    (hN : 1 ≤ N) (hk : k ≤ N)
    (ht : fs.files (newDataBackupHelper p).folder ≠ none)
    (hex : ∀ i, i < k → fs.files ((newDataBackupHelper p).makeName i) ≠ none)
    (hfree : ∀ i, k ≤ i → fs.files ((newDataBackupHelper p).makeName i) = none)
    (htr : ((newDataBackupHelper p).makeBackup N fs).2.trace =
      fs.trace ++ (pre ++ [⟨.Rename o n, some e⟩]))
    (hpre : ∀ ev ∈ pre, ev.ok = true)
    (hagain : ((newDataBackupHelper p).makeBackup N
      ((newDataBackupHelper p).makeBackup N fs).2).1 = .nil)
    (hsame : fs'.files = fs.files)
    (hone : ((newDataBackupHelper p).makeBackup N fs').1 = .nil) :
    ((newDataBackupHelper p).makeBackup N fs).1 = .err e ∧
    ((newDataBackupHelper p).makeBackup N ((newDataBackupHelper p).makeBackup N fs).2).2.files =
      ((newDataBackupHelper p).makeBackup N fs').2.files :=
  makeBackup_again (newDataBackupHelper p) (newDataBackupHelper_separate p) N k fs fs' pre o n e
    hN hk ht hex hfree htr hpre hagain hsame hone

/-- C15, at limit 3 on `/data/store` with the generations 0 and 1, where the
rename of generation 0 to generation 1 (the call number 6) fails with code 5:
the first call returns that error, and after the second call the files are
those of a single call without failure. -/
theorem makeBackup_retry_witness :
    ((newDataBackupHelper "/data/store".toList).makeBackup 3
      (FS.ofList [("/data/store".toList, 7), ("/data/store.old.0".toList, 6),
        ("/data/store.old.1".toList, 5)] [(6, 5)])).1 = .err (.other 5) ∧
    ((newDataBackupHelper "/data/store".toList).makeBackup 3
      ((newDataBackupHelper "/data/store".toList).makeBackup 3
        (FS.ofList [("/data/store".toList, 7), ("/data/store.old.0".toList, 6),
          ("/data/store.old.1".toList, 5)] [(6, 5)])).2).2.files =
      ((newDataBackupHelper "/data/store".toList).makeBackup 3
        (FS.ofList [("/data/store".toList, 7), ("/data/store.old.0".toList, 6),
          ("/data/store.old.1".toList, 5)] [])).2.files :=
  makeBackup_retry "/data/store".toList 3 2
    (FS.ofList [("/data/store".toList, 7), ("/data/store.old.0".toList, 6),
      ("/data/store.old.1".toList, 5)] [(6, 5)])
    (FS.ofList [("/data/store".toList, 7), ("/data/store.old.0".toList, 6),
      ("/data/store.old.1".toList, 5)] [])
    [⟨.Stat "/data/store".toList, none⟩, ⟨.MkdirAll "/data".toList, none⟩,
      ⟨.Stat "/data/store.old.0".toList, none⟩, ⟨.Stat "/data/store.old.1".toList, none⟩,
      ⟨.Stat "/data/store.old.2".toList, some .notExist⟩,
      ⟨.Rename "/data/store.old.1".toList "/data/store.old.2".toList, none⟩]
    "/data/store.old.0".toList "/data/store.old.1".toList (.other 5)
    (by decide) (by decide) (by decide) (by decide)
    (by
      intro i hi
      have h0 : (newDataBackupHelper "/data/store".toList).folder = "/data/store".toList := by
        decide
      have h1 : (newDataBackupHelper "/data/store".toList).makeName 0 =
          "/data/store.old.0".toList := by decide
      have h2 : (newDataBackupHelper "/data/store".toList).makeName 1 =
          "/data/store.old.1".toList := by decide
      refine ofList_files_none _ _ _ (fun x hx => ?_)
      simp only [List.mem_cons, List.mem_singleton, List.not_mem_nil, or_false] at hx
      rcases hx with rfl | rfl | rfl
      · rw [← h0]
        exact makeName_ne_folder _ i
      · rw [← h1]
        exact fun h => by have := makeName_injective _ h; omega
      · rw [← h2]
        exact fun h => by have := makeName_injective _ h; omega)
    (by decide) (by decide) (by decide) rfl (by decide)

end Raft
